import Mathlib

/-!
# Element-wise comparison and min/max kernels (`scalar_compare.cc`)

A shallow embedding of the kernels of
`cpp/src/arrow/compute/kernels/scalar_compare.cc` and the properties the
specification states about them.

Conventions of the embedding:

* a buffer is a `List`; a validity bitmap is a `List Bool` (one entry per bit);
  an absent buffer (`buffers[0] == nullptr`) is `none`;
* integer values are `Int`, restricted to the range of their C++ type by an
  explicit range predicate where the range matters;
* the allocator always succeeds, so the `Status` of the min/max kernels is
  always `OK` and only the output is returned.
-/

namespace Arrow

/-! ## Value model -/

/-- The options `ElementWiseAggregateOptions` of the variadic min/max functions. -/
structure ElementWiseAggregateOptions where
  skip_nulls : Bool
deriving DecidableEq, Repr

/-- A fixed-width `Scalar`: validity flag and payload. -/
structure Scalar (α : Type) where
  is_valid : Bool
  value : α
deriving DecidableEq, Repr

/-- A fixed-width `ArrayData`: `validity` is `buffers[0]`, `values` is `buffers[1]`
(both unsliced: element `i` lives at position `offset + i`). -/
structure ArrayData (α : Type) where
  length : Nat
  null_count : Int
  offset : Nat
  validity : Option (List Bool)
  values : List α
deriving DecidableEq, Repr

/-- A `Datum`: exactly one of a scalar or an array. -/
inductive Datum (α : Type) where
  | scalar (s : Scalar α)
  | array (a : ArrayData α)
deriving DecidableEq, Repr

/-- An `ExecBatch`: the operands and the common length of its arrays. -/
structure ExecBatch (α : Type) where
  values : List (Datum α)
  length : Nat
deriving DecidableEq, Repr

/-- The test `Datum::is_scalar`. -/
def Datum.is_scalar {α : Type} : Datum α → Bool
  | .scalar _ => true
  | .array _ => false

/-- The test `Datum::is_array`. -/
def Datum.is_array {α : Type} : Datum α → Bool
  | .scalar _ => false
  | .array _ => true

/-- The bit read `bit_util::GetBit(bitmap, i)`. -/
def GetBit (bitmap : List Bool) (i : Nat) : Bool :=
  bitmap.getD i false

/-- Modelled from the spec: `ArrayData::MayHaveNulls` (declared in
`arrow/array/data.h`, not part of this file): the array has a validity bitmap
and its null count is not known to be zero. -/
def ArrayData.MayHaveNulls {α : Type} (a : ArrayData α) : Bool :=
  a.null_count != 0 && a.validity.isSome

/-- Validity of element `i` as the array visitors see it: the bit at
`offset + i` of the bitmap, or valid when there is no bitmap. -/
def ArrayData.IsValid {α : Type} (a : ArrayData α) (i : Nat) : Bool :=
  match a.validity with
  | none => true
  | some bitmap => GetBit bitmap (a.offset + i)

/-- The value of element `i`: `GetValues<T>(1)[i]`, which is offset-adjusted. -/
def ArrayData.GetValue {α : Type} [Inhabited α] (a : ArrayData α) (i : Nat) : α :=
  a.values.getD (a.offset + i) default

/-! ## The operators `Minimum` and `Maximum` -/

/-- The part of the policy structs `Minimum` / `Maximum` that the fixed-width
kernel uses: the binary `Call` and the `antiextreme` sentinel. -/
structure MinMaxOp (α : Type) where
  Call : α → α → α
  antiextreme : α

/-- An integer C++ type: signedness and width in bits. -/
structure IntType where
  is_signed : Bool
  bits : Nat
deriving DecidableEq, Repr

/-- The constant `std::numeric_limits<T>::max()`. -/
def IntType.numeric_limits_max (T : IntType) : Int :=
  if T.is_signed then 2 ^ (T.bits - 1) - 1 else 2 ^ T.bits - 1

/-- The constant `std::numeric_limits<T>::min()`. -/
def IntType.numeric_limits_min (T : IntType) : Int :=
  if T.is_signed then -(2 ^ (T.bits - 1)) else 0

/-- The values representable in the integer type `T`. -/
def IntType.InRange (T : IntType) (v : Int) : Prop :=
  T.numeric_limits_min ≤ v ∧ v ≤ T.numeric_limits_max

instance (T : IntType) (v : Int) : Decidable (T.InRange v) := by
  unfold IntType.InRange; infer_instance

/-- The function `std::min(left, right)`: `right` if `right < left`, else `left`. -/
def std_min (left right : Int) : Int :=
  if right < left then right else left

/-- The function `std::max(left, right)`: `right` if `left < right`, else `left`. -/
def std_max (left right : Int) : Int :=
  if left < right then right else left

/-- The struct `Minimum` at an integer type (`enable_if_integer_value` overloads). -/
def Minimum (T : IntType) : MinMaxOp Int :=
  { Call := fun left right => std_min left right
    antiextreme := T.numeric_limits_max }

/-- The struct `Maximum` at an integer type (`enable_if_integer_value` overloads). -/
def Maximum (T : IntType) : MinMaxOp Int :=
  { Call := fun left right => std_max left right
    antiextreme := T.numeric_limits_min }

/-! ## `ScalarMinMax` -/

namespace ScalarMinMax

/-- The loop of `ExecScalar` over `batch.values`, carrying `value` and `valid`.
`none` is the early `return` taken at a null scalar when nulls are not skipped. -/
def ExecScalarLoop {α : Type} (op : MinMaxOp α) (skip_nulls : Bool) :
    List (Datum α) → α → Bool → Option (α × Bool)
  | [], value, valid => some (value, valid)
  | .array _ :: rest, value, valid => ExecScalarLoop op skip_nulls rest value valid
  | .scalar scalar :: rest, value, valid =>
    if !scalar.is_valid then
      if skip_nulls then ExecScalarLoop op skip_nulls rest value valid
      else none
    else if !valid then ExecScalarLoop op skip_nulls rest scalar.value true
    else ExecScalarLoop op skip_nulls rest (op.Call value scalar.value) true

/-- The function `ScalarMinMax::ExecScalar`: folds the scalar operands of the
batch into `out`. On the early return and when no operand contributed only
`is_valid` is written. -/
def ExecScalar {α : Type} [Inhabited α] (op : MinMaxOp α) (batch : ExecBatch α)
    (options : ElementWiseAggregateOptions) (out : Scalar α) : Scalar α :=
  match ExecScalarLoop op options.skip_nulls batch.values default false with
  | none => { out with is_valid := false }
  | some (value, valid) =>
    if valid then { is_valid := true, value := value }
    else { out with is_valid := false }

/-- The call `std::fill(out, out + n, value)` on a values buffer. -/
def Fill {α : Type} : List α → Nat → α → List α
  | [], _, _ => []
  | v :: vs, 0, _ => v :: vs
  | _ :: vs, n + 1, value => value :: Fill vs n value

/-- Modelled from the spec: `internal::CopyBitmap(src, offset, length, dest, 0)`
of `arrow/util/bitmap_ops.h`, the bitmap collaborator's `copy`, into a bitmap
freshly allocated for `length` bits. -/
def CopyBitmap (src : List Bool) (offset length : Nat) : List Bool :=
  (List.range length).map (fun i => GetBit src (offset + i))

/-- Modelled from the spec: `internal::BitmapOr(left, 0, right, right_offset,
length, 0, out)` of `arrow/util/bitmap_ops.h`, the collaborator's `bitwise_or`,
with `out` the `length`-bit left operand itself. -/
def BitmapOr (left right : List Bool) (right_offset length : Nat) : List Bool :=
  (List.range length).map (fun i => GetBit left i || GetBit right (right_offset + i))

/-- Modelled from the spec: `internal::BitmapAnd(left, 0, right, right_offset,
length, 0, out)` of `arrow/util/bitmap_ops.h`, the collaborator's `bitwise_and`,
with `out` the `length`-bit left operand itself. -/
def BitmapAnd (left right : List Bool) (right_offset length : Nat) : List Bool :=
  (List.range length).map (fun i => GetBit left i && GetBit right (right_offset + i))

/-- Modelled from the spec: `MakeArrayFromScalar` of `arrow/array/util.h` applied
to a null scalar: "that null broadcast to the batch length", an array of `length`
null elements. -/
def MakeArrayFromNullScalar {α : Type} [Inhabited α] (length : Nat) : ArrayData α :=
  { length := length
    null_count := length
    offset := 0
    validity := some (List.replicate length false)
    values := List.replicate length default }

/-- The array operands of a batch, in order (`arrays` of `Exec`). -/
def Arrays {α : Type} (batch : ExecBatch α) : List (ArrayData α) :=
  batch.values.filterMap (fun arg =>
    match arg with
    | .array a => some a
    | .scalar _ => none)

/-- One iteration of the loop "OR together the validity buffers of all arrays":
copy the first bitmap into a new output bitmap, or-combine the later ones. -/
def OrStep {α : Type} (length : Nat) (buffer0 : Option (List Bool)) (arr : ArrayData α) :
    Option (List Bool) :=
  if !arr.MayHaveNulls then buffer0
  else
    match arr.validity with
    | none => buffer0
    | some bitmap =>
      match buffer0 with
      | none => some (CopyBitmap bitmap arr.offset length)
      | some out => some (BitmapOr out bitmap arr.offset length)

/-- One iteration of the loop "AND together the validity buffers of all arrays". -/
def AndStep {α : Type} (length : Nat) (buffer0 : Option (List Bool)) (arr : ArrayData α) :
    Option (List Bool) :=
  if !arr.MayHaveNulls then buffer0
  else
    match arr.validity with
    | none => buffer0
    | some bitmap =>
      match buffer0 with
      | none => some (CopyBitmap bitmap arr.offset length)
      | some out => some (BitmapAnd out bitmap arr.offset length)

/-- The block "Precompute the validity buffer" of `Exec`, as a function of the
output's `buffers[0]`. -/
def PrecomputeValidity {α : Type} (options : ElementWiseAggregateOptions)
    (initialize_output : Bool) (arrays : List (ArrayData α)) (length : Nat)
    (buffer0 : Option (List Bool)) : Option (List Bool) :=
  if options.skip_nulls && initialize_output then
    if arrays.all (fun arr => arr.MayHaveNulls) then
      arrays.foldl (OrStep length) buffer0
    else buffer0
  else if !options.skip_nulls then
    arrays.foldl (AndStep length) buffer0
  else buffer0

/-- The test `!output->buffers[0] || bit_util::GetBit(output->buffers[0]->data(), index)`. -/
def BitmapValid (buffer0 : Option (List Bool)) (index : Nat) : Bool :=
  match buffer0 with
  | none => true
  | some bitmap => GetBit bitmap index

/-- One element of the fold pass over `array`: the valid-value visitor combines
the output value `u` at `index` with `value` where the output row is valid and
overwrites it where it is not; the null visitor leaves the output untouched. -/
def VisitElement {α : Type} [Inhabited α] (op : MinMaxOp α) (array : ArrayData α)
    (output : ArrayData α) (index : Nat) : ArrayData α :=
  if array.IsValid index then
    let value := array.GetValue index
    let u := output.values.getD index default
    let written := if BitmapValid output.validity index then op.Call u value else value
    { output with values := output.values.set index written }
  else output

/-- The fold pass of one array operand into the output
(`VisitArrayValuesInline` over the rows `0 .. array.length - 1`). -/
def VisitArray {α : Type} [Inhabited α] (op : MinMaxOp α) (output : ArrayData α)
    (array : ArrayData α) : ArrayData α :=
  (List.range array.length).foldl (VisitElement op array) output

/-- The array branch of `ScalarMinMax::Exec` (at least one operand is an array),
acting on the output `ArrayData`. -/
def ExecArrays {α : Type} [Inhabited α] (op : MinMaxOp α)
    (options : ElementWiseAggregateOptions) (batch : ExecBatch α)
    (output : ArrayData α) : ArrayData α :=
  let scalar_count := batch.values.countP Datum.is_scalar
  let arrays := Arrays batch
  -- `MakeScalar(out->type(), 0)` followed by `ExecScalar(batch, options, temp_scalar)`
  let temp_scalar := ExecScalar op batch options { is_valid := true, value := default }
  if 0 < scalar_count && !temp_scalar.is_valid && !options.skip_nulls then
    -- Abort early
    MakeArrayFromNullScalar batch.length
  else
    let initialize_output := !(0 < scalar_count && temp_scalar.is_valid)
    let filled :=
      if initialize_output then Fill output.values batch.length op.antiextreme
      else Fill output.values batch.length temp_scalar.value
    let output1 : ArrayData α :=
      { output with
        values := filled
        validity := PrecomputeValidity options initialize_output arrays batch.length
          output.validity }
    let output2 := arrays.foldl (VisitArray op) output1
    { output2 with null_count := if output2.validity.isSome then -1 else 0 }

/-- The function `ScalarMinMax::Exec`. `none` is the failed access `out->scalar()`
or `out->mutable_array()` when `out` has not the shape of the batch. -/
def Exec {α : Type} [Inhabited α] (op : MinMaxOp α)
    (options : ElementWiseAggregateOptions) (batch : ExecBatch α)
    (out : Datum α) : Option (Datum α) :=
  let scalar_count := batch.values.countP Datum.is_scalar
  if scalar_count = batch.values.length then
    match out with
    | .scalar s => some (.scalar (ExecScalar op batch options s))
    | .array _ => none
  else
    match out with
    | .scalar _ => none
    | .array output => some (.array (ExecArrays op options batch output))

end ScalarMinMax

/-! ## Reading a datum as optional values -/

/-- The element `i` of an array as an optional value (`none` for a null). -/
def ArrayData.Get? {α : Type} [Inhabited α] (a : ArrayData α) (i : Nat) : Option α :=
  if a.IsValid i then some (a.GetValue i) else none

/-- The operand `d` at row `i`: a scalar is the same at every row. -/
def Datum.At {α : Type} [Inhabited α] (d : Datum α) (i : Nat) : Option α :=
  match d with
  | .scalar s => if s.is_valid then some s.value else none
  | .array a => a.Get? i

/-! ## Types, descriptors and kernels of the comparison functions -/

/-- The enumeration `TimeUnit::type`. -/
inductive TimeUnit where
  | SECOND
  | MILLI
  | MICRO
  | NANO
deriving DecidableEq, Repr

/-- The data types the kernels of this file are registered for or decode. -/
inductive DataType where
  | null
  | boolean
  | int8
  | int16
  | int32
  | int64
  | uint8
  | uint16
  | uint32
  | uint64
  | float32
  | float64
  | date32
  | date64
  | time32 (unit : TimeUnit)
  | time64 (unit : TimeUnit)
  | timestamp (unit : TimeUnit) (timezone : String)
  | duration (unit : TimeUnit)
  | binary
  | string
  | large_binary
  | large_string
  | fixed_size_binary (byte_width : Nat)
  | decimal128 (precision scale : Int)
  | decimal256 (precision scale : Int)
  | dictionary (index value : DataType)
deriving DecidableEq, Repr

/-- The enumeration `Type::type` of the types above. -/
inductive TypeId where
  | NA
  | BOOL
  | INT8
  | INT16
  | INT32
  | INT64
  | UINT8
  | UINT16
  | UINT32
  | UINT64
  | FLOAT
  | DOUBLE
  | DATE32
  | DATE64
  | TIME32
  | TIME64
  | TIMESTAMP
  | DURATION
  | BINARY
  | STRING
  | LARGE_BINARY
  | LARGE_STRING
  | FIXED_SIZE_BINARY
  | DECIMAL128
  | DECIMAL256
  | DICTIONARY
deriving DecidableEq, Repr

/-- The accessor `DataType::id`. -/
def DataType.id : DataType → TypeId
  | .null => .NA
  | .boolean => .BOOL
  | .int8 => .INT8
  | .int16 => .INT16
  | .int32 => .INT32
  | .int64 => .INT64
  | .uint8 => .UINT8
  | .uint16 => .UINT16
  | .uint32 => .UINT32
  | .uint64 => .UINT64
  | .float32 => .FLOAT
  | .float64 => .DOUBLE
  | .date32 => .DATE32
  | .date64 => .DATE64
  | .time32 _ => .TIME32
  | .time64 _ => .TIME64
  | .timestamp _ _ => .TIMESTAMP
  | .duration _ => .DURATION
  | .binary => .BINARY
  | .string => .STRING
  | .large_binary => .LARGE_BINARY
  | .large_string => .LARGE_STRING
  | .fixed_size_binary _ => .FIXED_SIZE_BINARY
  | .decimal128 _ _ => .DECIMAL128
  | .decimal256 _ _ => .DECIMAL256
  | .dictionary _ _ => .DICTIONARY

/-- The shape tag `ValueDescr::Shape`. -/
inductive Shape where
  | ANY
  | ARRAY
  | SCALAR
deriving DecidableEq, Repr

/-- A `ValueDescr`: a type and a shape, used for dispatch only. -/
structure ValueDescr where
  type : DataType
  shape : Shape
deriving DecidableEq, Repr

/-- The type matchers used by the kernels of this file (`match::TimestampTypeUnit`
and its siblings, and the match on the type id of `InputType(Type::type)`). -/
inductive TypeMatcher where
  | TimestampTypeUnit (unit : TimeUnit)
  | DurationTypeUnit (unit : TimeUnit)
  | Time32TypeUnit (unit : TimeUnit)
  | Time64TypeUnit (unit : TimeUnit)
  | SameTypeId (id : TypeId)
deriving DecidableEq, Repr

/-- The test `TypeMatcher::Matches`. -/
def TypeMatcher.Matches : TypeMatcher → DataType → Bool
  | .TimestampTypeUnit u, .timestamp v _ => u == v
  | .DurationTypeUnit u, .duration v => u == v
  | .Time32TypeUnit u, .time32 v => u == v
  | .Time64TypeUnit u, .time64 v => u == v
  | .SameTypeId id, t => t.id == id
  | _, _ => false

/-- An `InputType`: an exact type or a type matcher. Every `InputType` of this
file is built from a type or a matcher alone, so its shape is `ANY`. -/
inductive InputType where
  | exact (type : DataType)
  | matcher (m : TypeMatcher)
deriving DecidableEq, Repr

/-- The test `InputType::Matches(const ValueDescr&)` at shape `ANY`. -/
def InputType.Matches (t : InputType) (descr : ValueDescr) : Bool :=
  match t with
  | .exact type => type == descr.type
  | .matcher m => m.Matches descr.type

/-- The codes of `Status` that occur in this file. -/
inductive StatusCode where
  | OK
  | Invalid
  | NotImplemented
deriving DecidableEq, Repr

/-- A `Status`: a code and a message. -/
structure Status where
  code : StatusCode
  msg : String
deriving DecidableEq, Repr

/-- The value `Status::OK()`. -/
def Status.OK : Status := { code := StatusCode.OK, msg := "" }

/-- The value `Status::Invalid(msg)`. -/
def Status.Invalid (msg : String) : Status := { code := StatusCode.Invalid, msg := msg }

/-- The value `Status::NotImplemented(msg)`. -/
def Status.NotImplemented (msg : String) : Status :=
  { code := StatusCode.NotImplemented, msg := msg }

/-- An `OutputType`: a fixed type, or the type computed from the descriptors of
the arguments by the resolver `ResolveMinOrMaxOutputType`, the only resolver of
this file. -/
inductive OutputType where
  | fixed (type : DataType)
  | computed
deriving DecidableEq, Repr

/-- A `KernelSignature`: input types, output type and the variadic flag. -/
structure KernelSignature where
  in_types : List InputType
  out_type : OutputType
  is_varargs : Bool
deriving DecidableEq, Repr

/-- An `Arity`: the number of arguments of a function, or the least number of
arguments of a variadic function. -/
structure Arity where
  num_args : Nat
  is_varargs : Bool
deriving DecidableEq, Repr

/-- The arity `Arity::Binary()`. -/
def Arity.Binary : Arity := { num_args := 2, is_varargs := false }

/-- The arity `Arity::VarArgs(min_args)`. -/
def Arity.VarArgs (min_args : Nat) : Arity := { num_args := min_args, is_varargs := true }

/-- An operand of a comparison kernel: a datum together with its type. -/
structure TypedDatum (α : Type) where
  type : DataType
  datum : Datum α
deriving DecidableEq, Repr

/-- An `ExecBatch` whose operands carry their type. -/
structure TypedBatch (α : Type) where
  values : List (TypedDatum α)
  length : Nat
deriving DecidableEq, Repr

/-- The shape of a datum (`Datum::shape`). -/
def Datum.shape {α : Type} : Datum α → Shape
  | .scalar _ => Shape.SCALAR
  | .array _ => Shape.ARRAY

/-- The descriptor of an operand (`Datum::descr`). -/
def TypedDatum.descr {α : Type} (d : TypedDatum α) : ValueDescr :=
  { type := d.type, shape := d.datum.shape }

/-- The descriptors of a batch (`ExecBatch::GetDescriptors`). -/
def TypedBatch.GetDescriptors {α : Type} (batch : TypedBatch α) : List ValueDescr :=
  batch.values.map TypedDatum.descr

/-- The boolean output of a comparison kernel: one optional value for a scalar
output, one per row for an array output (`none` is a null). -/
inductive CompareOutput where
  | scalar (value : Option Bool)
  | array (rows : List (Option Bool))
deriving DecidableEq, Repr

/-- An `ArrayKernelExec` of the comparison family: from the batch and the state
of `out` before the call to the returned `Status` and the state of `out` after
the call. `none` stands for a call that breaks the kernel's contract. -/
abbrev KernelExec (α : Type) :=
  TypedBatch α → CompareOutput → Option (Status × CompareOutput)

/-- The enumeration `NullHandling::type` of a kernel. -/
inductive NullHandling where
  | INTERSECTION
  | COMPUTED_PREALLOCATE
  | COMPUTED_NO_PREALLOCATE
  | OUTPUT_NOT_NULL
deriving DecidableEq, Repr

/-- The enumeration `MemAllocation::type` of a kernel. -/
inductive MemAllocation where
  | PREALLOCATE
  | NO_PREALLOCATE
deriving DecidableEq, Repr

/-- A kernel: signature, exec (of type `ε`), null handling and memory
allocation. -/
structure Kernel (ε : Type) where
  signature : KernelSignature
  exec : ε
  null_handling : NullHandling
  mem_allocation : MemAllocation

/-- A function (`detail::FunctionImpl<KernelType>`): name, arity and registered
kernels. -/
structure FunctionImpl (ε : Type) where
  name : String
  arity : Arity
  kernels : List (Kernel ε)

/-- A `ScalarKernel` of the comparison family. -/
abbrev ScalarKernel (α : Type) := Kernel (KernelExec α)

/-- A `ScalarFunction` of the comparison family. -/
abbrev ScalarFunction (α : Type) := FunctionImpl (KernelExec α)

/-- Modelled from the spec: `KernelSignature::MatchesInputs` of
`arrow/compute/kernel.cc`: the signature "structurally matches the given
ValueDescriptors verbatim"; a variadic signature applies its last input type
to the remaining arguments. -/
def KernelSignature.MatchesInputs (sig : KernelSignature) (args : List ValueDescr) : Bool :=
  if sig.is_varargs then
    (List.range args.length).all (fun i =>
      match sig.in_types[min i (sig.in_types.length - 1)]?, args[i]? with
      | some t, some a => t.Matches a
      | _, _ => false)
  else
    args.length == sig.in_types.length &&
      (List.zipWith InputType.Matches sig.in_types args).all (fun b => b)

/-- Modelled from the spec: `detail::DispatchExactImpl` of
`arrow/compute/function.cc`: "search registered kernels for one whose signature
structurally matches the given ValueDescriptors verbatim"; of several matching
kernels the one registered last is taken. -/
def DispatchExactImpl {ε : Type} (func : FunctionImpl ε) (values : List ValueDescr) :
    Option (Kernel ε) :=
  (func.kernels.filter (fun k => k.signature.MatchesInputs values)).getLast?

/-- The comparison operator `Equal::Call`. -/
def Equal.Call {α : Type} [BEq α] (left right : α) : Bool := left == right

/-- The comparison operator `NotEqual::Call`. -/
def NotEqual.Call {α : Type} [BEq α] (left right : α) : Bool := left != right

/-- The comparison operator `Greater::Call`. -/
def Greater.Call {α : Type} [LT α] [∀ a b : α, Decidable (a < b)] (left right : α) : Bool :=
  decide (left > right)

/-- The comparison operator `GreaterEqual::Call`. -/
def GreaterEqual.Call {α : Type} [LE α] [∀ a b : α, Decidable (a ≤ b)] (left right : α) :
    Bool :=
  decide (left ≥ right)

/-- The comparison of two optional operands: null if either is null, else
`Call` of the two values. -/
def CompareCell {α : Type} (Call : α → α → Bool) : Option α → Option α → Option Bool
  | some left, some right => some (Call left right)
  | _, _ => none

/-- Modelled from the spec: `applicator::ScalarBinaryEqualTypes<BooleanType,
ArgType, Op>::Exec` of `codegen_internal.h` under the executor's default null
handling: a "binary elementwise predicate over two same-type operands, producing
a boolean-typed output of the same shape/length as the broadcast of the two
inputs", where the "output element is null iff either input element is null at
that position" and the comparison is evaluated on valid payloads only. -/
def ScalarBinaryEqualTypes.Exec {α : Type} [Inhabited α] (Call : α → α → Bool) :
    KernelExec α :=
  fun batch _ =>
    match batch.values with
    | [x, y] =>
      if x.datum.is_scalar && y.datum.is_scalar then
        some (Status.OK, .scalar (CompareCell Call (x.datum.At 0) (y.datum.At 0)))
      else
        some (Status.OK, .array ((List.range batch.length).map
          (fun i => CompareCell Call (x.datum.At i) (y.datum.At i))))
    | _ => none

/-- Modelled from the spec: `TimestampType::ToString` of `arrow/type.cc`, the
rendering of a timestamp type in the "descriptive type error". -/
def TimestampToString (unit : TimeUnit) (timezone : String) : String :=
  "timestamp[" ++
    (match unit with
     | .SECOND => "s"
     | .MILLI => "ms"
     | .MICRO => "us"
     | .NANO => "ns") ++
    (if timezone.isEmpty then "" else ", tz=" ++ timezone) ++ "]"

/-- The error of `CompareTimestamps::Exec` for operand types `lhs` and `rhs`. -/
def CompareTimestamps.Error (lu : TimeUnit) (ltz : String) (ru : TimeUnit) (rtz : String) :
    Status :=
  Status.Invalid
    ("Cannot compare timestamp with timezone to timestamp without timezone, got: " ++
      TimestampToString lu ltz ++ " and " ++ TimestampToString ru rtz)

/-- The function `CompareTimestamps::Exec` over the exec `Base_Exec` of its base
class. `none` is the `checked_cast` of a type that is no timestamp type (or a
batch with fewer than two operands). -/
def CompareTimestamps.Exec {α : Type} (Base_Exec : KernelExec α) : KernelExec α :=
  fun batch out =>
    match batch.values with
    | x :: y :: _ =>
      match x.type, y.type with
      | .timestamp lu ltz, .timestamp ru rtz =>
        if xor ltz.isEmpty rtz.isEmpty then
          some (CompareTimestamps.Error lu ltz ru rtz, out)
        else Base_Exec batch out
      | _, _ => none
    | _ => none

/-- Modelled from the spec: `MakeFlippedBinaryExec` of `codegen_internal.h`, the
"operand-flip adapter that swaps argument order before invoking the same kernel
body". -/
def MakeFlippedBinaryExec {α : Type} (exec : KernelExec α) : KernelExec α :=
  fun batch out =>
    match batch.values with
    | x :: y :: rest => exec { batch with values := y :: x :: rest } out
    | _ => exec batch out

/-- The function `MakeFlippedFunction`: a function with one kernel per kernel of
`func`, a copy of it whose exec is flipped (the success that `DCHECK_OK` asserts
of `AddKernel` is taken for granted). -/
def MakeFlippedFunction {α : Type} (name : String) (func : ScalarFunction α) :
    ScalarFunction α :=
  { name := name
    arity := Arity.Binary
    kernels := func.kernels.map (fun kernel =>
      { kernel with exec := MakeFlippedBinaryExec kernel.exec }) }

/-- Modelled from the spec: the invocation of a function on a batch, "a caller
submits a named operation plus a list of operand descriptors to the Dispatcher,
which returns a concrete kernel; the caller then invokes that kernel with the
actual operand data": exact-match dispatch on the descriptors of the batch,
then the exec of the kernel found. `none` also stands for a failed dispatch. -/
def CallExact {α : Type} (func : ScalarFunction α) (batch : TypedBatch α)
    (out : CompareOutput) : Option (Status × CompareOutput) :=
  match DispatchExactImpl func batch.GetDescriptors with
  | some kernel => kernel.exec batch out
  | none => none

/-! ## Registration of the comparison functions -/

/-- Modelled from the spec: the table `IntTypes()` of `arrow/type.cc`, "all
signed/unsigned integer widths". -/
def IntTypes : List DataType :=
  [.int8, .int16, .int32, .int64, .uint8, .uint16, .uint32, .uint64]

/-- Modelled from the spec: the table `BaseBinaryTypes()` of `arrow/type.cc`, "all
variable-length binary/string variants". -/
def BaseBinaryTypes : List DataType :=
  [.binary, .string, .large_binary, .large_string]

/-- Modelled from the spec: the table `TimeUnit::values()`, "every ... unit
variant". -/
def TimeUnit.values : List TimeUnit :=
  [.SECOND, .MILLI, .MICRO, .NANO]

/-- The call `func->AddKernel(in_types, out_type, exec)` (the success that
`DCHECK_OK` asserts is taken for granted): the kernel is appended, with the
null handling and memory allocation a `ScalarKernel` has by default. -/
def AddKernel {α : Type} (func : ScalarFunction α) (in_types : List InputType)
    (out_type : DataType) (exec : KernelExec α) : ScalarFunction α :=
  { func with
    kernels := func.kernels ++
      [{ signature :=
           { in_types := in_types, out_type := .fixed out_type, is_varargs := false }
         exec := exec
         null_handling := NullHandling.INTERSECTION
         mem_allocation := MemAllocation.PREALLOCATE }] }

/-- The function `AddIntegerCompare`: the kernel `(ty, ty) -> boolean` whose exec
is `ScalarBinaryEqualTypes` at the physical integer type of `ty`. -/
def AddIntegerCompare {α : Type} [Inhabited α] (Call : α → α → Bool) (ty : DataType)
    (func : ScalarFunction α) : ScalarFunction α :=
  AddKernel func [.exact ty, .exact ty] .boolean (ScalarBinaryEqualTypes.Exec Call)

/-- The function `AddGenericCompare`: the kernel `(ty, ty) -> boolean` whose exec
is `ScalarBinaryEqualTypes<BooleanType, InType, Op>::Exec`. -/
def AddGenericCompare {α : Type} [Inhabited α] (Call : α → α → Bool) (ty : DataType)
    (func : ScalarFunction α) : ScalarFunction α :=
  AddKernel func [.exact ty, .exact ty] .boolean (ScalarBinaryEqualTypes.Exec Call)

/-- The function `MakeCompareFunction<Op>`: the kernels of a comparison function,
in the order of registration. -/
def MakeCompareFunction {α : Type} [Inhabited α] (name : String) (Call : α → α → Bool) :
    ScalarFunction α :=
  let func : ScalarFunction α := { name := name, arity := Arity.Binary, kernels := [] }
  let func := AddKernel func [.exact .boolean, .exact .boolean] .boolean
    (ScalarBinaryEqualTypes.Exec Call)
  let func := IntTypes.foldl (fun f ty => AddIntegerCompare Call ty f) func
  let func := AddIntegerCompare Call .date32 func
  let func := AddIntegerCompare Call .date64 func
  let func := AddGenericCompare Call .float32 func
  let func := AddGenericCompare Call .float64 func
  -- Add timestamp kernels
  let func := TimeUnit.values.foldl (fun f unit =>
    AddKernel f [.matcher (.TimestampTypeUnit unit), .matcher (.TimestampTypeUnit unit)]
      .boolean (CompareTimestamps.Exec (ScalarBinaryEqualTypes.Exec Call))) func
  -- Duration
  let func := TimeUnit.values.foldl (fun f unit =>
    AddKernel f [.matcher (.DurationTypeUnit unit), .matcher (.DurationTypeUnit unit)]
      .boolean (ScalarBinaryEqualTypes.Exec Call)) func
  -- Time32 and Time64
  let func := [TimeUnit.SECOND, TimeUnit.MILLI].foldl (fun f unit =>
    AddKernel f [.matcher (.Time32TypeUnit unit), .matcher (.Time32TypeUnit unit)]
      .boolean (ScalarBinaryEqualTypes.Exec Call)) func
  let func := [TimeUnit.MICRO, TimeUnit.NANO].foldl (fun f unit =>
    AddKernel f [.matcher (.Time64TypeUnit unit), .matcher (.Time64TypeUnit unit)]
      .boolean (ScalarBinaryEqualTypes.Exec Call)) func
  let func := BaseBinaryTypes.foldl (fun f ty =>
    AddKernel f [.exact ty, .exact ty] .boolean (ScalarBinaryEqualTypes.Exec Call)) func
  let func := [TypeId.DECIMAL128, TypeId.DECIMAL256].foldl (fun f id =>
    AddKernel f [.matcher (.SameTypeId id), .matcher (.SameTypeId id)]
      .boolean (ScalarBinaryEqualTypes.Exec Call)) func
  AddKernel func
    [.matcher (.SameTypeId .FIXED_SIZE_BINARY), .matcher (.SameTypeId .FIXED_SIZE_BINARY)]
    .boolean (ScalarBinaryEqualTypes.Exec Call)

/-- The class of value types the comparison operators are instantiated at:
equality and a decidable order. -/
class Comparable (α : Type) extends BEq α, LT α, LE α, Inhabited α where
  decLt : ∀ a b : α, Decidable (a < b)
  decLe : ∀ a b : α, Decidable (a ≤ b)

instance {α : Type} [Comparable α] (a b : α) : Decidable (a < b) := Comparable.decLt a b

instance {α : Type} [Comparable α] (a b : α) : Decidable (a ≤ b) := Comparable.decLe a b

instance : Comparable Int where
  decLt := fun _ _ => inferInstance
  decLe := fun _ _ => inferInstance

/-- The function `equal` registered by `RegisterScalarComparison`. -/
def equal (α : Type) [Comparable α] : ScalarFunction α :=
  MakeCompareFunction "equal" Equal.Call

/-- The function `not_equal` registered by `RegisterScalarComparison`. -/
def not_equal (α : Type) [Comparable α] : ScalarFunction α :=
  MakeCompareFunction "not_equal" NotEqual.Call

/-- The function `greater` registered by `RegisterScalarComparison`. -/
def greater (α : Type) [Comparable α] : ScalarFunction α :=
  MakeCompareFunction "greater" Greater.Call

/-- The function `greater_equal` registered by `RegisterScalarComparison`. -/
def greater_equal (α : Type) [Comparable α] : ScalarFunction α :=
  MakeCompareFunction "greater_equal" GreaterEqual.Call

/-- The function `less` registered by `RegisterScalarComparison`. -/
def less (α : Type) [Comparable α] : ScalarFunction α :=
  MakeFlippedFunction "less" (greater α)

/-- The function `less_equal` registered by `RegisterScalarComparison`. -/
def less_equal (α : Type) [Comparable α] : ScalarFunction α :=
  MakeFlippedFunction "less_equal" (greater_equal α)

/-- The six comparison functions, each with the operator it stands for. -/
def RegisteredComparisons (α : Type) [Comparable α] :
    List (ScalarFunction α × (α → α → Bool)) :=
  [(equal α, fun x y => x == y),
   (not_equal α, fun x y => x != y),
   (greater α, fun x y => decide (x > y)),
   (greater_equal α, fun x y => decide (x ≥ y)),
   (less α, fun x y => decide (x < y)),
   (less_equal α, fun x y => decide (x ≤ y))]

/-- The types for which `MakeCompareFunction` registers a kernel: all but the
null type, dictionary types and the `time32` / `time64` types of a unit that
has no kernel. -/
def HasCompareKernel : DataType → Bool
  | .null => false
  | .dictionary _ _ => false
  | .time32 unit => unit == .SECOND || unit == .MILLI
  | .time64 unit => unit == .MICRO || unit == .NANO
  | _ => true

/-- The signatures of the kernels of a comparison function, in the order of
registration. -/
def CompareSignatures : List KernelSignature :=
  let binary (t : InputType) : KernelSignature :=
    { in_types := [t, t], out_type := .fixed .boolean, is_varargs := false }
  [binary (.exact .boolean)] ++
  IntTypes.map (fun ty => binary (.exact ty)) ++
  [binary (.exact .date32), binary (.exact .date64),
   binary (.exact .float32), binary (.exact .float64)] ++
  TimeUnit.values.map (fun unit => binary (.matcher (.TimestampTypeUnit unit))) ++
  TimeUnit.values.map (fun unit => binary (.matcher (.DurationTypeUnit unit))) ++
  [TimeUnit.SECOND, TimeUnit.MILLI].map (fun unit => binary (.matcher (.Time32TypeUnit unit))) ++
  [TimeUnit.MICRO, TimeUnit.NANO].map (fun unit => binary (.matcher (.Time64TypeUnit unit))) ++
  BaseBinaryTypes.map (fun ty => binary (.exact ty)) ++
  [TypeId.DECIMAL128, TypeId.DECIMAL256].map (fun id => binary (.matcher (.SameTypeId id))) ++
  [binary (.matcher (.SameTypeId .FIXED_SIZE_BINARY))]

/-- The rows of a comparison output. -/
def CompareOutput.Rows : CompareOutput → List (Option Bool)
  | .scalar value => [value]
  | .array rows => rows

/-- The contract of a comparison of the operands `x` and `y` with operator `Call`
that succeeded with output `result`: one row if both operands are scalars and
`n` rows otherwise; a row is null iff one of the two inputs is null there, and
is `Call` of the two values where both are valid. -/
def ComparisonContract {α : Type} [Inhabited α] (Call : α → α → Bool) (x y : Datum α)
    (n : Nat) (result : CompareOutput) : Prop :=
  result.Rows.length = (if x.is_scalar && y.is_scalar then 1 else n) ∧
  ∀ i, i < result.Rows.length →
    (result.Rows[i]? = some none ↔ (x.At i = none ∨ y.At i = none)) ∧
    (∀ a b, x.At i = some a → y.At i = some b → result.Rows[i]? = some (some (Call a b)))

/-! ## Dispatch -/

/-- The helper passes that `DispatchBest` calls, for the record of the calls a
dispatch makes. -/
inductive Pass where
  | CastBinaryDecimalArgs
  | EnsureDictionaryDecoded
  | ReplaceNullWithOtherType
  | CommonNumeric
  | CommonTemporal
  | CommonBinary
  | ReplaceTypes
deriving DecidableEq, Repr

/-- The enumeration `DecimalPromotion`. -/
inductive DecimalPromotion where
  | kAdd
  | kMultiply
  | kDivide
deriving DecidableEq, Repr

/-- The helpers of `codegen_internal.h` that `DispatchBest` calls and that are
not part of this file, as parameters. `CastBinaryDecimalArgs` returns its
`Status` and the descriptor list as it leaves it; `ToString` is the rendering
of a descriptor list in the error of `NoMatchingKernel`. -/
structure DispatchHelpers where
  CastBinaryDecimalArgs : DecimalPromotion → List ValueDescr → Status × List ValueDescr
  EnsureDictionaryDecoded : List ValueDescr → List ValueDescr
  ReplaceNullWithOtherType : List ValueDescr → List ValueDescr
  CommonNumeric : List ValueDescr → Option DataType
  CommonTemporal : List ValueDescr → Option DataType
  CommonBinary : List ValueDescr → Option DataType
  ToString : List ValueDescr → String

/-- Modelled from the spec: `HasDecimal` of `codegen_internal.h`, "any operand's
type is decimal". -/
def HasDecimal (values : List ValueDescr) : Bool :=
  values.any (fun descr => descr.type.id == TypeId.DECIMAL128 ||
    descr.type.id == TypeId.DECIMAL256)

/-- Modelled from the spec: `ReplaceTypes` of `codegen_internal.h`, which
"replaces all operand types with" the given type. -/
def ReplaceTypes (type : DataType) (values : List ValueDescr) : List ValueDescr :=
  values.map (fun descr => { descr with type := type })

/-- Modelled from the spec: the least number of arguments of `Arity::VarArgs()`
called without argument, as `MakeScalarMinMax` does: the arity of min/max is
"variadic-≥1". -/
def VarArgsDefaultMinArgs : Nat := 1

/-- Modelled from the spec: `Function::CheckArity` of `arrow/compute/function.cc`:
"the operand count must match the function's declared arity", exactly for a
fixed arity and as a lower bound for a variadic one; a "mismatch fails with an
arity error". -/
def CheckArity {ε : Type} (func : FunctionImpl ε) (values : List ValueDescr) : Status :=
  if func.arity.is_varargs then
    if values.length < func.arity.num_args then
      Status.Invalid ("VarArgs function " ++ func.name ++ " needs at least " ++
        toString func.arity.num_args ++ " arguments but " ++ toString values.length ++
        " passed")
    else Status.OK
  else if values.length ≠ func.arity.num_args then
    Status.Invalid ("Function " ++ func.name ++ " accepts " ++
      toString func.arity.num_args ++ " arguments but " ++ toString values.length ++
      " passed")
  else Status.OK

/-- Modelled from the spec: `detail::NoMatchingKernel` of
`arrow/compute/function.cc`, the "no matching kernel" error "naming the function
and the (possibly promoted) operand types". -/
def NoMatchingKernel {ε : Type} (H : DispatchHelpers) (func : FunctionImpl ε)
    (values : List ValueDescr) : Status :=
  Status.NotImplemented ("Function " ++ func.name ++
    " has no kernel matching input types " ++ H.ToString values)

/-- What a call of `DispatchBest` leaves behind: the returned kernel or error,
the descriptor list `*values` after the call, and the helper passes called, in
order. -/
structure DispatchOutcome (ε : Type) where
  result : Except Status (Kernel ε)
  values : List ValueDescr
  trace : List Pass

/-- The common-type step of `CompareFunction::DispatchBest`: the first of
`CommonNumeric`, `CommonTemporal`, `CommonBinary` that yields a type replaces
the type of every descriptor. Returns the list and the passes called. -/
def CompareFunction.CommonTypes (H : DispatchHelpers) (values : List ValueDescr) :
    List ValueDescr × List Pass :=
  match H.CommonNumeric values with
  | some type => (ReplaceTypes type values, [.CommonNumeric, .ReplaceTypes])
  | none =>
    match H.CommonTemporal values with
    | some type => (ReplaceTypes type values, [.CommonNumeric, .CommonTemporal, .ReplaceTypes])
    | none =>
      match H.CommonBinary values with
      | some type =>
        (ReplaceTypes type values,
          [.CommonNumeric, .CommonTemporal, .CommonBinary, .ReplaceTypes])
      | none => (values, [.CommonNumeric, .CommonTemporal, .CommonBinary])

/-- The part of `CompareFunction::DispatchBest` after the decimal cast: exact
dispatch, else the decoding and substitution passes and the retry. `trace` is
the record of the passes called so far. -/
def CompareFunction.DispatchExactOrPromote {ε : Type} (H : DispatchHelpers)
    (func : FunctionImpl ε) (values : List ValueDescr) (trace : List Pass) :
    DispatchOutcome ε :=
  match DispatchExactImpl func values with
  | some kernel => { result := .ok kernel, values := values, trace := trace }
  | none =>
    let values := H.EnsureDictionaryDecoded values
    let values := H.ReplaceNullWithOtherType values
    let common := CompareFunction.CommonTypes H values
    let trace := trace ++ [.EnsureDictionaryDecoded, .ReplaceNullWithOtherType] ++ common.2
    match DispatchExactImpl func common.1 with
    | some kernel => { result := .ok kernel, values := common.1, trace := trace }
    | none =>
      { result := .error (NoMatchingKernel H func common.1), values := common.1,
        trace := trace }

/-- The function `CompareFunction::DispatchBest`. -/
def CompareFunction.DispatchBest {ε : Type} (H : DispatchHelpers) (func : FunctionImpl ε)
    (values : List ValueDescr) : DispatchOutcome ε :=
  let status := CheckArity func values
  if status.code ≠ StatusCode.OK then
    { result := .error status, values := values, trace := [] }
  else if HasDecimal values then
    let cast := H.CastBinaryDecimalArgs DecimalPromotion.kAdd values
    if cast.1.code ≠ StatusCode.OK then
      { result := .error cast.1, values := cast.2, trace := [.CastBinaryDecimalArgs] }
    else CompareFunction.DispatchExactOrPromote H func cast.2 [.CastBinaryDecimalArgs]
  else CompareFunction.DispatchExactOrPromote H func values []

/-- The common-type step of `VarArgsCompareFunction::DispatchBest`: the first of
`CommonNumeric`, `CommonTemporal` that yields a type replaces the type of every
descriptor. Returns the list and the passes called. -/
def VarArgsCompareFunction.CommonTypes (H : DispatchHelpers) (values : List ValueDescr) :
    List ValueDescr × List Pass :=
  match H.CommonNumeric values with
  | some type => (ReplaceTypes type values, [.CommonNumeric, .ReplaceTypes])
  | none =>
    match H.CommonTemporal values with
    | some type => (ReplaceTypes type values, [.CommonNumeric, .CommonTemporal, .ReplaceTypes])
    | none => (values, [.CommonNumeric, .CommonTemporal])

/-- The function `VarArgsCompareFunction::DispatchBest`. -/
def VarArgsCompareFunction.DispatchBest {ε : Type} (H : DispatchHelpers)
    (func : FunctionImpl ε) (values : List ValueDescr) : DispatchOutcome ε :=
  let status := CheckArity func values
  if status.code ≠ StatusCode.OK then
    { result := .error status, values := values, trace := [] }
  else
    match DispatchExactImpl func values with
    | some kernel => { result := .ok kernel, values := values, trace := [] }
    | none =>
      let values := H.EnsureDictionaryDecoded values
      let common := VarArgsCompareFunction.CommonTypes H values
      let trace := [Pass.EnsureDictionaryDecoded] ++ common.2
      match DispatchExactImpl func common.1 with
      | some kernel => { result := .ok kernel, values := common.1, trace := trace }
      | none =>
        { result := .error (NoMatchingKernel H func common.1), values := common.1,
          trace := trace }

/-! ## Registration of the min/max functions -/

/-- The two operators of the min/max functions. -/
inductive MinMaxKind where
  | Minimum
  | Maximum
deriving DecidableEq, Repr

/-- The exec of a min/max kernel, named by the template it instantiates:
`GeneratePhysicalNumeric<ScalarMinMax, Op>(ty)`,
`GenerateTypeAgnosticVarBinaryBase<BinaryScalarMinMax, Op>(ty)` or
`GeneratePhysicalDecimal<ScalarMinMax, Op>(id)`. -/
inductive MinMaxExec where
  | PhysicalNumeric (op : MinMaxKind) (ty : DataType)
  | VarBinaryBase (op : MinMaxKind) (ty : DataType)
  | PhysicalDecimal (op : MinMaxKind) (id : TypeId)
deriving DecidableEq, Repr

/-- Modelled from the spec: the table `NumericTypes()` of `arrow/type.cc`, the
integer types and `float32`, `float64`. -/
def NumericTypes : List DataType :=
  [.uint8, .int8, .uint16, .int16, .uint32, .int32, .uint64, .int64, .float32, .float64]

/-- Modelled from the spec: the table `TemporalTypes()` of `arrow/type.cc`, the
date types, the time types of each unit they have, and the timestamp types
without timezone of each unit. -/
def TemporalTypes : List DataType :=
  [.date32, .date64, .time32 .SECOND, .time32 .MILLI, .time64 .MICRO, .time64 .NANO,
   .timestamp .SECOND "", .timestamp .MILLI "", .timestamp .MICRO "", .timestamp .NANO ""]

/-- The function `MakeScalarMinMax<Op>`: the kernels of a min/max function, in
the order of registration (the success that `DCHECK_OK` asserts of `AddKernel`
is taken for granted). -/
def MakeScalarMinMax (name : String) (op : MinMaxKind) : FunctionImpl MinMaxExec :=
  let func : FunctionImpl MinMaxExec :=
    { name := name, arity := Arity.VarArgs VarArgsDefaultMinArgs, kernels := [] }
  let func := NumericTypes.foldl (fun (f : FunctionImpl MinMaxExec) ty =>
    { f with kernels := f.kernels ++
        [{ signature := { in_types := [.exact ty], out_type := .fixed ty, is_varargs := true }
           exec := MinMaxExec.PhysicalNumeric op ty
           null_handling := NullHandling.COMPUTED_NO_PREALLOCATE
           mem_allocation := MemAllocation.PREALLOCATE }] }) func
  let func := TemporalTypes.foldl (fun (f : FunctionImpl MinMaxExec) ty =>
    { f with kernels := f.kernels ++
        [{ signature := { in_types := [.exact ty], out_type := .fixed ty, is_varargs := true }
           exec := MinMaxExec.PhysicalNumeric op ty
           null_handling := NullHandling.COMPUTED_NO_PREALLOCATE
           mem_allocation := MemAllocation.PREALLOCATE }] }) func
  let func := BaseBinaryTypes.foldl (fun (f : FunctionImpl MinMaxExec) ty =>
    { f with kernels := f.kernels ++
        [{ signature := { in_types := [.exact ty], out_type := .fixed ty, is_varargs := true }
           exec := MinMaxExec.VarBinaryBase op ty
           null_handling := NullHandling.COMPUTED_NO_PREALLOCATE
           mem_allocation := MemAllocation.NO_PREALLOCATE }] }) func
  [TypeId.DECIMAL128, TypeId.DECIMAL256].foldl (fun (f : FunctionImpl MinMaxExec) id =>
    { f with kernels := f.kernels ++
        [{ signature :=
             { in_types := [.matcher (.SameTypeId id)], out_type := .computed,
               is_varargs := true }
           exec := MinMaxExec.PhysicalDecimal op id
           null_handling := NullHandling.COMPUTED_NO_PREALLOCATE
           mem_allocation := MemAllocation.PREALLOCATE }] }) func

/-- The function `min_element_wise` registered by `RegisterScalarComparison`. -/
def min_element_wise : FunctionImpl MinMaxExec :=
  MakeScalarMinMax "min_element_wise" MinMaxKind.Minimum

/-- The function `max_element_wise` registered by `RegisterScalarComparison`. -/
def max_element_wise : FunctionImpl MinMaxExec :=
  MakeScalarMinMax "max_element_wise" MinMaxKind.Maximum

/-- Modelled from the spec: `GetBroadcastShape` of `codegen_internal.h`, the shape
of "the broadcast of the ... inputs": an array as soon as one argument is an
array, else a scalar. -/
def GetBroadcastShape (args : List ValueDescr) : Shape :=
  if args.any (fun descr => descr.shape == Shape.ARRAY) then Shape.ARRAY else Shape.SCALAR

/-- The loop of `ResolveMinOrMaxOutputType` over `args[1 ..]`: whether it leaves
with the error, at the first type that differs from `first_type`. -/
def ResolveMinOrMaxOutputTypeLoop (first_type : DataType) : List ValueDescr → Bool
  | [] => false
  | descr :: rest =>
    if descr.type != first_type then true
    else ResolveMinOrMaxOutputTypeLoop first_type rest

/-- The function `ResolveMinOrMaxOutputType`, the output-type rule of the decimal
min/max kernels. -/
def ResolveMinOrMaxOutputType (args : List ValueDescr) : Except Status ValueDescr :=
  match args with
  | [] => .ok { type := DataType.null, shape := Shape.ANY }
  | first :: rest =>
    if ResolveMinOrMaxOutputTypeLoop first.type rest then
      .error (Status.NotImplemented
        "Different decimal types not implemented for \x7bmin, max\x7d_element_wise")
    else .ok { type := first.type, shape := GetBroadcastShape args }

/-- Modelled from the spec: `OutputType::Resolve` of `arrow/compute/kernel.cc`,
the "output-type rule (fixed type, or a function of input types)". -/
def OutputType.Resolve (out_type : OutputType) (args : List ValueDescr) :
    Except Status ValueDescr :=
  match out_type with
  | .fixed type => .ok { type := type, shape := GetBroadcastShape args }
  | .computed => ResolveMinOrMaxOutputType args

/-! ## Vocabulary for the dispatch theorems -/

/-- The type id of every type that a matcher matches. -/
def TypeMatcher.typeId : TypeMatcher → TypeId
  | .TimestampTypeUnit _ => .TIMESTAMP
  | .DurationTypeUnit _ => .DURATION
  | .Time32TypeUnit _ => .TIME32
  | .Time64TypeUnit _ => .TIME64
  | .SameTypeId id => id

/-- The type id of every type that an input type matches. -/
def InputType.typeId : InputType → TypeId
  | .exact type => type.id
  | .matcher m => m.typeId

/-- Two input types are of the same make: both exact types, or both matchers
of the same kind. Two such input types that match one descriptor are equal. -/
def InputType.SameMake : InputType → InputType → Bool
  | .exact _, .exact _ => true
  | .matcher (.TimestampTypeUnit _), .matcher (.TimestampTypeUnit _) => true
  | .matcher (.DurationTypeUnit _), .matcher (.DurationTypeUnit _) => true
  | .matcher (.Time32TypeUnit _), .matcher (.Time32TypeUnit _) => true
  | .matcher (.Time64TypeUnit _), .matcher (.Time64TypeUnit _) => true
  | .matcher (.SameTypeId _), .matcher (.SameTypeId _) => true
  | _, _ => false

/-- The signatures of a list do not overlap: two of them whose first input
types can match a type of one type id have first input types of the same make,
and are the same signature if these input types are equal. -/
def SignaturesApart (sigs : List KernelSignature) : Bool :=
  sigs.all (fun s => sigs.all (fun s' =>
    match s.in_types.head?, s'.in_types.head? with
    | some t, some t' =>
      t.typeId != t'.typeId || (t.SameMake t' && (t != t' || s == s'))
    | _, _ => true))

/-- The signatures of the kernels of a min/max function, in the order of
registration. -/
def MinMaxSignatures : List KernelSignature :=
  NumericTypes.map (fun ty =>
    { in_types := [.exact ty], out_type := .fixed ty, is_varargs := true }) ++
  TemporalTypes.map (fun ty =>
    { in_types := [.exact ty], out_type := .fixed ty, is_varargs := true }) ++
  BaseBinaryTypes.map (fun ty =>
    { in_types := [.exact ty], out_type := .fixed ty, is_varargs := true }) ++
  [TypeId.DECIMAL128, TypeId.DECIMAL256].map (fun id =>
    { in_types := [.matcher (.SameTypeId id)], out_type := .computed, is_varargs := true })

/-- The descriptor list that `CompareFunction::DispatchBest` tries exact dispatch
on: the list as `CastBinaryDecimalArgs` leaves it if a type is decimal, else
the list as given. -/
def CompareFunction.AfterDecimalCast (H : DispatchHelpers) (values : List ValueDescr) :
    List ValueDescr :=
  if HasDecimal values then (H.CastBinaryDecimalArgs DecimalPromotion.kAdd values).2
  else values

/-! ## The dispatch helpers as the specification describes them -/

/-- Modelled from the spec: the decimal digits that hold every value of an
integer type, for the "additive promotion rule" on a decimal and an integer. -/
def MaxDecimalDigitsForInteger : DataType → Option Int
  | .int8 => some 3
  | .uint8 => some 3
  | .int16 => some 5
  | .uint16 => some 5
  | .int32 => some 10
  | .uint32 => some 10
  | .int64 => some 19
  | .uint64 => some 20
  | _ => none

/-- The precision and scale an operand has in the additive promotion rule. -/
def DecimalPrecisionScale : DataType → Option (Int × Int)
  | .decimal128 p s => some (p, s)
  | .decimal256 p s => some (p, s)
  | t => (MaxDecimalDigitsForInteger t).map (fun p => (p, 0))

/-- Modelled from the spec: `DecimalType::Make`, the decimal type of the given
width, precision and scale, if the precision is one the width can hold. -/
def MakeDecimal (wide : Bool) (precision scale : Int) : Option DataType :=
  if wide then
    if 1 ≤ precision ∧ precision ≤ 76 then some (.decimal256 precision scale) else none
  else
    if 1 ≤ precision ∧ precision ≤ 38 then some (.decimal128 precision scale) else none

/-- Modelled from the spec: `CastBinaryDecimalArgs` of `codegen_internal.h`, which
is to "unify decimal scale/precision via an additive promotion rule" ("promote
as if for addition" so that "operands with different decimal scales become
comparable") and fails "if this promotion cannot resolve". A floating-point
operand makes both operands floating-point; otherwise both operands become
decimals of the wider width with the larger of the two scales. -/
def Spec.CastBinaryDecimalArgs (_promotion : DecimalPromotion) (values : List ValueDescr) :
    Status × List ValueDescr :=
  match values with
  | left :: right :: rest =>
    if left.type = .float32 ∨ left.type = .float64 then
      (Status.OK, left :: { right with type := left.type } :: rest)
    else if right.type = .float32 ∨ right.type = .float64 then
      (Status.OK, { left with type := right.type } :: right :: rest)
    else
      match DecimalPrecisionScale left.type, DecimalPrecisionScale right.type with
      | some (p1, s1), some (p2, s2) =>
        if s1 < 0 ∨ s2 < 0 then
          (Status.NotImplemented "Decimals with negative scales not supported", values)
        else
          let wide := left.type.id == TypeId.DECIMAL256 || right.type.id == TypeId.DECIMAL256
          let scale := max s1 s2
          match MakeDecimal wide (p1 + (scale - s1)) scale,
              MakeDecimal wide (p2 + (scale - s2)) scale with
          | some l, some r =>
            (Status.OK, { left with type := l } :: { right with type := r } :: rest)
          | _, _ => (Status.Invalid "Decimal precision out of range", values)
      | _, _ => (Status.Invalid "Decimal promotion of a type that is not numeric", values)
  | _ => (Status.Invalid "Decimal promotion needs two operands", values)

/-- Modelled from the spec: `EnsureDictionaryDecoded` of `codegen_internal.h`:
"decode dictionary-encoded operands to their value type", which "only strips the
dictionary wrapper from the type descriptor list". -/
def Spec.EnsureDictionaryDecoded (values : List ValueDescr) : List ValueDescr :=
  values.map (fun descr =>
    match descr.type with
    | .dictionary _ value => { descr with type := value }
    | _ => descr)

/-- Modelled from the spec: `ReplaceNullWithOtherType` of `codegen_internal.h`:
"replace any null-typed operand with the other operand's type when exactly one
side is the null type". -/
def Spec.ReplaceNullWithOtherType (values : List ValueDescr) : List ValueDescr :=
  match values with
  | [left, right] =>
    if left.type = .null then [{ left with type := right.type }, right]
    else if right.type = .null then [left, { right with type := left.type }]
    else values
  | _ => values

/-- Whether a type is a signed integer, with its width in bits; `none` for a
type that is no integer. -/
def IntegerWidth : DataType → Option (Bool × Nat)
  | .int8 => some (true, 8)
  | .int16 => some (true, 16)
  | .int32 => some (true, 32)
  | .int64 => some (true, 64)
  | .uint8 => some (false, 8)
  | .uint16 => some (false, 16)
  | .uint32 => some (false, 32)
  | .uint64 => some (false, 64)
  | _ => none

/-- Modelled from the spec: `CommonNumeric` of `codegen_internal.h`, the "numeric
common type (integer/float promotion lattice — widest width, float dominates
integer)": defined when every type is an integer or floating-point type; a
floating-point type if there is one, else the integer type of the widest width,
signed if a signed type occurs and then wide enough for the unsigned ones. -/
def Spec.CommonNumeric (values : List ValueDescr) : Option DataType :=
  let types := values.map (fun descr => descr.type)
  if types.isEmpty then none
  else if !types.all (fun t => (IntegerWidth t).isSome || t == .float32 || t == .float64) then
    none
  else if types.any (fun t => t == .float64) then some .float64
  else if types.any (fun t => t == .float32) then some .float32
  else
    let widths := types.filterMap IntegerWidth
    let max_width_signed :=
      ((widths.filter (fun w => w.1)).map (fun w => w.2)).foldl max 0
    let max_width_unsigned :=
      ((widths.filter (fun w => !w.1)).map (fun w => w.2)).foldl max 0
    if max_width_signed = 0 then
      if 64 ≤ max_width_unsigned then some .uint64
      else if 32 ≤ max_width_unsigned then some .uint32
      else if 16 ≤ max_width_unsigned then some .uint16
      else some .uint8
    else
      let max_width_signed :=
        if max_width_signed ≤ max_width_unsigned then 2 * max_width_unsigned
        else max_width_signed
      if 64 ≤ max_width_signed then some .int64
      else if 32 ≤ max_width_signed then some .int32
      else if 16 ≤ max_width_signed then some .int16
      else some .int8

/-- The order of the time units, from coarse to fine. -/
def TimeUnit.rank : TimeUnit → Nat
  | .SECOND => 0
  | .MILLI => 1
  | .MICRO => 2
  | .NANO => 3

/-- The finer of two time units. -/
def TimeUnit.finest (a b : TimeUnit) : TimeUnit :=
  if a.rank < b.rank then b else a

/-- The loop of the temporal common type: the finest unit met, the timezone of
the timestamps met and whether a `date64` was met; `none` when a type is not
a date or timestamp type or two timestamps differ in timezone. -/
def Spec.CommonTemporalLoop :
    List DataType → TimeUnit → Option String → Bool → Option (TimeUnit × Option String × Bool)
  | [], unit, timezone, saw_date64 => some (unit, timezone, saw_date64)
  | .date32 :: rest, unit, timezone, saw_date64 =>
    Spec.CommonTemporalLoop rest unit timezone saw_date64
  | .date64 :: rest, unit, timezone, _ =>
    Spec.CommonTemporalLoop rest (TimeUnit.finest unit .MILLI) timezone true
  | .timestamp u tz :: rest, unit, timezone, saw_date64 =>
    match timezone with
    | some other =>
      if other ≠ tz then none
      else Spec.CommonTemporalLoop rest (TimeUnit.finest unit u) (some tz) saw_date64
    | none => Spec.CommonTemporalLoop rest (TimeUnit.finest unit u) (some tz) saw_date64
  | _ :: _, _, _, _ => none

/-- Modelled from the spec: `CommonTemporal` of `codegen_internal.h`, the
"temporal common type (matching unit/timezone family)": defined when every type
is a date or timestamp type and the timestamps agree on the timezone; the
timestamp type of the finest unit if there is a timestamp, else `date64` if
there is one, else `date32`. -/
def Spec.CommonTemporal (values : List ValueDescr) : Option DataType :=
  if values.isEmpty then none
  else
    match Spec.CommonTemporalLoop (values.map (fun descr => descr.type)) .SECOND none false with
    | none => none
    | some (unit, some timezone, _) => some (.timestamp unit timezone)
    | some (_, none, true) => some .date64
    | some (_, none, false) => some .date32

/-- Modelled from the spec: `CommonBinary` of `codegen_internal.h`, the
"variable-length binary common type (narrow/wide offset unification)": defined
when every type is a variable-length binary or string type; a string type if
all are string types, with wide offsets if one has wide offsets. -/
def Spec.CommonBinary (values : List ValueDescr) : Option DataType :=
  let types := values.map (fun descr => descr.type)
  if types.isEmpty then none
  else if !types.all (fun t => t == .binary || t == .string || t == .large_binary ||
      t == .large_string) then none
  else
    let all_utf8 := types.all (fun t => t == .string || t == .large_string)
    let all_offset32 := types.all (fun t => t == .string || t == .binary)
    if all_utf8 then
      if all_offset32 then some .string else some .large_string
    else if all_offset32 then some .binary
    else some .large_binary

/-- The helpers of dispatch as the specification describes them. -/
def SpecHelpers : DispatchHelpers :=
  { CastBinaryDecimalArgs := Spec.CastBinaryDecimalArgs
    EnsureDictionaryDecoded := Spec.EnsureDictionaryDecoded
    ReplaceNullWithOtherType := Spec.ReplaceNullWithOtherType
    CommonNumeric := Spec.CommonNumeric
    CommonTemporal := Spec.CommonTemporal
    CommonBinary := Spec.CommonBinary
    ToString := fun values => toString (repr values) }

/-! ## Specification vocabulary for the min/max kernels -/

/-- The values of the valid scalar operands of an operand list, in order. -/
def ScalarValues {α : Type} (values : List (Datum α)) : List α :=
  values.filterMap (fun arg =>
    match arg with
    | .scalar s => if s.is_valid then some s.value else none
    | .array _ => none)

/-- The values of the operands that are valid at row `i`, in operand order. -/
def ValuesAt {α : Type} [Inhabited α] (batch : ExecBatch α) (i : Nat) : List α :=
  batch.values.filterMap (fun arg => arg.At i)

/-- The value `v` is an extreme of the list `l` for the order `R`: it occurs in `l`
and is `R`-related to every element of `l` (the minimum for `≤`, the maximum
for `≥`). -/
def IsExtreme {α : Type} (R : α → α → Prop) (v : α) (l : List α) : Prop :=
  v ∈ l ∧ ∀ w ∈ l, R v w

/-- One step of a fold that seeds from the first value: the first value is
taken, later ones are combined with `op.Call`. -/
def Combine {α : Type} (op : MinMaxOp α) : Option α → α → Option α
  | none, v => some v
  | some a, v => some (op.Call a v)

/-- The fold of a list of values with `op.Call`, seeded from the first value. -/
def FoldValues {α : Type} (op : MinMaxOp α) (acc : Option α) (l : List α) : Option α :=
  l.foldl (Combine op) acc

/-- What the order `R` and the operator must satisfy for `op.Call` to compute
`R`-extremes: `R` is a total order on the values and `Call` selects the
`R`-smaller argument. -/
structure OpLaws {α : Type} (op : MinMaxOp α) (R : α → α → Prop) : Prop where
  refl : ∀ a, R a a
  trans : ∀ a b c, R a b → R b c → R a c
  antisymm : ∀ a b, R a b → R b a → a = b
  sel : ∀ a b, op.Call a b = a ∨ op.Call a b = b
  left : ∀ a b, R (op.Call a b) a
  right : ∀ a b, R (op.Call a b) b

/-- The effect of one array element `cell` on the output value `u` of its row
in the fold pass: a null leaves `u`, a value is combined with `u` where the
output row is valid and replaces `u` where it is not. -/
def RowStep {α : Type} (op : MinMaxOp α) (row_valid : Bool) (u : α) (cell : Option α) : α :=
  match cell with
  | none => u
  | some value => if row_valid then op.Call u value else value

/-- The validity of output row `i` that the specification prescribes: with
`skip_nulls` some operand is valid at row `i`, without it all operands are. -/
def RowValid {α : Type} [Inhabited α] (skip_nulls : Bool) (batch : ExecBatch α) (i : Nat) :
    Bool :=
  if skip_nulls then batch.values.any (fun arg => (arg.At i).isSome)
  else batch.values.all (fun arg => (arg.At i).isSome)

/-- Some scalar operand of the list is null. -/
def HasNullScalar {α : Type} (values : List (Datum α)) : Bool :=
  values.any (fun arg =>
    match arg with
    | .scalar s => !s.is_valid
    | .array _ => false)

/-- The scalar `out` after a fold with optional result `r` was stored into it:
a valid scalar holding the result, or `out` marked invalid. -/
def StoreResult {α : Type} (out : Scalar α) (r : Option α) : Scalar α :=
  match r with
  | some v => { is_valid := true, value := v }
  | none => { out with is_valid := false }

/-- The fold of the scalar operands that `ExecScalar` computes: null when a
null scalar is met and nulls are not skipped, else the fold of the valid
scalar values. -/
def ScalarFold {α : Type} (op : MinMaxOp α) (skip_nulls : Bool) (values : List (Datum α)) :
    Option α :=
  if !skip_nulls && HasNullScalar values then none
  else FoldValues op none (ScalarValues values)

/-- The contract of `ExecScalar` on the all-scalar batch of the scalars
`scalars`, for an operator `op` computing `R`-extremes. With `skip_nulls = true`
the output is valid iff some operand is valid, and its value is then the
extreme of the valid operands; with `skip_nulls = false` the output is valid
iff there is an operand and all operands are valid, and its value is then the
extreme of all operands. -/
def ExecScalarContract (op : MinMaxOp Int) (R : Int → Int → Prop)
    (scalars : List (Scalar Int)) (n : Nat) (out : Scalar Int) : Prop :=
  let batch : ExecBatch Int := { values := scalars.map Datum.scalar, length := n }
  let skip := ScalarMinMax.ExecScalar op batch { skip_nulls := true } out
  let keep := ScalarMinMax.ExecScalar op batch { skip_nulls := false } out
  (skip.is_valid = true ↔ ∃ s ∈ scalars, s.is_valid = true) ∧
  (skip.is_valid = true →
    IsExtreme R skip.value ((scalars.filter (fun s => s.is_valid)).map (fun s => s.value))) ∧
  (keep.is_valid = true ↔ scalars ≠ [] ∧ ∀ s ∈ scalars, s.is_valid = true) ∧
  (keep.is_valid = true → IsExtreme R keep.value (scalars.map (fun s => s.value)))

/-- The output an executor hands to `ScalarMinMax::Exec` for a batch with an
array operand: an array of the batch length whose values buffer is allocated
(`MemAllocation::PREALLOCATE`) and whose validity bitmap is not
(`NullHandling::COMPUTED_NO_PREALLOCATE`). -/
structure Preallocated {α : Type} (batch : ExecBatch α) (output : ArrayData α) : Prop where
  length_eq : output.length = batch.length
  offset_eq : output.offset = 0
  validity_eq : output.validity = none
  values_length : output.values.length = batch.length

/-- The invariants of the array operands of a batch: every array has the batch
length, and a null count of zero guarantees that no element is null. -/
structure BatchWF {α : Type} (batch : ExecBatch α) : Prop where
  length_eq : ∀ a, Datum.array a ∈ batch.values → a.length = batch.length
  null_count_ok : ∀ a, Datum.array a ∈ batch.values → a.null_count = 0 →
    ∀ i, i < a.length → a.IsValid i = true

/-- Every element of every array operand is a value of the integer type `T`. -/
def BatchInRange (T : IntType) (batch : ExecBatch Int) : Prop :=
  ∀ a, Datum.array a ∈ batch.values → ∀ i, i < a.length → T.InRange (a.GetValue i)

/-- The rows of a datum as optional values: one row for a scalar, `length` rows
for an array; a null row is `none` whatever its values buffer holds. -/
def Datum.Rows {α : Type} [Inhabited α] (d : Datum α) : List (Option α) :=
  match d with
  | .scalar s => [if s.is_valid then some s.value else none]
  | .array a => (List.range a.length).map (fun i => a.Get? i)

/-- The output datum an executor hands to `ScalarMinMax::Exec`: a scalar for a
batch of scalars only, a preallocated array for a batch with an array. -/
def OutputFor {α : Type} (batch : ExecBatch α) (out : Datum α) : Prop :=
  match out with
  | .scalar _ => ∀ a, Datum.array a ∉ batch.values
  | .array output => (∃ a, Datum.array a ∈ batch.values) ∧ Preallocated batch output

/-- The operands of a batch at row `i`, as optional values in operand order. -/
def CellsAt {α : Type} [Inhabited α] (batch : ExecBatch α) (i : Nat) : List (Option α) :=
  batch.values.map (fun arg => arg.At i)

/-- The output `r` that the specification prescribes for a row with the operands
`cells`: with `skip_nulls` it is valid iff some operand is, without it iff all
operands are, and a valid output is the `R`-extreme of the valid operands. -/
def RowSpec {α : Type} (R : α → α → Prop) (skip_nulls : Bool) (cells : List (Option α))
    (r : Option α) : Prop :=
  r.isSome = (if skip_nulls then cells.any Option.isSome else cells.all Option.isSome) ∧
  ∀ v, r = some v → IsExtreme R v (cells.filterMap id)

/-- The result `r` of the kernel is as the specification prescribes for `n`
rows with the operands `cells i` at row `i`: a scalar when no operand is an array
(`has_array` is false), and else an array of length `n` with a consistent null
count; every row satisfies `RowSpec`. -/
def ResultSpec {α : Type} [Inhabited α] (R : α → α → Prop) (skip_nulls : Bool)
    (has_array : Prop) (n : Nat) (cells : Nat → List (Option α)) (r : Datum α) : Prop :=
  match r with
  | .scalar s =>
    ¬ has_array ∧ ∀ i, RowSpec R skip_nulls (cells i) ((Datum.scalar s).At i)
  | .array x =>
    has_array ∧ x.length = n ∧
    (x.null_count = 0 → ∀ i, i < x.length → x.IsValid i = true) ∧
    ∀ i, i < n → RowSpec R skip_nulls (cells i) (x.Get? i)

/-- Some operand of the list is an array. -/
def HasArray {α : Type} (values : List (Datum α)) : Prop :=
  ∃ a, Datum.array a ∈ values

/-- Every operand value that is valid at a row below `n` is a value of the
integer type `T`. -/
def OperandsInRange (T : IntType) (values : List (Datum Int)) (n : Nat) : Prop :=
  ∀ d ∈ values, ∀ i, i < n → ∀ v, d.At i = some v → T.InRange v

/-! ## A sample batch -/

/-- The type `int32`. -/
def Int32 : IntType := { is_signed := true, bits := 32 }

/-- A sample array operand `[3, null, 7]`. -/
def sampleArray : ArrayData Int :=
  { length := 3, null_count := 1, offset := 0,
    validity := some [true, false, true], values := [3, 0, 7] }

/-- A sample array operand `[null, null, 5]` that is a slice starting at
position 1 of its buffers. -/
def sampleSlice : ArrayData Int :=
  { length := 3, null_count := -1, offset := 1,
    validity := some [true, false, false, true], values := [9, 0, 0, 5] }

/-- The sample batch `[3, null, 7]`, `[null, null, 5]` of length 3. -/
def sampleBatch : ExecBatch Int :=
  { values := [.array sampleArray, .array sampleSlice], length := 3 }

/-- A preallocated output for `sampleBatch`. -/
def sampleOutput : ArrayData Int :=
  { length := 3, null_count := 0, offset := 0, validity := none, values := [0, 0, 0] }

/-- A sample valid scalar operand `4`. -/
def sampleScalar : Scalar Int :=
  { is_valid := true, value := 4 }

/-- The sample scalar `4` written out as an array of three elements. -/
def sampleBroadcast : ArrayData Int :=
  { length := 3, null_count := 0, offset := 0, validity := none, values := [4, 4, 4] }

/-- The sample operand `[3, null, 7]`. -/
def sampleA : Datum Int := .array sampleArray

/-- The sample operand `[null, null, 5]`. -/
def sampleB : Datum Int := .array sampleSlice

/-- The sample operand `4`, a scalar. -/
def sampleC : Datum Int := .scalar sampleScalar

/-! ## Floating-point operands of `ScalarMinMax` -/

/-- A floating-point value as far as `fmin` / `fmax` tell values apart: NaN or a
number. Infinities and the sign of zero are not represented. -/
inductive FloatValue where
  | nan
  | num (x : ℚ)
deriving DecidableEq, Repr

instance : Inhabited FloatValue := ⟨FloatValue.num 0⟩

/-- The function `std::fmin`: a NaN argument yields the other argument. -/
def std_fmin : FloatValue → FloatValue → FloatValue
  | .nan, right => right
  | left, .nan => left
  | .num a, .num b => .num (min a b)

/-- The function `std::fmax`: a NaN argument yields the other argument. -/
def std_fmax : FloatValue → FloatValue → FloatValue
  | .nan, right => right
  | left, .nan => left
  | .num a, .num b => .num (max a b)

/-- The struct `Minimum` at a floating type (`enable_if_floating_value` overload
of `Call`, `antiextreme` is `std::nan("")`). -/
def MinimumFloating : MinMaxOp FloatValue :=
  { Call := fun left right => std_fmin left right
    antiextreme := FloatValue.nan }

/-- The struct `Maximum` at a floating type. -/
def MaximumFloating : MinMaxOp FloatValue :=
  { Call := fun left right => std_fmax left right
    antiextreme := FloatValue.nan }

/-! ## `BinaryScalarMinMax` -/

/-- The contents of a `util::string_view`: a sequence of bytes. -/
abbrev Bytes := List Nat

/-- The comparison `left < right` of two `string_view`s: lexicographic on
the bytes, a proper prefix being smaller. -/
def string_view_lt : Bytes → Bytes → Bool
  | [], [] => false
  | [], _ :: _ => true
  | _ :: _, [] => false
  | a :: l, b :: r => if a < b then true else if b < a then false else string_view_lt l r

/-- The function `Minimum::CallBinary`: `std::min(left, right)`. -/
def Minimum.CallBinary (left right : Bytes) : Bytes :=
  if string_view_lt right left then right else left

/-- The function `Maximum::CallBinary`: `std::max(left, right)`. -/
def Maximum.CallBinary (left right : Bytes) : Bytes :=
  if string_view_lt left right then right else left

/-- A `BaseBinaryScalar`: validity flag and value buffer. -/
structure BinaryScalar where
  is_valid : Bool
  value : Bytes
deriving DecidableEq, Repr

/-- The `ArrayData` of a variable-length binary array: `validity` is `buffers[0]`,
`offsets` is `buffers[1]`, `data` is `buffers[2]` (all unsliced). -/
structure BinaryArrayData where
  length : Nat
  null_count : Int
  offset : Nat
  validity : Option (List Bool)
  offsets : List Nat
  data : Bytes
deriving DecidableEq, Repr

/-- A binary-typed `Datum`. -/
inductive BinaryDatum where
  | scalar (s : BinaryScalar)
  | array (a : BinaryArrayData)
deriving DecidableEq, Repr

/-- The test `Datum::is_scalar` on a binary datum. -/
def BinaryDatum.is_scalar : BinaryDatum → Bool
  | .scalar _ => true
  | .array _ => false

/-- An `ExecBatch` of binary-typed operands. -/
structure BinaryExecBatch where
  values : List BinaryDatum
  length : Nat
deriving DecidableEq, Repr

/-- The test `ArrayData::MayHaveNulls` on a binary array. -/
def BinaryArrayData.MayHaveNulls (a : BinaryArrayData) : Bool :=
  a.null_count != 0 && a.validity.isSome

/-- The test `!array.MayHaveNulls() || GetBit(array.buffers[0], array.offset + row)`. -/
def BinaryArrayData.IsValidAt (a : BinaryArrayData) (row : Nat) : Bool :=
  !a.MayHaveNulls ||
    (match a.validity with
     | none => false
     | some bitmap => GetBit bitmap (a.offset + row))

/-- The entry `offsets[i]` of `array.GetValues<offset_type>(1)` (offset-adjusted). -/
def BinaryArrayData.Offset (a : BinaryArrayData) (i : Nat) : Nat :=
  a.offsets.getD (a.offset + i) 0

/-- The view `string_view(data + offsets[row], offsets[row + 1] - offsets[row])`. -/
def BinaryArrayData.View (a : BinaryArrayData) (row : Nat) : Bytes :=
  (a.data.drop (a.Offset row)).take (a.Offset (row + 1) - a.Offset row)

namespace BinaryScalarMinMax

/-- The operator of the binary kernel: `Op::CallBinary`. -/
abbrev BinaryOp := Bytes → Bytes → Bytes

/-- The loop of `CalculateRowSize` over the operands, carrying `final_size`;
the result `-1` is the early return at a null operand when nulls are not
skipped. -/
def CalculateRowSizeLoop (options : ElementWiseAggregateOptions) (index : Nat) :
    List BinaryDatum → Int → Int
  | [], final_size => final_size
  | .scalar scalar :: rest, final_size =>
    if !scalar.is_valid then
      if options.skip_nulls then CalculateRowSizeLoop options index rest final_size
      else -1
    else CalculateRowSizeLoop options index rest (max final_size scalar.value.length)
  | .array array :: rest, final_size =>
    if !array.IsValidAt index then
      if options.skip_nulls then CalculateRowSizeLoop options index rest final_size
      else -1
    else
      CalculateRowSizeLoop options index rest
        (max final_size ((array.Offset (index + 1) : Int) - (array.Offset index : Int)))

/-- The function `BinaryScalarMinMax::CalculateRowSize`: the length of the
output at `index`, or `-1` if it would be null. -/
def CalculateRowSize (options : ElementWiseAggregateOptions) (batch : BinaryExecBatch)
    (index : Nat) : Int :=
  CalculateRowSizeLoop options index batch.values 0

/-- The column loop of `ExecContainingArrays` for one operand: the view stored
in `valid_cols[col]` and whether `num_valid` is incremented. -/
def ValidCol (row : Nat) : BinaryDatum → Bytes × Bool
  | .scalar scalar => if scalar.is_valid then (scalar.value, true) else ([], false)
  | .array array => if array.IsValidAt row then (array.View row, true) else ([], false)

/-- The fold `for (col = 1; ...)` of `ExecContainingArrays` over
`valid_cols[1 ..]`, carrying `result`. -/
def FoldCols (op : BinaryOp) : List Bytes → Bytes → Bytes
  | [], result => result
  | value :: rest, result =>
    if value.isEmpty then FoldCols op rest result
    else FoldCols op rest (if result.isEmpty then value else op result value)

/-- One iteration of the row loop of `ExecContainingArrays`: what is appended
to the builder for `row` (`none` for `UnsafeAppendNull`). -/
def ExecRow (op : BinaryOp) (options : ElementWiseAggregateOptions)
    (batch : BinaryExecBatch) (row : Nat) : Option Bytes :=
  let cols := batch.values.map (ValidCol row)
  let num_valid := cols.countP (fun c => c.2)
  if num_valid < batch.values.length && !options.skip_nulls then none
  else
    let valid_cols := cols.map (fun c => c.1)
    let result := FoldCols op valid_cols.tail (valid_cols.headD [])
    if result.isEmpty then none else some result

/-- Whether every `DCHECK(options.skip_nulls)` that the row loop of
`ExecContainingArrays` executes for `row` holds: the assertion is reached for
each operand after the first whose view is empty. -/
def ExecRowDChecks (options : ElementWiseAggregateOptions) (batch : BinaryExecBatch)
    (row : Nat) : Bool :=
  let cols := batch.values.map (ValidCol row)
  let num_valid := cols.countP (fun c => c.2)
  if num_valid < batch.values.length && !options.skip_nulls then true
  else
    let valid_cols := cols.map (fun c => c.1)
    valid_cols.tail.all (fun value => !value.isEmpty || options.skip_nulls)

/-- The output of `ExecContainingArrays`: the rows appended to the builder and
the number of data bytes reserved before the row loop. -/
structure BuilderOutput where
  rows : List (Option Bytes)
  final_size : Int
deriving DecidableEq, Repr

/-- The function `BinaryScalarMinMax::ExecContainingArrays`. -/
def ExecContainingArrays (op : BinaryOp) (options : ElementWiseAggregateOptions)
    (batch : BinaryExecBatch) : BuilderOutput :=
  { rows := (List.range batch.length).map (ExecRow op options batch)
    final_size := (List.range batch.length).foldl
      (fun final_size i =>
        let size := CalculateRowSize options batch i
        if 0 < size then final_size + size else final_size) 0 }

/-- Modelled from the spec: `UnboxScalar<Type>::Unbox` of `codegen_internal.h`, the
collaborator's `unbox(scalar) -> raw_value`: the view of the value buffer of a
binary scalar. -/
def Unbox (scalar : BinaryScalar) : Bytes :=
  scalar.value

/-- The loop `for (i = 1; i < num_args; i++)` of `ExecOnlyScalar`, carrying
`result`; `none` is the failed access `batch[i].scalar()` on an array operand. -/
def ExecOnlyScalarLoop (op : BinaryOp) (options : ElementWiseAggregateOptions) :
    List BinaryDatum → Bytes → Option Bytes
  | [], result => some result
  | .array _ :: _, _ => none
  | .scalar scalar :: rest, result =>
    if !scalar.is_valid && options.skip_nulls then
      ExecOnlyScalarLoop op options rest result
    else if scalar.is_valid then
      let value := Unbox scalar
      ExecOnlyScalarLoop op options rest (if result.isEmpty then value else op result value)
    else ExecOnlyScalarLoop op options rest result

/-- The buffer of `final_size` bytes that `ctx->Allocate(final_size)` returns,
after `std::copy(result.begin(), result.end(), buf)`: the bytes of `result`,
followed by the bytes `fresh i` that the allocation held at the positions `i`
that the copy does not reach. -/
def CopyIntoAllocated (fresh : Nat → Nat) (final_size : Nat) (result : Bytes) : Bytes :=
  result ++ ((List.range final_size).drop result.length).map fresh

/-- The function `BinaryScalarMinMax::ExecOnlyScalar`, acting on the output
scalar `out`; `fresh` is the content of newly allocated memory. `none` is the
failed access `scalar()` on an array operand. -/
def ExecOnlyScalar (op : BinaryOp) (options : ElementWiseAggregateOptions)
    (batch : BinaryExecBatch) (fresh : Nat → Nat) (out : BinaryScalar) :
    Option BinaryScalar :=
  match batch.values with
  | [] => some out
  | front :: rest =>
    let final_size := CalculateRowSize options batch 0
    if final_size < 0 then some { out with is_valid := false }
    else
      match front with
      | .array _ => none
      | .scalar first =>
        match ExecOnlyScalarLoop op options rest (Unbox first) with
        | none => none
        | some result =>
          if !result.isEmpty then
            some { is_valid := true, value := CopyIntoAllocated fresh final_size.toNat result }
          else some out

/-- The output of the binary kernel: the output scalar, or the array built by
the builder. -/
inductive Output where
  | scalar (s : BinaryScalar)
  | array (b : BuilderOutput)
deriving DecidableEq, Repr

/-- The function `BinaryScalarMinMax::Exec`. -/
def Exec (op : BinaryOp) (options : ElementWiseAggregateOptions)
    (batch : BinaryExecBatch) (fresh : Nat → Nat) (out : BinaryScalar) : Option Output :=
  if batch.values.all BinaryDatum.is_scalar then
    (ExecOnlyScalar op options batch fresh out).map Output.scalar
  else some (Output.array (ExecContainingArrays op options batch))

end BinaryScalarMinMax

/-- The operand `d` of a binary batch at row `i` as an optional byte string. -/
def BinaryDatum.At (d : BinaryDatum) (i : Nat) : Option Bytes :=
  match d with
  | .scalar s => if s.is_valid then some s.value else none
  | .array a => if a.IsValidAt i then some (a.View i) else none

/-- The IEEE equality of floating-point values: NaN is equal to nothing. -/
def IeeeBEq : BEq FloatValue :=
  ⟨fun a b =>
    match a, b with
    | .num x, .num y => decide (x = y)
    | _, _ => false⟩

/-! ## Specification vocabulary for the binary kernel -/

/-- The value `element_size` that `CalculateRowSize` reads for one operand at
`index`: the size of the scalar, or `offsets[index + 1] - offsets[index]`. -/
def ElementSize (index : Nat) : BinaryDatum → Int
  | .scalar scalar => scalar.value.length
  | .array array => (array.Offset (index + 1) : Int) - (array.Offset index : Int)

/-- The value `total_values_length()` of the array a builder output finishes
to: the number of data bytes appended. -/
def BinaryScalarMinMax.BuilderOutput.total_values_length
    (b : BinaryScalarMinMax.BuilderOutput) : Nat :=
  (b.rows.map (fun r =>
    match r with
    | some v => v.length
    | none => 0)).sum

/-- The operator of the binary kernel as an operator of a seeded fold; the
empty view stands where the fixed-width kernel has its antiextreme. -/
def BinaryMinMaxOp (op : BinaryScalarMinMax.BinaryOp) : MinMaxOp Bytes :=
  { Call := op, antiextreme := [] }

/-- The order `left <= right` of two `string_view`s. -/
def string_view_le (left right : Bytes) : Prop :=
  string_view_lt right left = false

/-! ## Sample binary and floating-point batches -/

/-- The one-row binary array `["abc"]`. -/
def binaryAbc : BinaryArrayData :=
  { length := 1, null_count := 0, offset := 0, validity := none,
    offsets := [0, 3], data := [97, 98, 99] }

/-- The one-row binary array `[""]`: a valid string of length zero. -/
def binaryEmpty : BinaryArrayData :=
  { length := 1, null_count := 0, offset := 0, validity := none,
    offsets := [0, 0], data := [] }

/-- The batch `["abc"]`, `[""]` of length 1. -/
def binaryAbcEmptyBatch : BinaryExecBatch :=
  { values := [.array binaryAbc, .array binaryEmpty], length := 1 }

/-- The batch `[""]` of length 1. -/
def binaryEmptyBatch : BinaryExecBatch :=
  { values := [.array binaryEmpty], length := 1 }

/-- The valid binary scalar `"x"`. -/
def binaryScalarX : BinaryScalar :=
  { is_valid := true, value := [120] }

/-- The valid binary scalar `""` of length zero. -/
def binaryScalarEmpty : BinaryScalar :=
  { is_valid := true, value := [] }

/-- The all-scalar batch `("x", "")`. -/
def binaryXEmptyBatch : BinaryExecBatch :=
  { values := [.scalar binaryScalarX, .scalar binaryScalarEmpty], length := 1 }

/-- The all-scalar batch `("", "x")`. -/
def binaryEmptyXBatch : BinaryExecBatch :=
  { values := [.scalar binaryScalarEmpty, .scalar binaryScalarX], length := 1 }

/-- The all-scalar batch `(NaN, null)` of floating-point operands. -/
def nanNullBatch : ExecBatch FloatValue :=
  { values := [.scalar { is_valid := true, value := .nan },
               .scalar { is_valid := false, value := .num 0 }],
    length := 1 }

/-- The one-row binary array `[null]`. -/
def binaryNull : BinaryArrayData :=
  { length := 1, null_count := 1, offset := 0, validity := some [false],
    offsets := [0, 0], data := [] }

/-- The one-row binary array `["b"]`. -/
def binaryB : BinaryArrayData :=
  { length := 1, null_count := 0, offset := 0, validity := none,
    offsets := [0, 1], data := [98] }

/-- The batch `[null]` of length 1. -/
def binaryNullBatch : BinaryExecBatch :=
  { values := [.array binaryNull], length := 1 }

/-- The batch `["abc"]`, `["b"]`, `[null]` of length 1. -/
def binaryAbcBNullBatch : BinaryExecBatch :=
  { values := [.array binaryAbc, .array binaryB, .array binaryNull], length := 1 }

/-- The null binary scalar. -/
def binaryScalarNull : BinaryScalar :=
  { is_valid := false, value := [] }

/-- The all-scalar batch `(null)`. -/
def binaryScalarNullBatch : BinaryExecBatch :=
  { values := [.scalar binaryScalarNull], length := 1 }

/-- The descriptors of two arrays of types `int32` and `int64`. -/
def int32Int64 : List ValueDescr :=
  [{ type := .int32, shape := .ARRAY }, { type := .int64, shape := .ARRAY }]

/-- The descriptors of two arrays of types `binary` and `large_binary`. -/
def binaryLargeBinary : List ValueDescr :=
  [{ type := .binary, shape := .ARRAY }, { type := .large_binary, shape := .ARRAY }]

/-- The descriptors of a null scalar and an `int32` array. -/
def nullInt32 : List ValueDescr :=
  [{ type := .null, shape := .SCALAR }, { type := .int32, shape := .ARRAY }]

/-- The descriptors of two arrays of type `int32`. -/
def int32Int32 : List ValueDescr :=
  [{ type := .int32, shape := .ARRAY }, { type := .int32, shape := .ARRAY }]

/-- The descriptors of two arrays of type `int64`. -/
def int64Int64 : List ValueDescr :=
  [{ type := .int64, shape := .ARRAY }, { type := .int64, shape := .ARRAY }]

/-! # Theorems -/

/-! ## Order laws of the integer operators -/

theorem std_min_eq_min (a b : Int) : std_min a b = min a b := by
  unfold std_min; split <;> omega

theorem std_max_eq_max (a b : Int) : std_max a b = max a b := by
  unfold std_max; split <;> omega

theorem Minimum_laws (T : IntType) : OpLaws (Minimum T) (fun a b => a ≤ b) where
  refl := fun a => Int.le_refl a
  trans := fun a b c h1 h2 => Int.le_trans h1 h2
  antisymm := fun a b h1 h2 => Int.le_antisymm h1 h2
  sel := fun a b => by simp only [Minimum, std_min]; split <;> simp
  left := fun a b => by simp only [Minimum, std_min]; split <;> omega
  right := fun a b => by simp only [Minimum, std_min]; split <;> omega

theorem Maximum_laws (T : IntType) : OpLaws (Maximum T) (fun a b => b ≤ a) where
  refl := fun a => Int.le_refl a
  trans := fun a b c h1 h2 => Int.le_trans h2 h1
  antisymm := fun a b h1 h2 => Int.le_antisymm h2 h1
  sel := fun a b => by simp only [Maximum, std_max]; split <;> simp
  left := fun a b => by simp only [Maximum, std_max]; split <;> omega
  right := fun a b => by simp only [Maximum, std_max]; split <;> omega

/-! ## Folds seeded from the first value -/

theorem IsExtreme_unique {α : Type} {op : MinMaxOp α} {R : α → α → Prop} (laws : OpLaws op R)
    {v w : α} {l l' : List α} (hmem : ∀ x, x ∈ l ↔ x ∈ l')
    (hv : IsExtreme R v l) (hw : IsExtreme R w l') : v = w :=
  laws.antisymm v w (hv.2 w ((hmem w).2 hw.1)) (hw.2 v ((hmem v).1 hv.1))

theorem FoldValues_some {α : Type} (op : MinMaxOp α) (a : α) (l : List α) :
    FoldValues op (some a) l = some (l.foldl op.Call a) := by
  induction l generalizing a with
  | nil => rfl
  | cons v l ih => simp only [FoldValues, List.foldl_cons, Combine]; exact ih _

theorem FoldValues_none_cons {α : Type} (op : MinMaxOp α) (v : α) (l : List α) :
    FoldValues op none (v :: l) = some (l.foldl op.Call v) := by
  simp only [FoldValues, List.foldl_cons, Combine]; exact FoldValues_some op v l

theorem FoldValues_append {α : Type} (op : MinMaxOp α) (acc : Option α) (l l' : List α) :
    FoldValues op acc (l ++ l') = FoldValues op (FoldValues op acc l) l' := by
  simp [FoldValues, List.foldl_append]

theorem FoldValues_eq_none {α : Type} (op : MinMaxOp α) (acc : Option α) (l : List α) :
    FoldValues op acc l = none ↔ acc = none ∧ l = [] := by
  cases acc with
  | some a => simp [FoldValues_some]
  | none =>
    cases l with
    | nil => simp [FoldValues]
    | cons v l => simp [FoldValues_none_cons]

theorem foldl_Call_extreme {α : Type} {op : MinMaxOp α} {R : α → α → Prop}
    (laws : OpLaws op R) (l : List α) (a : α) :
    IsExtreme R (l.foldl op.Call a) (a :: l) := by
  induction l generalizing a with
  | nil => exact ⟨List.mem_cons_self _ _, fun w hw => by
      rw [List.mem_singleton] at hw; subst hw; exact laws.refl _⟩
  | cons v l ih =>
    have h := ih (op.Call a v)
    rw [List.foldl_cons]
    refine ⟨?_, ?_⟩
    · rcases List.mem_cons.1 h.1 with h1 | h1
      · rw [h1]
        rcases laws.sel a v with h2 | h2
        · rw [h2]; exact List.mem_cons_self _ _
        · rw [h2]; exact List.mem_cons_of_mem _ (List.mem_cons_self _ _)
      · exact List.mem_cons_of_mem _ (List.mem_cons_of_mem _ h1)
    · intro w hw
      have hc := h.2 (op.Call a v) (List.mem_cons_self _ _)
      rcases List.mem_cons.1 hw with h1 | h1
      · subst h1; exact laws.trans _ _ _ hc (laws.left _ _)
      · rcases List.mem_cons.1 h1 with h2 | h2
        · subst h2; exact laws.trans _ _ _ hc (laws.right _ _)
        · exact h.2 w (List.mem_cons_of_mem _ h2)

theorem FoldValues_extreme {α : Type} {op : MinMaxOp α} {R : α → α → Prop}
    (laws : OpLaws op R) (l : List α) (r : α) (h : FoldValues op none l = some r) :
    IsExtreme R r l := by
  cases l with
  | nil => simp [FoldValues] at h
  | cons v l =>
    rw [FoldValues_none_cons] at h
    cases h
    exact foldl_Call_extreme laws l v

/-! ## `ExecScalar` -/

theorem ExecScalarLoop_skip {α : Type} (op : MinMaxOp α) (ds : List (Datum α))
    (value : α) (valid : Bool) :
    ∃ v b, ScalarMinMax.ExecScalarLoop op true ds value valid = some (v, b) ∧
      (if b then some v else none) =
        FoldValues op (if valid then some value else none) (ScalarValues ds) := by
  induction ds generalizing value valid with
  | nil => exact ⟨value, valid, rfl, by simp [ScalarValues, FoldValues]⟩
  | cons d ds ih =>
    cases d with
    | array a =>
      obtain ⟨v, b, h1, h2⟩ := ih value valid
      exact ⟨v, b, by simpa [ScalarMinMax.ExecScalarLoop] using h1,
        by simpa [ScalarValues] using h2⟩
    | scalar s =>
      by_cases hs : s.is_valid = true
      · cases valid with
        | false =>
          obtain ⟨v, b, h1, h2⟩ := ih s.value true
          exact ⟨v, b, by simpa [ScalarMinMax.ExecScalarLoop, hs] using h1,
            by simpa [ScalarValues, hs, FoldValues, Combine] using h2⟩
        | true =>
          obtain ⟨v, b, h1, h2⟩ := ih (op.Call value s.value) true
          exact ⟨v, b, by simpa [ScalarMinMax.ExecScalarLoop, hs] using h1,
            by simpa [ScalarValues, hs, FoldValues, Combine] using h2⟩
      · obtain ⟨v, b, h1, h2⟩ := ih value valid
        exact ⟨v, b, by simpa [ScalarMinMax.ExecScalarLoop, hs] using h1,
          by simpa [ScalarValues, hs] using h2⟩

theorem ExecScalarLoop_noskip {α : Type} (op : MinMaxOp α) (ds : List (Datum α))
    (value : α) (valid : Bool) :
    (HasNullScalar ds = true ∧
      ScalarMinMax.ExecScalarLoop op false ds value valid = none) ∨
    (HasNullScalar ds = false ∧
      ∃ v b, ScalarMinMax.ExecScalarLoop op false ds value valid = some (v, b) ∧
        (if b then some v else none) =
          FoldValues op (if valid then some value else none) (ScalarValues ds)) := by
  induction ds generalizing value valid with
  | nil => exact Or.inr ⟨rfl, value, valid, rfl, by simp [ScalarValues, FoldValues]⟩
  | cons d ds ih =>
    cases d with
    | array a =>
      rcases ih value valid with ⟨h0, h1⟩ | ⟨h0, v, b, h1, h2⟩
      · exact Or.inl ⟨by simpa [HasNullScalar] using h0,
          by simpa [ScalarMinMax.ExecScalarLoop] using h1⟩
      · exact Or.inr ⟨by simpa [HasNullScalar] using h0, v, b,
          by simpa [ScalarMinMax.ExecScalarLoop] using h1,
          by simpa [ScalarValues] using h2⟩
    | scalar s =>
      by_cases hs : s.is_valid = true
      · cases valid with
        | false =>
          rcases ih s.value true with ⟨h0, h1⟩ | ⟨h0, v, b, h1, h2⟩
          · exact Or.inl ⟨by simpa [HasNullScalar, hs] using h0,
              by simpa [ScalarMinMax.ExecScalarLoop, hs] using h1⟩
          · exact Or.inr ⟨by simpa [HasNullScalar, hs] using h0, v, b,
              by simpa [ScalarMinMax.ExecScalarLoop, hs] using h1,
              by simpa [ScalarValues, hs, FoldValues, Combine] using h2⟩
        | true =>
          rcases ih (op.Call value s.value) true with ⟨h0, h1⟩ | ⟨h0, v, b, h1, h2⟩
          · exact Or.inl ⟨by simpa [HasNullScalar, hs] using h0,
              by simpa [ScalarMinMax.ExecScalarLoop, hs] using h1⟩
          · exact Or.inr ⟨by simpa [HasNullScalar, hs] using h0, v, b,
              by simpa [ScalarMinMax.ExecScalarLoop, hs] using h1,
              by simpa [ScalarValues, hs, FoldValues, Combine] using h2⟩
      · exact Or.inl ⟨by simp [HasNullScalar, hs],
          by simp [ScalarMinMax.ExecScalarLoop, hs]⟩

/-- The whole of `ExecScalar`: it stores `ScalarFold` into `out`. -/
theorem ExecScalar_eq {α : Type} [Inhabited α] (op : MinMaxOp α) (batch : ExecBatch α)
    (options : ElementWiseAggregateOptions) (out : Scalar α) :
    ScalarMinMax.ExecScalar op batch options out =
      StoreResult out (ScalarFold op options.skip_nulls batch.values) := by
  unfold ScalarMinMax.ExecScalar ScalarFold
  cases hskip : options.skip_nulls with
  | true =>
    obtain ⟨v, b, h1, h2⟩ := ExecScalarLoop_skip op batch.values default false
    rw [h1]
    simp only [Bool.not_true, Bool.false_and, Bool.false_eq_true, if_false] at h2 ⊢
    rw [← h2]
    cases b <;> simp [StoreResult]
  | false =>
    rcases ExecScalarLoop_noskip op batch.values default false with
      ⟨h0, h1⟩ | ⟨h0, v, b, h1, h2⟩
    · rw [h1]; simp [h0, StoreResult]
    · rw [h1]
      simp only [h0, Bool.not_false, Bool.true_and, Bool.false_eq_true, if_false] at h2 ⊢
      rw [← h2]
      cases b <;> simp [StoreResult]

theorem ScalarValues_map_scalar {α : Type} (scalars : List (Scalar α)) :
    ScalarValues (scalars.map Datum.scalar) =
      (scalars.filter (fun s => s.is_valid)).map (fun s => s.value) := by
  induction scalars with
  | nil => rfl
  | cons s l ih =>
    unfold ScalarValues at ih ⊢
    by_cases hs : s.is_valid = true
    · simp [List.filterMap_cons, hs, ih]
    · simp [List.filterMap_cons, hs, ih]

theorem HasNullScalar_map_scalar {α : Type} (scalars : List (Scalar α)) :
    HasNullScalar (scalars.map Datum.scalar) = false ↔ ∀ s ∈ scalars, s.is_valid = true := by
  induction scalars with
  | nil => simp [HasNullScalar]
  | cons s l ih =>
    unfold HasNullScalar at ih ⊢
    simp only [List.map_cons, List.any_cons, Bool.or_eq_false_iff, List.mem_cons,
      forall_eq_or_imp, ih]
    simp

theorem StoreResult_is_valid {α : Type} (out : Scalar α) (r : Option α) :
    (StoreResult out r).is_valid = r.isSome := by
  cases r <;> rfl

theorem StoreResult_value {α : Type} (out : Scalar α) (v : α) :
    (StoreResult out (some v)).value = v := rfl

theorem ExecScalar_contract (op : MinMaxOp Int) (R : Int → Int → Prop) (laws : OpLaws op R)
    (scalars : List (Scalar Int)) (n : Nat) (out : Scalar Int) :
    ExecScalarContract op R scalars n out := by
  unfold ExecScalarContract
  simp only [ExecScalar_eq, StoreResult_is_valid]
  refine ⟨?_, ?_, ?_, ?_⟩
  · -- validity, nulls skipped
    simp only [ScalarFold, Bool.not_true, Bool.false_and, Bool.false_eq_true, if_false,
      ScalarValues_map_scalar]
    rw [Option.isSome_iff_ne_none, Ne, FoldValues_eq_none]
    simp only [true_and]
    constructor
    · intro h
      obtain ⟨v, hv⟩ := List.exists_mem_of_ne_nil _ h
      obtain ⟨s, hs, _⟩ := List.mem_map.1 hv
      exact ⟨s, (List.mem_filter.1 hs).1, (List.mem_filter.1 hs).2⟩
    · rintro ⟨s, hs, hv⟩
      have hmem : s.value ∈ (scalars.filter (fun s => s.is_valid)).map (fun s => s.value) :=
        List.mem_map.2 ⟨s, List.mem_filter.2 ⟨hs, hv⟩, rfl⟩
      exact List.ne_nil_of_mem hmem
  · -- value, nulls skipped
    simp only [ScalarFold, Bool.not_true, Bool.false_and, Bool.false_eq_true, if_false,
      ScalarValues_map_scalar]
    intro h
    obtain ⟨r, hr⟩ := Option.isSome_iff_exists.1 h
    rw [hr, StoreResult_value]
    exact FoldValues_extreme laws _ r hr
  · -- validity, nulls propagated
    simp only [ScalarFold, Bool.not_false, Bool.true_and]
    constructor
    · intro h
      by_cases hn : HasNullScalar (scalars.map Datum.scalar) = true
      · simp [hn] at h
      · have hall := (HasNullScalar_map_scalar scalars).1 (by simpa using hn)
        refine ⟨?_, hall⟩
        rintro rfl
        simp [HasNullScalar, ScalarValues, FoldValues] at h
    · rintro ⟨hne, hall⟩
      have hn := (HasNullScalar_map_scalar scalars).2 hall
      simp only [hn, Bool.false_eq_true, if_false]
      rw [Option.isSome_iff_ne_none, Ne, FoldValues_eq_none, ScalarValues_map_scalar]
      simp only [true_and]
      rw [List.filter_eq_self.2 (fun s hs => by simpa using hall s hs)]
      simpa using hne
  · -- value, nulls propagated
    simp only [ScalarFold, Bool.not_false, Bool.true_and]
    intro h
    by_cases hn : HasNullScalar (scalars.map Datum.scalar) = true
    · simp [hn] at h
    · have hn' : HasNullScalar (scalars.map Datum.scalar) = false := by simpa using hn
      have hall := (HasNullScalar_map_scalar scalars).1 hn'
      simp only [hn', Bool.false_eq_true, if_false] at h ⊢
      obtain ⟨r, hr⟩ := Option.isSome_iff_exists.1 h
      rw [hr, StoreResult_value]
      have hx := FoldValues_extreme laws _ r hr
      rw [ScalarValues_map_scalar,
        List.filter_eq_self.2 (fun s hs => by simpa using hall s hs)] at hx
      exact hx

/-! ## The fold pass of `Exec` -/

theorem getD_set {α : Type} (l : List α) (k i : Nat) (x d : α) :
    (l.set k x).getD i d = if k = i ∧ k < l.length then x else l.getD i d := by
  simp only [List.getD_eq_getElem?_getD, List.getElem?_set]
  by_cases h : k = i
  · subst h
    by_cases h2 : k < l.length
    · simp [h2]
    · simp [h2, List.getElem?_eq_none (Nat.le_of_not_lt h2)]
  · simp [h]

theorem VisitElement_validity {α : Type} [Inhabited α] (op : MinMaxOp α)
    (array output : ArrayData α) (k : Nat) :
    (ScalarMinMax.VisitElement op array output k).validity = output.validity := by
  unfold ScalarMinMax.VisitElement; split <;> rfl

theorem VisitElement_offset {α : Type} [Inhabited α] (op : MinMaxOp α)
    (array output : ArrayData α) (k : Nat) :
    (ScalarMinMax.VisitElement op array output k).offset = output.offset := by
  unfold ScalarMinMax.VisitElement; split <;> rfl

theorem VisitElement_length {α : Type} [Inhabited α] (op : MinMaxOp α)
    (array output : ArrayData α) (k : Nat) :
    (ScalarMinMax.VisitElement op array output k).values.length = output.values.length := by
  unfold ScalarMinMax.VisitElement; split <;> simp

theorem VisitElement_getD {α : Type} [Inhabited α] (op : MinMaxOp α)
    (array output : ArrayData α) (k i : Nat) (hk : k < output.values.length) :
    (ScalarMinMax.VisitElement op array output k).values.getD i default =
      if k = i then
        RowStep op (ScalarMinMax.BitmapValid output.validity k)
          (output.values.getD k default) (array.Get? k)
      else output.values.getD i default := by
  unfold ScalarMinMax.VisitElement ArrayData.Get?
  by_cases hv : array.IsValid k = true
  · simp only [hv, if_true, getD_set, RowStep, hk, and_true]
  · simp only [hv, Bool.false_eq_true, if_false, RowStep]
    split
    · rename_i h; rw [h]
    · rfl

/-- The state after the first `n` rows of the fold pass of one array. -/
theorem VisitRows_spec {α : Type} [Inhabited α] (op : MinMaxOp α)
    (array output : ArrayData α) (n : Nat) (hn : n ≤ output.values.length) :
    ((List.range n).foldl (ScalarMinMax.VisitElement op array) output).validity =
        output.validity ∧
    ((List.range n).foldl (ScalarMinMax.VisitElement op array) output).offset =
        output.offset ∧
    ((List.range n).foldl (ScalarMinMax.VisitElement op array) output).values.length =
        output.values.length ∧
    ∀ i, ((List.range n).foldl (ScalarMinMax.VisitElement op array) output).values.getD i default =
      if i < n then
        RowStep op (ScalarMinMax.BitmapValid output.validity i)
          (output.values.getD i default) (array.Get? i)
      else output.values.getD i default := by
  induction n with
  | zero => simp
  | succ n ih =>
    obtain ⟨h1, h2, h3, h4⟩ := ih (Nat.le_of_succ_le hn)
    rw [List.range_succ, List.foldl_append, List.foldl_cons, List.foldl_nil]
    refine ⟨?_, ?_, ?_, ?_⟩
    · rw [VisitElement_validity, h1]
    · rw [VisitElement_offset, h2]
    · rw [VisitElement_length, h3]
    · intro i
      rw [VisitElement_getD op array _ n i (by rw [h3]; exact hn), h1, h4 n, h4 i]
      by_cases hi : n = i
      · subst hi; simp
      · have : (i < n + 1) = (i < n) := by
          apply propext; constructor <;> intro h <;> omega
        simp only [hi, if_false, this]

theorem VisitArray_spec {α : Type} [Inhabited α] (op : MinMaxOp α)
    (output array : ArrayData α) (hn : array.length ≤ output.values.length) :
    (ScalarMinMax.VisitArray op output array).validity = output.validity ∧
    (ScalarMinMax.VisitArray op output array).offset = output.offset ∧
    (ScalarMinMax.VisitArray op output array).values.length = output.values.length ∧
    ∀ i, i < array.length →
      (ScalarMinMax.VisitArray op output array).values.getD i default =
        RowStep op (ScalarMinMax.BitmapValid output.validity i)
          (output.values.getD i default) (array.Get? i) := by
  obtain ⟨h1, h2, h3, h4⟩ := VisitRows_spec op array output array.length hn
  refine ⟨h1, h2, h3, fun i hi => ?_⟩
  have := h4 i
  simp only [hi, if_true] at this
  exact this

/-- The state after the fold passes of all arrays: row `i` of the values buffer
is the fold of `RowStep` over the elements `i` of the arrays. -/
theorem VisitArrays_spec {α : Type} [Inhabited α] (op : MinMaxOp α)
    (arrays : List (ArrayData α)) (output : ArrayData α) (n : Nat)
    (hlen : ∀ a ∈ arrays, a.length = n) (hn : n ≤ output.values.length) :
    (arrays.foldl (ScalarMinMax.VisitArray op) output).validity = output.validity ∧
    (arrays.foldl (ScalarMinMax.VisitArray op) output).offset = output.offset ∧
    ∀ i, i < n →
      (arrays.foldl (ScalarMinMax.VisitArray op) output).values.getD i default =
        (arrays.map (fun a => a.Get? i)).foldl
          (RowStep op (ScalarMinMax.BitmapValid output.validity i))
          (output.values.getD i default) := by
  induction arrays generalizing output with
  | nil => simp
  | cons a arrays ih =>
    have ha : a.length = n := hlen a (List.mem_cons_self _ _)
    obtain ⟨h1, h2, h3, h4⟩ := VisitArray_spec op output a (by rw [ha]; exact hn)
    obtain ⟨g1, g2, g3⟩ := ih (ScalarMinMax.VisitArray op output a)
      (fun b hb => hlen b (List.mem_cons_of_mem _ hb)) (by rw [h3]; exact hn)
    rw [List.foldl_cons]
    refine ⟨by rw [g1, h1], by rw [g2, h2], fun i hi => ?_⟩
    rw [g3 i hi, h1, h4 i (by rw [ha]; exact hi)]
    simp

/-! ## The validity bitmap of `Exec` -/

theorem GetBit_map_range (f : Nat → Bool) (n i : Nat) (hi : i < n) :
    GetBit ((List.range n).map f) i = f i := by
  simp [GetBit, List.getD_eq_getElem?_getD, List.getElem?_map, List.getElem?_range hi]

theorem IsValid_of_not_MayHaveNulls {α : Type} (a : ArrayData α) (i : Nat)
    (hnc : a.null_count = 0 → a.IsValid i = true) (h : a.MayHaveNulls = false) :
    a.IsValid i = true := by
  unfold ArrayData.MayHaveNulls at h
  rcases Bool.and_eq_false_iff.1 h with h1 | h1
  · exact hnc (by simpa using h1)
  · unfold ArrayData.IsValid
    cases hv : a.validity with
    | none => rfl
    | some bm => rw [hv] at h1; simp at h1

theorem AndStep_valid {α : Type} (n : Nat) (b : Option (List Bool)) (a : ArrayData α)
    (i : Nat) (hi : i < n) :
    ScalarMinMax.BitmapValid (ScalarMinMax.AndStep n b a) i =
      (ScalarMinMax.BitmapValid b i && (!a.MayHaveNulls || a.IsValid i)) := by
  unfold ScalarMinMax.AndStep
  by_cases hm : a.MayHaveNulls = true
  · simp only [hm, Bool.not_true, Bool.false_eq_true, if_false, Bool.false_or]
    unfold ArrayData.IsValid
    cases hv : a.validity with
    | none => simp [ArrayData.MayHaveNulls, hv] at hm
    | some bm =>
      cases b with
      | none =>
        simp [ScalarMinMax.BitmapValid, ScalarMinMax.CopyBitmap, GetBit_map_range _ n i hi]
      | some out =>
        simp [ScalarMinMax.BitmapValid, ScalarMinMax.BitmapAnd, GetBit_map_range _ n i hi]
  · simp [hm]

theorem AndFold_valid {α : Type} (n : Nat) (arrays : List (ArrayData α))
    (b : Option (List Bool)) (i : Nat) (hi : i < n) :
    ScalarMinMax.BitmapValid (arrays.foldl (ScalarMinMax.AndStep n) b) i =
      (ScalarMinMax.BitmapValid b i &&
        arrays.all (fun a => !a.MayHaveNulls || a.IsValid i)) := by
  induction arrays generalizing b with
  | nil => simp
  | cons a arrays ih =>
    rw [List.foldl_cons, ih, AndStep_valid n b a i hi, List.all_cons, Bool.and_assoc]

theorem OrStep_some {α : Type} (n : Nat) (out : List Bool) (a : ArrayData α)
    (hm : a.MayHaveNulls = true) :
    ∃ bm, a.validity = some bm ∧
      ScalarMinMax.OrStep n (some out) a = some (ScalarMinMax.BitmapOr out bm a.offset n) := by
  cases hv : a.validity with
  | none => simp [ArrayData.MayHaveNulls, hv] at hm
  | some bm => exact ⟨bm, rfl, by simp [ScalarMinMax.OrStep, hm, hv]⟩

theorem OrFold_some {α : Type} (n : Nat) (arrays : List (ArrayData α))
    (hm : ∀ a ∈ arrays, a.MayHaveNulls = true) (out : List Bool) (i : Nat) (hi : i < n) :
    ScalarMinMax.BitmapValid (arrays.foldl (ScalarMinMax.OrStep n) (some out)) i =
      (GetBit out i || arrays.any (fun a => a.IsValid i)) := by
  induction arrays generalizing out with
  | nil => simp [ScalarMinMax.BitmapValid]
  | cons a arrays ih =>
    obtain ⟨bm, hv, hstep⟩ := OrStep_some n out a (hm a (List.mem_cons_self _ _))
    rw [List.foldl_cons, hstep, ih (fun b hb => hm b (List.mem_cons_of_mem _ hb)),
      List.any_cons, ← Bool.or_assoc]
    congr 1
    simp [ScalarMinMax.BitmapOr, GetBit_map_range _ n i hi, ArrayData.IsValid, hv]

theorem OrFold_none {α : Type} (n : Nat) (a : ArrayData α) (arrays : List (ArrayData α))
    (hm : ∀ b ∈ a :: arrays, b.MayHaveNulls = true) (i : Nat) (hi : i < n) :
    ScalarMinMax.BitmapValid ((a :: arrays).foldl (ScalarMinMax.OrStep n) none) i =
      (a :: arrays).any (fun a => a.IsValid i) := by
  have hma := hm a (List.mem_cons_self _ _)
  cases hv : a.validity with
  | none => simp [ArrayData.MayHaveNulls, hv] at hma
  | some bm =>
    have hstep : ScalarMinMax.OrStep n none a =
        some (ScalarMinMax.CopyBitmap bm a.offset n) := by
      simp [ScalarMinMax.OrStep, hma, hv]
    rw [List.foldl_cons, hstep, OrFold_some n arrays
      (fun b hb => hm b (List.mem_cons_of_mem _ hb)) _ i hi, List.any_cons]
    congr 1
    simp [ScalarMinMax.CopyBitmap, GetBit_map_range _ n i hi, ArrayData.IsValid, hv]

/-- The precomputed validity of row `i`, when the output starts without a
bitmap: the OR over the arrays where nulls are skipped and no scalar
contributed, the AND over the arrays where nulls are not skipped, and valid
otherwise. -/
theorem PrecomputeValidity_valid {α : Type} (options : ElementWiseAggregateOptions)
    (initialize_output : Bool) (arrays : List (ArrayData α)) (n i : Nat) (hi : i < n)
    (hne : arrays ≠ [])
    (hnc : ∀ a ∈ arrays, a.null_count = 0 → a.IsValid i = true) :
    ScalarMinMax.BitmapValid
        (ScalarMinMax.PrecomputeValidity options initialize_output arrays n none) i =
      if options.skip_nulls then
        (!initialize_output || arrays.any (fun a => a.IsValid i))
      else arrays.all (fun a => a.IsValid i) := by
  unfold ScalarMinMax.PrecomputeValidity
  cases hs : options.skip_nulls with
  | true =>
    cases initialize_output with
    | false => simp [ScalarMinMax.BitmapValid]
    | true =>
      simp only [Bool.and_self, if_true, Bool.not_true, Bool.false_or]
      by_cases hall : arrays.all (fun arr => arr.MayHaveNulls) = true
      · simp only [hall, if_true]
        cases arrays with
        | nil => exact absurd rfl hne
        | cons a arrays =>
          exact OrFold_none n a arrays (fun b hb => List.all_eq_true.1 hall b hb) i hi
      · simp only [hall, Bool.false_eq_true, if_false]
        have : ∃ a ∈ arrays, a.MayHaveNulls = false := by
          by_contra hcon
          apply hall
          rw [List.all_eq_true]
          intro a ha
          by_contra h
          exact hcon ⟨a, ha, by simpa using h⟩
        obtain ⟨a, ha, hma⟩ := this
        have hva := IsValid_of_not_MayHaveNulls a i (hnc a ha) hma
        have hany : arrays.any (fun a => a.IsValid i) = true :=
          List.any_eq_true.2 ⟨a, ha, hva⟩
        rw [hany]; rfl
  | false =>
    simp only [Bool.false_and, Bool.false_eq_true, if_false, Bool.not_false, if_true]
    rw [AndFold_valid n arrays none i hi]
    simp only [ScalarMinMax.BitmapValid, Bool.true_and]
    have key : ∀ l : List (ArrayData α), (∀ a ∈ l, a ∈ arrays) →
        l.all (fun a => !a.MayHaveNulls || a.IsValid i) = l.all (fun a => a.IsValid i) := by
      intro l
      induction l with
      | nil => intro _; rfl
      | cons a l ih =>
        intro hl
        have ha := hl a (List.mem_cons_self _ _)
        rw [List.all_cons, List.all_cons, ih (fun b hb => hl b (List.mem_cons_of_mem _ hb))]
        congr 1
        by_cases hma : a.MayHaveNulls = true
        · simp [hma]
        · have hma' : a.MayHaveNulls = false := by simpa using hma
          simp [hma', IsValid_of_not_MayHaveNulls a i (hnc a ha) hma']
    exact key arrays (fun a ha => ha)

/-! ## Operands split into scalars and arrays -/

theorem mem_Arrays {α : Type} (batch : ExecBatch α) (a : ArrayData α) :
    a ∈ ScalarMinMax.Arrays batch ↔ Datum.array a ∈ batch.values := by
  unfold ScalarMinMax.Arrays
  rw [List.mem_filterMap]
  constructor
  · rintro ⟨d, hd, h⟩
    cases d with
    | scalar s => simp at h
    | array b => simp at h; subst h; exact hd
  · intro h; exact ⟨_, h, rfl⟩

theorem any_At_split {α : Type} [Inhabited α] (ds : List (Datum α)) (n i : Nat) :
    ds.any (fun arg => (arg.At i).isSome) =
      (!(ScalarValues ds).isEmpty ||
        (ScalarMinMax.Arrays { values := ds, length := n }).any (fun a => a.IsValid i)) := by
  induction ds with
  | nil => rfl
  | cons d ds ih =>
    unfold ScalarValues ScalarMinMax.Arrays at ih ⊢
    rw [List.any_cons, ih]
    cases d with
    | array a =>
      by_cases hv : a.IsValid i = true
      · simp [Datum.At, ArrayData.Get?, hv]
      · simp [Datum.At, ArrayData.Get?, hv]
    | scalar s =>
      by_cases hs : s.is_valid = true
      · simp [Datum.At, hs]
      · simp [Datum.At, hs]

theorem all_At_split {α : Type} [Inhabited α] (ds : List (Datum α)) (n i : Nat) :
    ds.all (fun arg => (arg.At i).isSome) =
      (!HasNullScalar ds &&
        (ScalarMinMax.Arrays { values := ds, length := n }).all (fun a => a.IsValid i)) := by
  induction ds with
  | nil => rfl
  | cons d ds ih =>
    unfold HasNullScalar ScalarMinMax.Arrays at ih ⊢
    rw [List.all_cons, ih]
    cases d with
    | array a =>
      by_cases hv : a.IsValid i = true
      · simp [Datum.At, ArrayData.Get?, hv]
      · simp [Datum.At, ArrayData.Get?, hv]
    | scalar s =>
      by_cases hs : s.is_valid = true
      · simp [Datum.At, hs]
      · simp [Datum.At, hs]

theorem mem_ValuesAt {α : Type} [Inhabited α] (batch : ExecBatch α) (i : Nat) (v : α) :
    v ∈ ValuesAt batch i ↔
      v ∈ ScalarValues batch.values ++ (ScalarMinMax.Arrays batch).filterMap (fun a => a.Get? i) := by
  unfold ValuesAt ScalarValues ScalarMinMax.Arrays
  simp only [List.mem_append, List.mem_filterMap]
  constructor
  · rintro ⟨d, hd, h⟩
    cases d with
    | scalar s => exact Or.inl ⟨_, hd, h⟩
    | array a => exact Or.inr ⟨a, ⟨_, hd, rfl⟩, h⟩
  · rintro (⟨d, hd, h⟩ | ⟨a, ⟨d, hd, hda⟩, h⟩)
    · cases d with
      | scalar s => exact ⟨_, hd, h⟩
      | array a => simp at h
    · cases d with
      | scalar s => simp at hda
      | array b => simp at hda; subst hda; exact ⟨_, hd, h⟩

theorem countP_is_scalar_eq_length {α : Type} (ds : List (Datum α)) (n : Nat) :
    ds.countP Datum.is_scalar = ds.length ↔ ScalarMinMax.Arrays { values := ds, length := n } = [] := by
  rw [List.countP_eq_length, List.eq_nil_iff_forall_not_mem]
  constructor
  · intro h a ha
    have := h _ ((mem_Arrays _ a).1 ha)
    simp [Datum.is_scalar] at this
  · intro h d hd
    cases d with
    | scalar s => rfl
    | array a => exact absurd ((mem_Arrays { values := ds, length := n } a).2 hd) (h a)

theorem ScalarValues_length_le {α : Type} (ds : List (Datum α)) :
    (ScalarValues ds).length ≤ ds.countP Datum.is_scalar := by
  induction ds with
  | nil => simp [ScalarValues]
  | cons d ds ih =>
    unfold ScalarValues at ih ⊢
    cases d with
    | array a => simpa [List.countP_cons, Datum.is_scalar] using ih
    | scalar s =>
      by_cases hs : s.is_valid = true
      · simpa [List.countP_cons, Datum.is_scalar, hs] using ih
      · simp only [List.filterMap_cons, hs, Bool.false_eq_true, if_false, List.countP_cons,
          Datum.is_scalar, if_true]
        omega

theorem ScalarValues_length_eq {α : Type} (ds : List (Datum α))
    (h : HasNullScalar ds = false) :
    (ScalarValues ds).length = ds.countP Datum.is_scalar := by
  induction ds with
  | nil => simp [ScalarValues]
  | cons d ds ih =>
    unfold ScalarValues HasNullScalar at *
    cases d with
    | array a =>
      simp only [List.any_cons, Bool.false_or] at h
      simpa [List.countP_cons, Datum.is_scalar] using ih h
    | scalar s =>
      simp only [List.any_cons, Bool.or_eq_false_iff] at h
      have hs : s.is_valid = true := by simpa using h.1
      simpa [List.countP_cons, Datum.is_scalar, hs] using ih h.2

theorem Fill_length {α : Type} (vs : List α) (n : Nat) (x : α) :
    (ScalarMinMax.Fill vs n x).length = vs.length := by
  induction vs generalizing n with
  | nil => rfl
  | cons v vs ih =>
    cases n with
    | zero => rfl
    | succ n => simp [ScalarMinMax.Fill, ih]

theorem Fill_getD {α : Type} (vs : List α) (n i : Nat) (x d : α) (hi : i < n)
    (hl : i < vs.length) : (ScalarMinMax.Fill vs n x).getD i d = x := by
  induction vs generalizing n i with
  | nil => simp at hl
  | cons v vs ih =>
    cases n with
    | zero => omega
    | succ n =>
      cases i with
      | zero => simp [ScalarMinMax.Fill]
      | succ i =>
        simp only [ScalarMinMax.Fill, List.getD_cons_succ]
        exact ih n i (by omega) (by simpa using hl)

theorem RowStep_foldl_valid {α : Type} (op : MinMaxOp α) (cells : List (Option α)) (u : α) :
    cells.foldl (RowStep op true) u = (cells.filterMap id).foldl op.Call u := by
  induction cells generalizing u with
  | nil => rfl
  | cons c cells ih =>
    cases c with
    | none => simpa [RowStep] using ih u
    | some v => simpa [RowStep] using ih (op.Call u v)

/-! ## The array branch of `Exec` -/

theorem VisitElement_len {α : Type} [Inhabited α] (op : MinMaxOp α)
    (array output : ArrayData α) (k : Nat) :
    (ScalarMinMax.VisitElement op array output k).length = output.length := by
  unfold ScalarMinMax.VisitElement; split <;> rfl

theorem VisitArray_len {α : Type} [Inhabited α] (op : MinMaxOp α)
    (output array : ArrayData α) :
    (ScalarMinMax.VisitArray op output array).length = output.length := by
  unfold ScalarMinMax.VisitArray
  generalize List.range array.length = l
  induction l generalizing output with
  | nil => rfl
  | cons k l ih => rw [List.foldl_cons, ih, VisitElement_len]

theorem VisitArrays_len {α : Type} [Inhabited α] (op : MinMaxOp α)
    (arrays : List (ArrayData α)) (output : ArrayData α) :
    (arrays.foldl (ScalarMinMax.VisitArray op) output).length = output.length := by
  induction arrays generalizing output with
  | nil => rfl
  | cons a arrays ih => rw [List.foldl_cons, ih, VisitArray_len]

theorem HasNullScalar_pos {α : Type} (ds : List (Datum α)) (h : HasNullScalar ds = true) :
    0 < ds.countP Datum.is_scalar := by
  unfold HasNullScalar at h
  obtain ⟨d, hd, hx⟩ := List.any_eq_true.1 h
  cases d with
  | array a => simp at hx
  | scalar s => exact List.countP_pos_iff.2 ⟨_, hd, rfl⟩

/-- The output of the array branch once the seed `u0` of the values buffer and
`initialize_output` are fixed: its length, row validity and row values. -/
theorem ExecArrays_run {α : Type} [Inhabited α] (op : MinMaxOp α)
    (options : ElementWiseAggregateOptions) (batch : ExecBatch α) (output : ArrayData α)
    (wf : BatchWF batch) (pre : Preallocated batch output) (init : Bool) (u0 : α)
    (res : ArrayData α)
    (hres : res =
      { (ScalarMinMax.Arrays batch).foldl (ScalarMinMax.VisitArray op)
          { output with
            values := ScalarMinMax.Fill output.values batch.length u0
            validity := ScalarMinMax.PrecomputeValidity options init
              (ScalarMinMax.Arrays batch) batch.length output.validity } with
        null_count :=
          if ((ScalarMinMax.Arrays batch).foldl (ScalarMinMax.VisitArray op)
            { output with
              values := ScalarMinMax.Fill output.values batch.length u0
              validity := ScalarMinMax.PrecomputeValidity options init
                (ScalarMinMax.Arrays batch) batch.length output.validity }).validity.isSome
          then -1 else 0 }) :
    res.length = batch.length ∧
    ∀ i, i < batch.length →
      res.IsValid i = ScalarMinMax.BitmapValid
        (ScalarMinMax.PrecomputeValidity options init (ScalarMinMax.Arrays batch)
          batch.length none) i ∧
      res.GetValue i =
        ((ScalarMinMax.Arrays batch).map (fun a => a.Get? i)).foldl
          (RowStep op (ScalarMinMax.BitmapValid
            (ScalarMinMax.PrecomputeValidity options init (ScalarMinMax.Arrays batch)
              batch.length none) i)) u0 := by
  have hlen : ∀ a ∈ ScalarMinMax.Arrays batch, a.length = batch.length :=
    fun a ha => wf.length_eq a ((mem_Arrays batch a).1 ha)
  obtain ⟨olen, onc, ooff, oval, ovals⟩ := output
  obtain ⟨p1, p2, p3, p4⟩ := pre
  simp only at p1 p2 p3 p4
  subst p2 p3
  obtain ⟨h1, h2, h3⟩ := VisitArrays_spec op (ScalarMinMax.Arrays batch)
    { length := olen, null_count := onc, offset := 0,
      validity := ScalarMinMax.PrecomputeValidity options init
        (ScalarMinMax.Arrays batch) batch.length none,
      values := ScalarMinMax.Fill ovals batch.length u0 }
    batch.length hlen (by simp [Fill_length, p4])
  simp only at h1 h2 h3
  subst hres
  refine ⟨?_, fun i hi => ⟨?_, ?_⟩⟩
  · simp only [VisitArrays_len]; exact p1
  · simp only [ArrayData.IsValid, h1, h2, Nat.zero_add]
    rfl
  · simp only [ArrayData.GetValue, h2, Nat.zero_add]
    rw [h3 i hi, Fill_getD _ _ _ _ _ hi (by rw [p4]; exact hi)]

/-- The three ways through the array branch: the early abort at a null scalar,
the output seeded with the fold of the scalars, and the output seeded with the
antiextreme. -/
theorem ExecArrays_cases {α : Type} [Inhabited α] (op : MinMaxOp α)
    (options : ElementWiseAggregateOptions) (batch : ExecBatch α) (output : ArrayData α)
    (wf : BatchWF batch) (pre : Preallocated batch output) :
    (options.skip_nulls = false ∧ HasNullScalar batch.values = true ∧
      ScalarMinMax.ExecArrays op options batch output =
        ScalarMinMax.MakeArrayFromNullScalar batch.length) ∨
    (∃ init u0,
      ((init = false ∧ ScalarFold op options.skip_nulls batch.values = some u0) ∨
       (init = true ∧ u0 = op.antiextreme ∧ ScalarValues batch.values = [])) ∧
      (options.skip_nulls = false → HasNullScalar batch.values = false) ∧
      (ScalarMinMax.ExecArrays op options batch output).length = batch.length ∧
      ∀ i, i < batch.length →
        (ScalarMinMax.ExecArrays op options batch output).IsValid i =
          ScalarMinMax.BitmapValid
            (ScalarMinMax.PrecomputeValidity options init (ScalarMinMax.Arrays batch)
              batch.length none) i ∧
        (ScalarMinMax.ExecArrays op options batch output).GetValue i =
          ((ScalarMinMax.Arrays batch).map (fun a => a.Get? i)).foldl
            (RowStep op (ScalarMinMax.BitmapValid
              (ScalarMinMax.PrecomputeValidity options init (ScalarMinMax.Arrays batch)
                batch.length none) i)) u0) := by
  cases hF : ScalarFold op options.skip_nulls batch.values with
  | some r =>
    have hsv : ScalarValues batch.values ≠ [] := by
      intro h
      unfold ScalarFold at hF
      split at hF
      · cases hF
      · rw [h] at hF; simp [FoldValues] at hF
    have hsc : 0 < batch.values.countP Datum.is_scalar := by
      have := ScalarValues_length_le batch.values
      have h2 : 0 < (ScalarValues batch.values).length := List.length_pos.2 hsv
      omega
    refine Or.inr ⟨false, r, Or.inl ⟨rfl, rfl⟩, ?_, ?_⟩
    · intro hs
      unfold ScalarFold at hF
      rw [hs] at hF
      by_contra hn
      simp [hn] at hF
    · apply ExecArrays_run op options batch output wf pre false r
      unfold ScalarMinMax.ExecArrays
      simp [ExecScalar_eq, hF, StoreResult, hsc]
  | none =>
    by_cases hsc : 0 < batch.values.countP Datum.is_scalar
    · cases hs : options.skip_nulls with
      | false =>
        refine Or.inl ⟨rfl, ?_, ?_⟩
        · unfold ScalarFold at hF
          rw [hs] at hF
          by_contra hn
          have hn' : HasNullScalar batch.values = false := by simpa using hn
          simp only [hn', Bool.not_false, Bool.true_and, Bool.false_eq_true, if_false] at hF
          have h0 := ((FoldValues_eq_none op none _).1 hF).2
          have := ScalarValues_length_eq batch.values hn'
          rw [h0] at this
          simp at this
          omega
        · have hF' := hF
          rw [hs] at hF'
          unfold ScalarMinMax.ExecArrays
          simp [ExecScalar_eq, hF', StoreResult, hsc, hs]
      | true =>
        have h0 : ScalarValues batch.values = [] := by
          unfold ScalarFold at hF
          rw [hs] at hF
          simp only [Bool.not_true, Bool.false_and, Bool.false_eq_true, if_false] at hF
          exact ((FoldValues_eq_none op none _).1 hF).2
        refine Or.inr ⟨true, op.antiextreme, Or.inr ⟨rfl, rfl, h0⟩, ?_, ?_⟩
        · intro h; cases h
        · apply ExecArrays_run op options batch output wf pre true op.antiextreme
          have hF' := hF
          rw [hs] at hF'
          unfold ScalarMinMax.ExecArrays
          simp [ExecScalar_eq, hF', StoreResult, hsc, hs]
    · have h0 : ScalarValues batch.values = [] := by
        have := ScalarValues_length_le batch.values
        exact List.length_eq_zero.1 (by omega)
      have hn : HasNullScalar batch.values = false := by
        by_contra h
        exact hsc (HasNullScalar_pos _ (by simpa using h))
      refine Or.inr ⟨true, op.antiextreme, Or.inr ⟨rfl, rfl, h0⟩, fun _ => hn, ?_⟩
      apply ExecArrays_run op options batch output wf pre true op.antiextreme
      unfold ScalarMinMax.ExecArrays
      simp [ExecScalar_eq, hF, StoreResult, hsc]

theorem IsExtreme_congr {α : Type} {R : α → α → Prop} {v : α} {l l' : List α}
    (hmem : ∀ x, x ∈ l ↔ x ∈ l') (h : IsExtreme R v l) : IsExtreme R v l' :=
  ⟨(hmem v).1 h.1, fun w hw => h.2 w ((hmem w).2 hw)⟩

theorem ScalarFold_some {α : Type} (op : MinMaxOp α) (skip_nulls : Bool)
    (ds : List (Datum α)) (r : α) (h : ScalarFold op skip_nulls ds = some r) :
    FoldValues op none (ScalarValues ds) = some r := by
  unfold ScalarFold at h
  split at h
  · cases h
  · exact h

/-- Row validity of the array branch: row `i` of the output is valid exactly
when the specification says so. -/
theorem ExecArrays_row_valid {α : Type} [Inhabited α] (op : MinMaxOp α)
    (options : ElementWiseAggregateOptions) (batch : ExecBatch α) (output : ArrayData α)
    (wf : BatchWF batch) (pre : Preallocated batch output)
    (harr : ScalarMinMax.Arrays batch ≠ []) (i : Nat) (hi : i < batch.length) :
    (ScalarMinMax.ExecArrays op options batch output).IsValid i =
      RowValid options.skip_nulls batch i := by
  have hnc : ∀ a ∈ ScalarMinMax.Arrays batch, a.null_count = 0 → a.IsValid i = true := by
    intro a ha h0
    have hmem := (mem_Arrays batch a).1 ha
    exact wf.null_count_ok a hmem h0 i (by rw [wf.length_eq a hmem]; exact hi)
  have hany := any_At_split batch.values batch.length i
  have hall := all_At_split batch.values batch.length i
  rcases ExecArrays_cases op options batch output wf pre with
    ⟨hs, hn, hres⟩ | ⟨init, u0, hinit, hnull, _, hrow⟩
  · rw [hres]
    unfold RowValid
    rw [hs]
    simp only [Bool.false_eq_true, if_false]
    rw [hall, hn]
    simp [ScalarMinMax.MakeArrayFromNullScalar, ArrayData.IsValid, GetBit]
  · rw [(hrow i hi).1, PrecomputeValidity_valid options init _ _ i hi harr hnc]
    unfold RowValid
    cases hs : options.skip_nulls with
    | true =>
      simp only [if_true]
      rw [hany]
      rcases hinit with ⟨h1, h2⟩ | ⟨h1, _, h3⟩
      · have hsv := ScalarFold_some op _ _ _ h2
        have hne : ScalarValues batch.values ≠ [] := by
          intro h0; rw [h0] at hsv; simp [FoldValues] at hsv
        subst h1
        cases hl : ScalarValues batch.values with
        | nil => exact absurd hl hne
        | cons v l => simp
      · subst h1
        rw [h3]
        rfl
    | false =>
      simp only [Bool.false_eq_true, if_false]
      rw [hall, hnull hs]
      rfl

/-- Row values of the array branch, asking the antiextreme to be neutral for the
valid elements only: at a valid output row the value is the `R`-extreme of the
operand values valid at that row. -/
theorem ExecArrays_row_value_of_valid {α : Type} [Inhabited α] (op : MinMaxOp α)
    (R : α → α → Prop) (laws : OpLaws op R)
    (options : ElementWiseAggregateOptions) (batch : ExecBatch α) (output : ArrayData α)
    (wf : BatchWF batch) (pre : Preallocated batch output)
    (hanti : ∀ a ∈ ScalarMinMax.Arrays batch, ∀ i, i < a.length → a.IsValid i = true →
      op.Call op.antiextreme (a.GetValue i) = a.GetValue i)
    (harr : ScalarMinMax.Arrays batch ≠ []) (i : Nat) (hi : i < batch.length)
    (hv : (ScalarMinMax.ExecArrays op options batch output).IsValid i = true) :
    IsExtreme R ((ScalarMinMax.ExecArrays op options batch output).GetValue i)
      (ValuesAt batch i) := by
  have hnc : ∀ a ∈ ScalarMinMax.Arrays batch, a.null_count = 0 → a.IsValid i = true := by
    intro a ha h0
    have hmem := (mem_Arrays batch a).1 ha
    exact wf.null_count_ok a hmem h0 i (by rw [wf.length_eq a hmem]; exact hi)
  rcases ExecArrays_cases op options batch output wf pre with
    ⟨hs, hn, hres⟩ | ⟨init, u0, hinit, hnull, _, hrow⟩
  · rw [hres] at hv
    simp [ScalarMinMax.MakeArrayFromNullScalar, ArrayData.IsValid, GetBit] at hv
  · obtain ⟨hrv, hval⟩ := hrow i hi
    rw [hrv] at hv
    rw [hval, hv, RowStep_foldl_valid, List.filterMap_map]
    have hcomp : (id ∘ fun (a : ArrayData α) => a.Get? i) = fun a => a.Get? i := rfl
    rw [hcomp]
    apply IsExtreme_congr (fun x => (mem_ValuesAt batch i x).symm)
    rcases hinit with ⟨h1, h2⟩ | ⟨h1, h2, h3⟩
    · have hsv := ScalarFold_some op _ _ _ h2
      apply FoldValues_extreme laws
      rw [FoldValues_append, hsv, FoldValues_some]
    · subst h1 h2
      rw [h3, List.nil_append]
      rw [PrecomputeValidity_valid options true _ _ i hi harr hnc] at hv
      have hne : (ScalarMinMax.Arrays batch).filterMap (fun a => a.Get? i) ≠ [] := by
        cases hs : options.skip_nulls with
        | true =>
          simp only [hs, if_true, Bool.not_true, Bool.false_or] at hv
          obtain ⟨a, ha, hav⟩ := List.any_eq_true.1 hv
          apply List.ne_nil_of_mem (a := a.GetValue i)
          exact List.mem_filterMap.2 ⟨a, ha, by simp [ArrayData.Get?, hav]⟩
        | false =>
          simp only [hs, Bool.false_eq_true, if_false] at hv
          obtain ⟨a, ha⟩ := List.exists_mem_of_ne_nil _ harr
          have hav := List.all_eq_true.1 hv a ha
          apply List.ne_nil_of_mem (a := a.GetValue i)
          exact List.mem_filterMap.2 ⟨a, ha, by simp [ArrayData.Get?, hav]⟩
      cases hl : (ScalarMinMax.Arrays batch).filterMap (fun a => a.Get? i) with
      | nil => exact absurd hl hne
      | cons v l =>
        have hvmem : v ∈ (ScalarMinMax.Arrays batch).filterMap (fun a => a.Get? i) := by
          rw [hl]; exact List.mem_cons_self _ _
        obtain ⟨a, ha, hget⟩ := List.mem_filterMap.1 hvmem
        have hveq : a.IsValid i = true ∧ v = a.GetValue i := by
          unfold ArrayData.Get? at hget
          split at hget
          · cases hget; exact ⟨by assumption, rfl⟩
          · cases hget
        have hneutral : op.Call op.antiextreme v = v := by
          rw [hveq.2]
          exact hanti a ha i (by
            rw [wf.length_eq a ((mem_Arrays batch a).1 ha)]; exact hi) hveq.1
        apply FoldValues_extreme laws
        rw [FoldValues_none_cons, List.foldl_cons, hneutral]

/-- Row values of the array branch: at a valid output row the value is the
`R`-extreme of the operand values valid at that row. -/
theorem ExecArrays_row_value {α : Type} [Inhabited α] (op : MinMaxOp α)
    (R : α → α → Prop) (laws : OpLaws op R)
    (options : ElementWiseAggregateOptions) (batch : ExecBatch α) (output : ArrayData α)
    (wf : BatchWF batch) (pre : Preallocated batch output)
    (hanti : ∀ a ∈ ScalarMinMax.Arrays batch, ∀ i, i < a.length →
      op.Call op.antiextreme (a.GetValue i) = a.GetValue i)
    (harr : ScalarMinMax.Arrays batch ≠ []) (i : Nat) (hi : i < batch.length)
    (hv : (ScalarMinMax.ExecArrays op options batch output).IsValid i = true) :
    IsExtreme R ((ScalarMinMax.ExecArrays op options batch output).GetValue i)
      (ValuesAt batch i) :=
  ExecArrays_row_value_of_valid op R laws options batch output wf pre
    (fun a ha i hi _ => hanti a ha i hi) harr i hi hv

theorem Arrays_ne_nil {α : Type} (batch : ExecBatch α)
    (harr : ∃ a, Datum.array a ∈ batch.values) : ScalarMinMax.Arrays batch ≠ [] := by
  obtain ⟨a, ha⟩ := harr
  exact List.ne_nil_of_mem ((mem_Arrays batch a).2 ha)

theorem Exec_array {α : Type} [Inhabited α] (op : MinMaxOp α)
    (options : ElementWiseAggregateOptions) (batch : ExecBatch α) (output : ArrayData α)
    (harr : ScalarMinMax.Arrays batch ≠ []) :
    ScalarMinMax.Exec op options batch (.array output) =
      some (.array (ScalarMinMax.ExecArrays op options batch output)) := by
  unfold ScalarMinMax.Exec
  have h : ¬ batch.values.countP Datum.is_scalar = batch.values.length :=
    fun h => harr ((countP_is_scalar_eq_length batch.values batch.length).1 h)
  simp only [h, if_false]

theorem Exec_scalar {α : Type} [Inhabited α] (op : MinMaxOp α)
    (options : ElementWiseAggregateOptions) (batch : ExecBatch α) (out : Scalar α)
    (harr : ScalarMinMax.Arrays batch = []) :
    ScalarMinMax.Exec op options batch (.scalar out) =
      some (.scalar (ScalarMinMax.ExecScalar op batch options out)) := by
  unfold ScalarMinMax.Exec
  have h : batch.values.countP Datum.is_scalar = batch.values.length :=
    (countP_is_scalar_eq_length batch.values batch.length).2 harr
  simp only [h, if_true]

theorem ExecArrays_length {α : Type} [Inhabited α] (op : MinMaxOp α)
    (options : ElementWiseAggregateOptions) (batch : ExecBatch α) (output : ArrayData α)
    (wf : BatchWF batch) (pre : Preallocated batch output) :
    (ScalarMinMax.ExecArrays op options batch output).length = batch.length := by
  rcases ExecArrays_cases op options batch output wf pre with
    ⟨_, _, hres⟩ | ⟨_, _, _, _, hlen, _⟩
  · rw [hres]; rfl
  · exact hlen

theorem Minimum_antiextreme (T : IntType) (v : Int) (h : T.InRange v) :
    (Minimum T).Call (Minimum T).antiextreme v = v := by
  have := h.2
  simp only [Minimum, std_min]
  split <;> omega

theorem Maximum_antiextreme (T : IntType) (v : Int) (h : T.InRange v) :
    (Maximum T).Call (Maximum T).antiextreme v = v := by
  have := h.1
  simp only [Maximum, std_max]
  split <;> omega

theorem sampleBatch_wf : BatchWF sampleBatch where
  length_eq := by
    intro a ha
    simp only [sampleBatch, List.mem_cons, Datum.array.injEq, List.mem_singleton,
      List.not_mem_nil, or_false] at ha
    rcases ha with rfl | rfl <;> rfl
  null_count_ok := by
    intro a ha h0
    simp only [sampleBatch, List.mem_cons, Datum.array.injEq, List.mem_singleton,
      List.not_mem_nil, or_false] at ha
    rcases ha with rfl | rfl <;> simp [sampleArray, sampleSlice] at h0

theorem sampleOutput_preallocated : Preallocated sampleBatch sampleOutput :=
  ⟨rfl, rfl, rfl, rfl⟩

theorem sampleBatch_in_range : BatchInRange Int32 sampleBatch := by
  intro a ha i hi
  simp only [sampleBatch, List.mem_cons, Datum.array.injEq, List.mem_singleton,
    List.not_mem_nil, or_false] at ha
  rcases ha with rfl | rfl
  · have h3 : i < 3 := hi
    interval_cases i <;> decide
  · have h3 : i < 3 := hi
    interval_cases i <;> decide

/-! ## Batches with the same operands -/

theorem mem_ScalarValues {α : Type} (ds : List (Datum α)) (v : α) :
    v ∈ ScalarValues ds ↔ ∃ s, Datum.scalar s ∈ ds ∧ s.is_valid = true ∧ s.value = v := by
  unfold ScalarValues
  rw [List.mem_filterMap]
  constructor
  · rintro ⟨d, hd, h⟩
    cases d with
    | array a => simp at h
    | scalar s =>
      by_cases hs : s.is_valid = true
      · simp only [hs, if_true, Option.some.injEq] at h
        exact ⟨s, hd, hs, h⟩
      · simp [hs] at h
  · rintro ⟨s, hd, hs, hv⟩
    exact ⟨_, hd, by simp [hs, hv]⟩

theorem FoldValues_congr {α : Type} {op : MinMaxOp α} {R : α → α → Prop}
    (laws : OpLaws op R) {l l' : List α} (hmem : ∀ x, x ∈ l ↔ x ∈ l') :
    FoldValues op none l = FoldValues op none l' := by
  cases h : FoldValues op none l with
  | none =>
    have hl := ((FoldValues_eq_none op none l).1 h).2
    have hl' : l' = [] := by
      rw [List.eq_nil_iff_forall_not_mem]
      intro x hx
      have := (hmem x).2 hx
      rw [hl] at this
      cases this
    rw [hl']; rfl
  | some r =>
    cases h' : FoldValues op none l' with
    | none =>
      have hl' := ((FoldValues_eq_none op none l').1 h').2
      have hr := (FoldValues_extreme laws l r h).1
      have := (hmem r).1 hr
      rw [hl'] at this
      cases this
    | some r' =>
      rw [IsExtreme_unique laws hmem (FoldValues_extreme laws l r h)
        (FoldValues_extreme laws l' r' h')]

theorem ScalarFold_congr {α : Type} {op : MinMaxOp α} {R : α → α → Prop}
    (laws : OpLaws op R) (skip_nulls : Bool) {ds ds' : List (Datum α)}
    (hmem : ∀ d, d ∈ ds ↔ d ∈ ds') :
    ScalarFold op skip_nulls ds = ScalarFold op skip_nulls ds' := by
  have hnull : HasNullScalar ds = HasNullScalar ds' := by
    unfold HasNullScalar
    rw [Bool.eq_iff_iff, List.any_eq_true, List.any_eq_true]
    exact ⟨fun ⟨d, hd, h⟩ => ⟨d, (hmem d).1 hd, h⟩, fun ⟨d, hd, h⟩ => ⟨d, (hmem d).2 hd, h⟩⟩
  have hvals : FoldValues op none (ScalarValues ds) = FoldValues op none (ScalarValues ds') := by
    apply FoldValues_congr laws
    intro x
    rw [mem_ScalarValues, mem_ScalarValues]
    exact ⟨fun ⟨s, hs, h⟩ => ⟨s, (hmem _).1 hs, h⟩, fun ⟨s, hs, h⟩ => ⟨s, (hmem _).2 hs, h⟩⟩
  unfold ScalarFold
  rw [hnull, hvals]

theorem RowValid_congr {α : Type} [Inhabited α] (skip_nulls : Bool) (b1 b2 : ExecBatch α)
    (hmem : ∀ d, d ∈ b1.values ↔ d ∈ b2.values) (i : Nat) :
    RowValid skip_nulls b1 i = RowValid skip_nulls b2 i := by
  unfold RowValid
  cases skip_nulls with
  | true =>
    simp only [if_true]
    rw [Bool.eq_iff_iff, List.any_eq_true, List.any_eq_true]
    exact ⟨fun ⟨d, hd, h⟩ => ⟨d, (hmem d).1 hd, h⟩, fun ⟨d, hd, h⟩ => ⟨d, (hmem d).2 hd, h⟩⟩
  | false =>
    simp only [Bool.false_eq_true, if_false]
    rw [Bool.eq_iff_iff, List.all_eq_true, List.all_eq_true]
    exact ⟨fun h d hd => h d ((hmem d).2 hd), fun h d hd => h d ((hmem d).1 hd)⟩

theorem ValuesAt_congr {α : Type} [Inhabited α] (b1 b2 : ExecBatch α)
    (hmem : ∀ d, d ∈ b1.values ↔ d ∈ b2.values) (i : Nat) (x : α) :
    x ∈ ValuesAt b1 i ↔ x ∈ ValuesAt b2 i := by
  unfold ValuesAt
  rw [List.mem_filterMap, List.mem_filterMap]
  exact ⟨fun ⟨d, hd, h⟩ => ⟨d, (hmem d).1 hd, h⟩, fun ⟨d, hd, h⟩ => ⟨d, (hmem d).2 hd, h⟩⟩

theorem StoreResult_Rows {α : Type} [Inhabited α] (out : Scalar α) (r : Option α) :
    (Datum.scalar (StoreResult out r)).Rows = [r] := by
  cases r <;> rfl

/-- Two batches of the same length with the same operands, in whatever order
and multiplicity, give outputs with the same rows. -/
theorem Exec_Rows_congr {α : Type} [Inhabited α] (op : MinMaxOp α) (R : α → α → Prop)
    (laws : OpLaws op R) (options : ElementWiseAggregateOptions) (b1 b2 : ExecBatch α)
    (out : Datum α) (hlen : b1.length = b2.length)
    (hmem : ∀ d, d ∈ b1.values ↔ d ∈ b2.values)
    (wf : BatchWF b1) (hout : OutputFor b1 out)
    (hanti : ∀ a, Datum.array a ∈ b1.values → ∀ i, i < a.length →
      op.Call op.antiextreme (a.GetValue i) = a.GetValue i) :
    ∃ r1 r2, ScalarMinMax.Exec op options b1 out = some r1 ∧
      ScalarMinMax.Exec op options b2 out = some r2 ∧ r1.Rows = r2.Rows := by
  have wf2 : BatchWF b2 :=
    ⟨fun a ha => by rw [← hlen]; exact wf.length_eq a ((hmem _).2 ha),
     fun a ha => wf.null_count_ok a ((hmem _).2 ha)⟩
  cases out with
  | scalar s =>
    have h1 : ScalarMinMax.Arrays b1 = [] := by
      rw [List.eq_nil_iff_forall_not_mem]
      exact fun a ha => hout a ((mem_Arrays b1 a).1 ha)
    have h2 : ScalarMinMax.Arrays b2 = [] := by
      rw [List.eq_nil_iff_forall_not_mem]
      exact fun a ha => hout a ((hmem _).2 ((mem_Arrays b2 a).1 ha))
    refine ⟨_, _, Exec_scalar op options b1 s h1, Exec_scalar op options b2 s h2, ?_⟩
    rw [ExecScalar_eq, ExecScalar_eq, StoreResult_Rows, StoreResult_Rows,
      ScalarFold_congr laws options.skip_nulls hmem]
  | array output =>
    obtain ⟨harr, pre⟩ := hout
    have pre2 : Preallocated b2 output :=
      ⟨by rw [← hlen]; exact pre.length_eq, pre.offset_eq, pre.validity_eq,
       by rw [← hlen]; exact pre.values_length⟩
    have harr2 : ∃ a, Datum.array a ∈ b2.values := by
      obtain ⟨a, ha⟩ := harr
      exact ⟨a, (hmem _).1 ha⟩
    have hne1 := Arrays_ne_nil b1 harr
    have hne2 := Arrays_ne_nil b2 harr2
    refine ⟨_, _, Exec_array op options b1 output hne1, Exec_array op options b2 output hne2, ?_⟩
    unfold Datum.Rows
    simp only
    rw [ExecArrays_length op options b1 output wf pre,
      ExecArrays_length op options b2 output wf2 pre2, ← hlen]
    apply List.map_congr_left
    intro i hi
    have hi1 : i < b1.length := List.mem_range.1 hi
    have hi2 : i < b2.length := by rw [← hlen]; exact hi1
    have hv1 := ExecArrays_row_valid op options b1 output wf pre hne1 i hi1
    have hv2 := ExecArrays_row_valid op options b2 output wf2 pre2 hne2 i hi2
    have hv : (ScalarMinMax.ExecArrays op options b1 output).IsValid i =
        (ScalarMinMax.ExecArrays op options b2 output).IsValid i := by
      rw [hv1, hv2, RowValid_congr _ b1 b2 hmem i]
    unfold ArrayData.Get?
    rw [← hv]
    by_cases hval : (ScalarMinMax.ExecArrays op options b1 output).IsValid i = true
    · simp only [hval, if_true, Option.some.injEq]
      apply IsExtreme_unique laws (ValuesAt_congr b1 b2 hmem i)
      · exact ExecArrays_row_value op R laws options b1 output wf pre
          (fun a ha => hanti a ((mem_Arrays b1 a).1 ha)) hne1 i hi1 hval
      · exact ExecArrays_row_value op R laws options b2 output wf2 pre2
          (fun a ha => hanti a ((hmem _).2 ((mem_Arrays b2 a).1 ha))) hne2 i hi2
          (by rw [← hv]; exact hval)
    · simp only [hval, Bool.false_eq_true, if_false]

/-! ## Comparison kernels -/

theorem CompareCell_eq_none {α : Type} (Call : α → α → Bool) (p q : Option α) :
    CompareCell Call p q = none ↔ (p = none ∨ q = none) := by
  cases p <;> cases q <;> simp [CompareCell]

theorem CompareCell_some {α : Type} (Call : α → α → Bool) (a b : α) :
    CompareCell Call (some a) (some b) = some (Call a b) := rfl

/-- The modelled `ScalarBinaryEqualTypes::Exec` succeeds on every batch of two
operands and its output meets the comparison contract. -/
theorem ScalarBinaryEqualTypes_contract {α : Type} [Inhabited α] (Call : α → α → Bool)
    (t1 t2 : DataType) (x y : Datum α) (n : Nat) (out : CompareOutput) :
    ∃ result,
      ScalarBinaryEqualTypes.Exec Call
        { values := [{ type := t1, datum := x }, { type := t2, datum := y }], length := n }
        out = some (Status.OK, result) ∧
      ComparisonContract Call x y n result := by
  unfold ScalarBinaryEqualTypes.Exec ComparisonContract
  by_cases hs : (x.is_scalar && y.is_scalar) = true
  · refine ⟨.scalar (CompareCell Call (x.At 0) (y.At 0)), by simp only [hs, if_true], ?_⟩
    simp only [hs, if_true, CompareOutput.Rows, List.length_singleton, true_and]
    intro i hi
    have hi0 : i = 0 := by omega
    subst hi0
    refine ⟨?_, fun a b ha hb => ?_⟩
    · simp [CompareCell_eq_none]
    · simp [ha, hb, CompareCell_some]
  · refine ⟨.array ((List.range n).map (fun i => CompareCell Call (x.At i) (y.At i))),
      by simp only [hs, Bool.false_eq_true, if_false], ?_⟩
    simp only [hs, Bool.false_eq_true, if_false, CompareOutput.Rows, List.length_map,
      List.length_range, true_and]
    intro i hi
    refine ⟨?_, fun a b ha hb => ?_⟩
    · simp [List.getElem?_map, List.getElem?_range hi, CompareCell_eq_none]
    · simp [List.getElem?_map, List.getElem?_range hi, ha, hb, CompareCell_some]

theorem ComparisonContract_swap {α : Type} [Inhabited α] (Call : α → α → Bool)
    (x y : Datum α) (n : Nat) (result : CompareOutput)
    (h : ComparisonContract Call y x n result) :
    ComparisonContract (fun a b => Call b a) x y n result := by
  unfold ComparisonContract at h ⊢
  rw [Bool.and_comm]
  refine ⟨h.1, fun i hi => ⟨?_, fun a b ha hb => ?_⟩⟩
  · rw [(h.2 i hi).1, or_comm]
  · exact (h.2 i hi).2 b a hb ha

theorem InputType_Matches_type (t : InputType) (ty : DataType) (s s' : Shape) :
    t.Matches { type := ty, shape := s } = t.Matches { type := ty, shape := s' } := by
  cases t <;> rfl

theorem MatchesInputs_shape (sig : KernelSignature) (ty : DataType) (s1 s2 s3 s4 : Shape) :
    sig.MatchesInputs [{ type := ty, shape := s1 }, { type := ty, shape := s2 }] =
      sig.MatchesInputs [{ type := ty, shape := s3 }, { type := ty, shape := s4 }] := by
  unfold KernelSignature.MatchesInputs
  by_cases hv : sig.is_varargs = true
  · simp only [hv, if_true]
    have h2 : List.range 2 = [0, 1] := rfl
    simp only [List.length_cons, List.length_nil, h2, List.all_cons, List.all_nil,
      Bool.and_true]
    congr 1
    · cases sig.in_types[min 0 (sig.in_types.length - 1)]? with
      | none => rfl
      | some t => simp [InputType_Matches_type t ty s1 s3]
    · cases sig.in_types[min 1 (sig.in_types.length - 1)]? with
      | none => rfl
      | some t => simp [InputType_Matches_type t ty s2 s4]
  · simp only [hv, Bool.false_eq_true, if_false]
    congr 1
    rcases sig.in_types with _ | ⟨a, _ | ⟨b, l⟩⟩
    · rfl
    · simp [InputType_Matches_type a ty s1 s3]
    · simp [InputType_Matches_type a ty s1 s3, InputType_Matches_type b ty s2 s4]

theorem DispatchExactImpl_mem {ε : Type} (func : FunctionImpl ε) (values : List ValueDescr)
    (k : Kernel ε) (h : DispatchExactImpl func values = some k) :
    k ∈ func.kernels ∧ k.signature.MatchesInputs values = true := by
  unfold DispatchExactImpl at h
  have := List.mem_of_mem_getLast? (Option.mem_def.2 h)
  exact List.mem_filter.1 this

theorem DispatchExactImpl_flipped {α : Type} (name : String) (func : ScalarFunction α)
    (values : List ValueDescr) :
    DispatchExactImpl (MakeFlippedFunction name func) values =
      (DispatchExactImpl func values).map
        (fun kernel => { kernel with exec := MakeFlippedBinaryExec kernel.exec }) := by
  unfold DispatchExactImpl MakeFlippedFunction
  simp only [List.filter_map, List.getLast?_map]
  rfl

theorem DispatchExactImpl_swap {α : Type} (func : ScalarFunction α) (ty : DataType)
    (s1 s2 : Shape) :
    DispatchExactImpl func [{ type := ty, shape := s1 }, { type := ty, shape := s2 }] =
      DispatchExactImpl func [{ type := ty, shape := s2 }, { type := ty, shape := s1 }] := by
  unfold DispatchExactImpl
  have : (fun k : ScalarKernel α => k.signature.MatchesInputs
        [{ type := ty, shape := s1 }, { type := ty, shape := s2 }]) =
      (fun k : ScalarKernel α => k.signature.MatchesInputs
        [{ type := ty, shape := s2 }, { type := ty, shape := s1 }]) :=
    funext (fun k => MatchesInputs_shape k.signature ty s1 s2 s2 s1)
  rw [this]

/-- A flipped function called on `(x, y)` of one type does what the original
function does on `(y, x)`. -/
theorem CallExact_flipped {α : Type} (name : String) (func : ScalarFunction α)
    (ty : DataType) (x y : Datum α) (n : Nat) (out : CompareOutput) :
    CallExact (MakeFlippedFunction name func)
        { values := [{ type := ty, datum := x }, { type := ty, datum := y }], length := n }
        out =
      CallExact func
        { values := [{ type := ty, datum := y }, { type := ty, datum := x }], length := n }
        out := by
  unfold CallExact
  simp only [TypedBatch.GetDescriptors, List.map_cons, List.map_nil, TypedDatum.descr]
  rw [DispatchExactImpl_flipped, DispatchExactImpl_swap]
  cases DispatchExactImpl func
      [{ type := ty, shape := y.shape }, { type := ty, shape := x.shape }] with
  | none => rfl
  | some k => rfl

/-- Every kernel that `MakeCompareFunction` registers runs the equal-types
comparison, the timestamp kernels behind the guard of `CompareTimestamps`. -/
theorem MakeCompareFunction_kernels {α : Type} [Inhabited α] (name : String)
    (Call : α → α → Bool) :
    ∀ k ∈ (MakeCompareFunction name Call).kernels,
      k.exec = ScalarBinaryEqualTypes.Exec Call ∨
      (k.exec = CompareTimestamps.Exec (ScalarBinaryEqualTypes.Exec Call) ∧
        k.signature.is_varargs = false ∧
        ∃ u, k.signature.in_types =
          [.matcher (.TimestampTypeUnit u), .matcher (.TimestampTypeUnit u)]) := by
  simp [MakeCompareFunction, AddKernel, AddIntegerCompare, AddGenericCompare, IntTypes,
    BaseBinaryTypes, TimeUnit.values]

theorem MakeCompareFunction_exec {α : Type} [Inhabited α] (name : String)
    (Call : α → α → Bool) (k : ScalarKernel α)
    (hk : k ∈ (MakeCompareFunction name Call).kernels)
    (ty : DataType) (x y : Datum α) (n : Nat) (out : CompareOutput)
    (hm : k.signature.MatchesInputs
      (TypedBatch.GetDescriptors
        { values := [{ type := ty, datum := x }, { type := ty, datum := y }], length := n })
      = true) :
    k.exec { values := [{ type := ty, datum := x }, { type := ty, datum := y }], length := n }
        out =
      ScalarBinaryEqualTypes.Exec Call
        { values := [{ type := ty, datum := x }, { type := ty, datum := y }], length := n }
        out := by
  rcases MakeCompareFunction_kernels name Call k hk with h | ⟨h, hva, u, hin⟩
  · rw [h]
  · rw [h]
    simp only [KernelSignature.MatchesInputs, hva, Bool.false_eq_true, if_false, hin,
      TypedBatch.GetDescriptors, List.map_cons, List.map_nil, List.zipWith_cons_cons,
      List.zipWith_nil_right, List.all_cons, List.all_nil, Bool.and_true,
      Bool.and_eq_true, InputType.Matches, TypedDatum.descr] at hm
    obtain ⟨_, hty, _⟩ := hm
    cases ty <;> simp [TypeMatcher.Matches] at hty
    simp [CompareTimestamps.Exec]

theorem DispatchExactImpl_isSome_iff {ε : Type} (func : FunctionImpl ε)
    (values : List ValueDescr) :
    (DispatchExactImpl func values).isSome =
      (func.kernels.map (fun k => k.signature)).any (fun sig => sig.MatchesInputs values) := by
  unfold DispatchExactImpl
  rw [Bool.eq_iff_iff, List.any_eq_true, Option.isSome_iff_ne_none, Ne,
    List.getLast?_eq_none_iff]
  constructor
  · intro h
    obtain ⟨k, hk⟩ := List.exists_mem_of_ne_nil _ h
    obtain ⟨h1, h2⟩ := List.mem_filter.1 hk
    exact ⟨k.signature, List.mem_map.2 ⟨k, h1, rfl⟩, h2⟩
  · rintro ⟨sig, hsig, hm⟩
    obtain ⟨k, hk, rfl⟩ := List.mem_map.1 hsig
    exact List.ne_nil_of_mem (List.mem_filter.2 ⟨hk, hm⟩)

theorem MakeCompareFunction_signatures {α : Type} [Inhabited α] (name : String)
    (Call : α → α → Bool) :
    (MakeCompareFunction name Call).kernels.map (fun k => k.signature) =
      CompareSignatures := by
  simp [MakeCompareFunction, AddKernel, AddIntegerCompare, AddGenericCompare, IntTypes,
    BaseBinaryTypes, TimeUnit.values, CompareSignatures]

theorem CompareSignatures_match (ty : DataType) (s1 s2 : Shape) :
    CompareSignatures.any (fun sig => sig.MatchesInputs
      [{ type := ty, shape := s1 }, { type := ty, shape := s2 }]) = HasCompareKernel ty := by
  cases ty with
  | time32 unit => cases unit <;> rfl
  | time64 unit => cases unit <;> rfl
  | timestamp unit tz => cases unit <;> rfl
  | duration unit => cases unit <;> rfl
  | _ => rfl

/-- Exact dispatch of a comparison function on two operands of type `ty` finds
a kernel exactly for the types that have one registered. -/
theorem DispatchExactImpl_isSome {α : Type} [Inhabited α] (name : String)
    (Call : α → α → Bool) (ty : DataType) (s1 s2 : Shape) :
    (DispatchExactImpl (MakeCompareFunction name Call)
      [{ type := ty, shape := s1 }, { type := ty, shape := s2 }]).isSome =
      HasCompareKernel ty := by
  rw [DispatchExactImpl_isSome_iff, MakeCompareFunction_signatures, CompareSignatures_match]

/-- The outcome of a registered, unflipped comparison function on two operands
of one type: a kernel is found exactly for the types that have one, and the
call then succeeds with an output meeting the contract. -/
theorem CallExact_MakeCompareFunction {α : Type} [Inhabited α] (name : String)
    (Call : α → α → Bool) (ty : DataType) (x y : Datum α) (n : Nat) (out : CompareOutput) :
    (CallExact (MakeCompareFunction name Call)
      { values := [{ type := ty, datum := x }, { type := ty, datum := y }], length := n }
      out).isSome = HasCompareKernel ty ∧
    ∀ r, CallExact (MakeCompareFunction name Call)
      { values := [{ type := ty, datum := x }, { type := ty, datum := y }], length := n }
      out = some r → r.1 = Status.OK ∧ ComparisonContract Call x y n r.2 := by
  have hsome := DispatchExactImpl_isSome name Call ty x.shape y.shape
  unfold CallExact
  simp only [TypedBatch.GetDescriptors, List.map_cons, List.map_nil, TypedDatum.descr]
  cases hd : DispatchExactImpl (MakeCompareFunction name Call)
      [{ type := ty, shape := x.shape }, { type := ty, shape := y.shape }] with
  | none =>
    rw [hd] at hsome
    exact ⟨hsome, fun r hr => by cases hr⟩
  | some k =>
    rw [hd] at hsome
    obtain ⟨hk, hm⟩ := DispatchExactImpl_mem _ _ k hd
    obtain ⟨result, hres, hc⟩ := ScalarBinaryEqualTypes_contract Call ty ty x y n out
    simp only [MakeCompareFunction_exec name Call k hk ty x y n out hm, hres]
    refine ⟨hsome, fun r hr => ?_⟩
    cases hr
    exact ⟨rfl, hc⟩

/-! ## Dispatch -/

theorem CompareSignatures_apart : SignaturesApart CompareSignatures = true := by
  decide

theorem MinMaxSignatures_apart : SignaturesApart MinMaxSignatures = true := by
  decide

theorem CompareSignatures_nodup : CompareSignatures.Nodup := by
  decide

theorem MinMaxSignatures_nodup : MinMaxSignatures.Nodup := by
  decide

theorem InputType_Matches_typeId (t : InputType) (d : ValueDescr)
    (h : t.Matches d = true) : d.type.id = t.typeId := by
  cases t with
  | exact type =>
    simp only [InputType.Matches, beq_iff_eq] at h
    rw [← h]; rfl
  | matcher m =>
    simp only [InputType.Matches] at h
    cases m <;> cases hd : d.type <;> rw [hd] at h <;>
      simp_all [TypeMatcher.Matches, InputType.typeId, TypeMatcher.typeId, DataType.id]

theorem InputType_SameMake_unique (t t' : InputType) (d : ValueDescr)
    (hs : t.SameMake t' = true) (h : t.Matches d = true) (h' : t'.Matches d = true) :
    t = t' := by
  cases t with
  | exact type =>
    cases t' with
    | exact type' =>
      simp only [InputType.Matches, beq_iff_eq] at h h'
      rw [h, h']
    | matcher m' => simp [InputType.SameMake] at hs
  | matcher m =>
    cases t' with
    | exact type' => cases m <;> simp [InputType.SameMake] at hs
    | matcher m' =>
      simp only [InputType.Matches] at h h'
      cases m <;> cases m' <;> simp [InputType.SameMake] at hs <;>
        cases hd : d.type <;> rw [hd] at h h' <;>
        simp_all [TypeMatcher.Matches]

theorem MatchesInputs_head (s : KernelSignature) (d : ValueDescr) (rest : List ValueDescr)
    (h : s.MatchesInputs (d :: rest) = true) :
    ∃ t, s.in_types.head? = some t ∧ t.Matches d = true := by
  unfold KernelSignature.MatchesInputs at h
  by_cases hv : s.is_varargs = true
  · simp only [hv, if_true, List.length_cons] at h
    have h0 := List.all_eq_true.1 h 0 (List.mem_range.2 (Nat.succ_pos _))
    simp only [Nat.zero_min, List.getElem?_cons_zero] at h0
    cases hin : s.in_types with
    | nil => rw [hin] at h0; simp at h0
    | cons t l => rw [hin] at h0; exact ⟨t, rfl, by simpa using h0⟩
  · simp only [hv, Bool.false_eq_true, if_false, Bool.and_eq_true] at h
    cases hin : s.in_types with
    | nil => rw [hin] at h; simp at h
    | cons t l =>
      rw [hin] at h
      refine ⟨t, rfl, ?_⟩
      have := h.2
      simp only [List.zipWith_cons_cons, List.all_cons, Bool.and_eq_true] at this
      exact this.1

theorem Signatures_unique (L : List KernelSignature) (hL : SignaturesApart L = true)
    (s s' : KernelSignature) (hs : s ∈ L) (hs' : s' ∈ L) (d : ValueDescr)
    (rest : List ValueDescr) (h : s.MatchesInputs (d :: rest) = true)
    (h' : s'.MatchesInputs (d :: rest) = true) : s = s' := by
  obtain ⟨t, ht, hm⟩ := MatchesInputs_head s d rest h
  obtain ⟨t', ht', hm'⟩ := MatchesInputs_head s' d rest h'
  have hid : t.typeId = t'.typeId := by
    rw [← InputType_Matches_typeId t d hm, ← InputType_Matches_typeId t' d hm']
  have := List.all_eq_true.1 (List.all_eq_true.1 hL s hs) s' hs'
  simp only [ht, ht', hid, bne_self_eq_false, Bool.false_or, Bool.and_eq_true,
    Bool.or_eq_true, bne_iff_ne, ne_eq, beq_iff_eq] at this
  obtain ⟨hmake, hrest⟩ := this
  have heq := InputType_SameMake_unique t t' d hmake hm hm'
  rcases hrest with hne | hss
  · exact absurd heq hne
  · exact hss

theorem DispatchExactImpl_eq_of_mem {ε : Type} (func : FunctionImpl ε)
    (L : List KernelSignature) (hmap : func.kernels.map (fun k => k.signature) = L)
    (hnodup : L.Nodup) (hL : SignaturesApart L = true) (k : Kernel ε)
    (hk : k ∈ func.kernels) (d : ValueDescr) (rest : List ValueDescr)
    (hm : k.signature.MatchesInputs (d :: rest) = true) :
    DispatchExactImpl func (d :: rest) = some k := by
  unfold DispatchExactImpl
  have hmem : k ∈ func.kernels.filter (fun k => k.signature.MatchesInputs (d :: rest)) :=
    List.mem_filter.2 ⟨hk, hm⟩
  cases hlast : (func.kernels.filter
      (fun k => k.signature.MatchesInputs (d :: rest))).getLast? with
  | none =>
    rw [List.getLast?_eq_none_iff] at hlast
    rw [hlast] at hmem
    cases hmem
  | some k' =>
    have hk' := List.mem_filter.1 (List.mem_of_mem_getLast? (Option.mem_def.2 hlast))
    have hsig : k'.signature = k.signature :=
      Signatures_unique L hL _ _
        (by rw [← hmap]; exact List.mem_map.2 ⟨k', hk'.1, rfl⟩)
        (by rw [← hmap]; exact List.mem_map.2 ⟨k, hk, rfl⟩) d rest hk'.2 hm
    have := List.inj_on_of_nodup_map (by rw [hmap]; exact hnodup) hk'.1 hk hsig
    rw [this]


theorem MakeScalarMinMax_signatures (name : String) (op : MinMaxKind) :
    (MakeScalarMinMax name op).kernels.map (fun k => k.signature) = MinMaxSignatures := by
  simp [MakeScalarMinMax, NumericTypes, TemporalTypes, BaseBinaryTypes, MinMaxSignatures]

theorem MakeFlippedFunction_signatures {α : Type} (name : String) (func : ScalarFunction α) :
    (MakeFlippedFunction name func).kernels.map (fun k => k.signature) =
      func.kernels.map (fun k => k.signature) := by
  simp [MakeFlippedFunction]

theorem RegisteredComparisons_signatures {α : Type} [Comparable α]
    (p : ScalarFunction α × (α → α → Bool)) (hp : p ∈ RegisteredComparisons α) :
    p.1.kernels.map (fun k => k.signature) = CompareSignatures ∧ p.1.arity = Arity.Binary := by
  simp only [RegisteredComparisons, List.mem_cons, List.mem_singleton, List.not_mem_nil,
    or_false] at hp
  rcases hp with rfl | rfl | rfl | rfl | rfl | rfl
  · exact ⟨MakeCompareFunction_signatures _ _, rfl⟩
  · exact ⟨MakeCompareFunction_signatures _ _, rfl⟩
  · exact ⟨MakeCompareFunction_signatures _ _, rfl⟩
  · exact ⟨MakeCompareFunction_signatures _ _, rfl⟩
  · exact ⟨(MakeFlippedFunction_signatures _ _).trans (MakeCompareFunction_signatures _ _), rfl⟩
  · exact ⟨(MakeFlippedFunction_signatures _ _).trans (MakeCompareFunction_signatures _ _), rfl⟩

/-- A signature of a comparison kernel matches lists of two descriptors only. -/
theorem CompareSignatures_two (s : KernelSignature) (hs : s ∈ CompareSignatures)
    (values : List ValueDescr) (hm : s.MatchesInputs values = true) : values.length = 2 := by
  have hform : s.is_varargs = false ∧ s.in_types.length = 2 := by
    have : CompareSignatures.all (fun s => !s.is_varargs && s.in_types.length == 2) = true := by
      decide
    have := List.all_eq_true.1 this s hs
    simpa using this
  unfold KernelSignature.MatchesInputs at hm
  simp only [hform.1, Bool.false_eq_true, if_false, Bool.and_eq_true, beq_iff_eq] at hm
  rw [hm.1, hform.2]

theorem CheckArity_binary {ε : Type} (func : FunctionImpl ε) (values : List ValueDescr)
    (ha : func.arity = Arity.Binary) :
    (CheckArity func values).code = StatusCode.OK ↔ values.length = 2 := by
  unfold CheckArity
  rw [ha]
  simp only [Arity.Binary, Bool.false_eq_true, if_false]
  by_cases h : values.length = 2
  · simp [h, Status.OK]
  · simp [h, Status.Invalid]

theorem CheckArity_varargs {ε : Type} (func : FunctionImpl ε) (values : List ValueDescr)
    (m : Nat) (ha : func.arity = Arity.VarArgs m) :
    (CheckArity func values).code = StatusCode.OK ↔ m ≤ values.length := by
  unfold CheckArity
  rw [ha]
  simp only [Arity.VarArgs, if_true]
  by_cases h : values.length < m
  · simp only [h, if_true, Status.Invalid]
    constructor
    · intro h'; cases h'
    · intro h'; omega
  · simp only [h, if_false, Status.OK, true_iff]
    omega

theorem CheckArity_code {ε : Type} (func : FunctionImpl ε) (values : List ValueDescr) :
    (CheckArity func values).code = StatusCode.OK ∨
      (CheckArity func values).code = StatusCode.Invalid := by
  unfold CheckArity
  split
  · split
    · right; rfl
    · left; rfl
  · split
    · right; rfl
    · left; rfl

/-! ## The two dispatchers unfolded -/

theorem exists_kernel_of_signature {ε : Type} (func : FunctionImpl ε)
    (L : List KernelSignature) (hmap : func.kernels.map (fun k => k.signature) = L)
    (s : KernelSignature) (hs : s ∈ L) : ∃ k ∈ func.kernels, k.signature = s := by
  rw [← hmap] at hs
  obtain ⟨k, hk, h⟩ := List.mem_map.1 hs
  exact ⟨k, hk, h⟩

theorem DispatchExactImpl_none_of_signatures {ε : Type} (func : FunctionImpl ε)
    (L : List KernelSignature) (hmap : func.kernels.map (fun k => k.signature) = L)
    (values : List ValueDescr)
    (h : L.any (fun sig => sig.MatchesInputs values) = false) :
    DispatchExactImpl func values = none := by
  have := DispatchExactImpl_isSome_iff func values
  rw [hmap, h] at this
  cases hd : DispatchExactImpl func values with
  | none => rfl
  | some k => rw [hd] at this; cases this

/-- The part of `DispatchBest` after the arity check, for a comparison function. -/
theorem CompareFunction_DispatchBest_eq {ε : Type} (H : DispatchHelpers)
    (func : FunctionImpl ε) (values : List ValueDescr)
    (harity : (CheckArity func values).code = StatusCode.OK)
    (hcast : HasDecimal values = true →
      (H.CastBinaryDecimalArgs DecimalPromotion.kAdd values).1.code = StatusCode.OK) :
    CompareFunction.DispatchBest H func values =
      CompareFunction.DispatchExactOrPromote H func
        (CompareFunction.AfterDecimalCast H values)
        (if HasDecimal values then [Pass.CastBinaryDecimalArgs] else []) := by
  unfold CompareFunction.DispatchBest CompareFunction.AfterDecimalCast
  simp only [harity, ne_eq, not_true_eq_false, if_false]
  by_cases hd : HasDecimal values = true
  · simp only [hd, if_true, hcast hd, not_true_eq_false, if_false]
  · simp only [hd, Bool.false_eq_true, if_false]

theorem DispatchExactOrPromote_exact {ε : Type} (H : DispatchHelpers)
    (func : FunctionImpl ε) (values : List ValueDescr) (trace : List Pass) (k : Kernel ε)
    (h : DispatchExactImpl func values = some k) :
    CompareFunction.DispatchExactOrPromote H func values trace =
      { result := .ok k, values := values, trace := trace } := by
  unfold CompareFunction.DispatchExactOrPromote
  rw [h]

theorem DispatchExactOrPromote_values {ε : Type} (H : DispatchHelpers)
    (func : FunctionImpl ε) (values : List ValueDescr) (trace : List Pass)
    (h : DispatchExactImpl func values = none) :
    (CompareFunction.DispatchExactOrPromote H func values trace).values =
      (CompareFunction.CommonTypes H
        (H.ReplaceNullWithOtherType (H.EnsureDictionaryDecoded values))).1 ∧
    (CompareFunction.DispatchExactOrPromote H func values trace).trace =
      trace ++ [Pass.EnsureDictionaryDecoded, Pass.ReplaceNullWithOtherType] ++
        (CompareFunction.CommonTypes H
          (H.ReplaceNullWithOtherType (H.EnsureDictionaryDecoded values))).2 := by
  unfold CompareFunction.DispatchExactOrPromote
  rw [h]
  simp only
  split <;> exact ⟨rfl, rfl⟩

theorem VarArgs_DispatchBest_values {ε : Type} (H : DispatchHelpers)
    (func : FunctionImpl ε) (values : List ValueDescr)
    (harity : (CheckArity func values).code = StatusCode.OK)
    (h : DispatchExactImpl func values = none) :
    (VarArgsCompareFunction.DispatchBest H func values).values =
      (VarArgsCompareFunction.CommonTypes H (H.EnsureDictionaryDecoded values)).1 ∧
    (VarArgsCompareFunction.DispatchBest H func values).trace =
      [Pass.EnsureDictionaryDecoded] ++
        (VarArgsCompareFunction.CommonTypes H (H.EnsureDictionaryDecoded values)).2 := by
  unfold VarArgsCompareFunction.DispatchBest
  simp only [harity, ne_eq, not_true_eq_false, if_false, h]
  split <;> exact ⟨rfl, rfl⟩

theorem VarArgs_DispatchBest_exact {ε : Type} (H : DispatchHelpers)
    (func : FunctionImpl ε) (values : List ValueDescr) (k : Kernel ε)
    (harity : (CheckArity func values).code = StatusCode.OK)
    (h : DispatchExactImpl func values = some k) :
    VarArgsCompareFunction.DispatchBest H func values =
      { result := .ok k, values := values, trace := [] } := by
  unfold VarArgsCompareFunction.DispatchBest
  simp only [harity, ne_eq, not_true_eq_false, if_false, h]

theorem ReplaceTypes_type (type : DataType) (values : List ValueDescr) :
    ∀ d ∈ ReplaceTypes type values, d.type = type := by
  intro d hd
  unfold ReplaceTypes at hd
  obtain ⟨x, _, rfl⟩ := List.mem_map.1 hd
  rfl

theorem ResolveLoop_iff (first_type : DataType) (rest : List ValueDescr) :
    ResolveMinOrMaxOutputTypeLoop first_type rest = true ↔
      ∃ d ∈ rest, d.type ≠ first_type := by
  induction rest with
  | nil => simp [ResolveMinOrMaxOutputTypeLoop]
  | cons d rest ih =>
    unfold ResolveMinOrMaxOutputTypeLoop
    by_cases h : d.type = first_type
    · simp [h, ih]
    · simp [h]

theorem MinMax_functions (f : FunctionImpl MinMaxExec)
    (hf : f ∈ [min_element_wise, max_element_wise]) :
    f.kernels.map (fun k => k.signature) = MinMaxSignatures ∧ f.arity = Arity.VarArgs 1 := by
  simp only [List.mem_cons, List.mem_singleton, List.not_mem_nil, or_false] at hf
  rcases hf with rfl | rfl
  · exact ⟨MakeScalarMinMax_signatures _ _, rfl⟩
  · exact ⟨MakeScalarMinMax_signatures _ _, rfl⟩

theorem HasDecimal_int32_int64 (s1 s2 : Shape) :
    HasDecimal [{ type := .int32, shape := s1 }, { type := .int64, shape := s2 }] = false := by
  simp [HasDecimal, DataType.id]

theorem CompareSignatures_int32_int64 (s1 s2 : Shape) :
    CompareSignatures.any (fun sig => sig.MatchesInputs
      [{ type := .int32, shape := s1 }, { type := .int64, shape := s2 }]) = false := by
  cases s1 <;> cases s2 <;> decide

theorem MinMaxSignatures_int32_int64 (s1 s2 : Shape) :
    MinMaxSignatures.any (fun sig => sig.MatchesInputs
      [{ type := .int32, shape := s1 }, { type := .int64, shape := s2 }]) = false := by
  cases s1 <;> cases s2 <;> decide

/-! ## Nested calls and broadcast scalars -/

theorem ExecArrays_null_count_ok {α : Type} [Inhabited α] (op : MinMaxOp α)
    (options : ElementWiseAggregateOptions) (batch : ExecBatch α) (output : ArrayData α)
    (h0 : (ScalarMinMax.ExecArrays op options batch output).null_count = 0) (i : Nat)
    (hi : i < (ScalarMinMax.ExecArrays op options batch output).length) :
    (ScalarMinMax.ExecArrays op options batch output).IsValid i = true := by
  revert h0 hi
  unfold ScalarMinMax.ExecArrays
  simp only
  by_cases hc : (decide (0 < List.countP Datum.is_scalar batch.values) &&
      !(ScalarMinMax.ExecScalar op batch options { is_valid := true, value := default }).is_valid &&
      !options.skip_nulls) = true
  · rw [if_pos hc]
    intro h0 hi
    simp only [ScalarMinMax.MakeArrayFromNullScalar] at h0 hi
    omega
  · rw [if_neg hc]
    intro h0 _
    have key : ∀ o2 : ArrayData α,
        ({ o2 with null_count := if o2.validity.isSome then -1 else 0 } : ArrayData α).null_count
          = 0 →
        ({ o2 with null_count := if o2.validity.isSome then -1 else 0 } : ArrayData α).IsValid i
          = true := by
      intro o2 h
      cases hv : o2.validity with
      | none => simp only [ArrayData.IsValid, hv]
      | some bitmap => simp [hv] at h
    exact key _ h0

theorem RowSpec_unique {α : Type} {op : MinMaxOp α} {R : α → α → Prop} (laws : OpLaws op R)
    (skip_nulls : Bool) (cells : List (Option α)) (r1 r2 : Option α)
    (h1 : RowSpec R skip_nulls cells r1) (h2 : RowSpec R skip_nulls cells r2) : r1 = r2 := by
  cases r1 with
  | none =>
    cases r2 with
    | none => rfl
    | some w =>
      have := h1.1.trans h2.1.symm
      simp at this
  | some v =>
    cases r2 with
    | none =>
      have := h1.1.trans h2.1.symm
      simp at this
    | some w =>
      rw [IsExtreme_unique laws (fun _ => Iff.rfl) (h1.2 v rfl) (h2.2 w rfl)]

theorem RowSpec_flatten {α : Type} {op : MinMaxOp α} {R : α → α → Prop} (laws : OpLaws op R)
    (skip_nulls : Bool) (front mid back : List (Option α)) (x r : Option α)
    (hx : RowSpec R skip_nulls mid x)
    (hr : RowSpec R skip_nulls (front ++ x :: back) r) :
    RowSpec R skip_nulls (front ++ mid ++ back) r := by
  obtain ⟨hx1, hx2⟩ := hx
  obtain ⟨hr1, hr2⟩ := hr
  constructor
  · rw [hr1]
    cases skip_nulls with
    | true =>
      simp only [if_true] at hx1 ⊢
      simp only [List.any_append, List.any_cons, hx1, Bool.or_assoc]
    | false =>
      simp only [Bool.false_eq_true, if_false] at hx1 ⊢
      simp only [List.all_append, List.all_cons, hx1, Bool.and_assoc]
  · intro v hv
    obtain ⟨hmem, hext⟩ := hr2 v hv
    unfold IsExtreme
    simp only [List.filterMap_append, List.filterMap_cons, List.mem_append] at hmem hext ⊢
    cases x with
    | none =>
      simp only [id] at hmem hext
      cases hs : skip_nulls with
      | true =>
        have hmid : ∀ w, w ∉ mid.filterMap id := by
          intro w hw
          rw [hs] at hx1
          simp only [if_true, Option.isSome_none] at hx1
          obtain ⟨c, hc, hcw⟩ := List.mem_filterMap.1 hw
          have : mid.any Option.isSome = true :=
            List.any_eq_true.2 ⟨c, hc, by simp only [id] at hcw; rw [hcw]; rfl⟩
          rw [this] at hx1
          cases hx1
        constructor
        · rcases hmem with h | h
          · exact Or.inl (Or.inl h)
          · exact Or.inr h
        · intro w hw
          rcases hw with (h | h) | h
          · exact hext w (Or.inl h)
          · exact absurd h (hmid w)
          · exact hext w (Or.inr h)
      | false =>
        rw [hs] at hr1
        rw [hv] at hr1
        simp [List.all_append] at hr1
    | some u =>
      simp only [id] at hmem hext
      have hu := hx2 u rfl
      constructor
      · rcases hmem with h | h
        · exact Or.inl (Or.inl h)
        · rcases List.mem_cons.1 h with h | h
          · rw [h]; exact Or.inl (Or.inr hu.1)
          · exact Or.inr h
      · intro w hw
        rcases hw with (h | h) | h
        · exact hext w (Or.inl h)
        · exact laws.trans v u w (hext u (Or.inr (List.mem_cons_self _ _))) (hu.2 w h)
        · exact hext w (Or.inr (List.mem_cons_of_mem _ h))

theorem RowValid_eq_cells {α : Type} [Inhabited α] (skip_nulls : Bool) (batch : ExecBatch α)
    (i : Nat) :
    RowValid skip_nulls batch i =
      (if skip_nulls then (CellsAt batch i).any Option.isSome
       else (CellsAt batch i).all Option.isSome) := by
  unfold RowValid CellsAt
  cases skip_nulls with
  | true =>
    simp only [if_true]
    induction batch.values with
    | nil => rfl
    | cons d ds ih => simp only [List.any_cons, List.map_cons, ih]
  | false =>
    simp only [Bool.false_eq_true, if_false]
    induction batch.values with
    | nil => rfl
    | cons d ds ih => simp only [List.all_cons, List.map_cons, ih]

theorem ValuesAt_eq_cells {α : Type} [Inhabited α] (batch : ExecBatch α) (i : Nat) :
    ValuesAt batch i = (CellsAt batch i).filterMap id := by
  unfold ValuesAt CellsAt
  rw [List.filterMap_map]
  rfl

theorem any_isSome_iff {α : Type} (cells : List (Option α)) :
    cells.any Option.isSome = true ↔ cells.filterMap id ≠ [] := by
  induction cells with
  | nil => simp
  | cons c cs ih =>
    cases c with
    | none => simpa using ih
    | some v => simp

theorem StoreResult_At {α : Type} [Inhabited α] (out : Scalar α) (r : Option α) (i : Nat) :
    (Datum.scalar (StoreResult out r)).At i = r := by
  cases r <;> rfl

theorem ScalarValues_eq_cells {α : Type} [Inhabited α] (values : List (Datum α)) (i : Nat)
    (hno : ∀ a, Datum.array a ∉ values) :
    ScalarValues values = (values.map (fun arg => arg.At i)).filterMap id := by
  induction values with
  | nil => rfl
  | cons d ds ih =>
    have ih2 := ih (fun a ha => hno a (List.mem_cons_of_mem _ ha))
    cases d with
    | array a => exact absurd (List.mem_cons_self _ _) (hno a)
    | scalar s =>
      have e1 : ScalarValues (Datum.scalar s :: ds) =
          (if s.is_valid then [s.value] else []) ++ ScalarValues ds := by
        unfold ScalarValues
        simp only [List.filterMap_cons]
        cases s.is_valid <;> rfl
      rw [e1, ih2]
      simp only [List.map_cons, List.filterMap_cons, Datum.At, id]
      cases s.is_valid <;> rfl

theorem HasNullScalar_eq_cells {α : Type} [Inhabited α] (values : List (Datum α)) (i : Nat)
    (hno : ∀ a, Datum.array a ∉ values) :
    HasNullScalar values = !(values.map (fun arg => arg.At i)).all Option.isSome := by
  induction values with
  | nil => rfl
  | cons d ds ih =>
    have ih2 := ih (fun a ha => hno a (List.mem_cons_of_mem _ ha))
    cases d with
    | array a => exact absurd (List.mem_cons_self _ _) (hno a)
    | scalar s =>
      have e1 : HasNullScalar (Datum.scalar s :: ds) = (!s.is_valid || HasNullScalar ds) := by
        unfold HasNullScalar
        simp only [List.any_cons]
      rw [e1, ih2]
      simp only [List.map_cons, List.all_cons, Datum.At]
      cases s.is_valid <;> simp

/-- The fold of a non-empty list of scalars is what the specification prescribes
for a row with these operands. -/
theorem ScalarFold_RowSpec {α : Type} [Inhabited α] {op : MinMaxOp α} {R : α → α → Prop}
    (laws : OpLaws op R) (skip_nulls : Bool) (values : List (Datum α)) (i : Nat)
    (hne : values ≠ []) (hno : ∀ a, Datum.array a ∉ values) :
    RowSpec R skip_nulls (values.map (fun arg => arg.At i))
      (ScalarFold op skip_nulls values) := by
  have hvals := ScalarValues_eq_cells values i hno
  have hnull := HasNullScalar_eq_cells values i hno
  unfold ScalarFold
  cases skip_nulls with
  | true =>
    simp only [Bool.not_true, Bool.false_and, Bool.false_eq_true, if_false]
    constructor
    · simp only [if_true]
      rw [Bool.eq_iff_iff, any_isSome_iff, ← hvals, Option.isSome_iff_ne_none, ne_eq,
        FoldValues_eq_none]
      simp
    · intro v hv
      rw [← hvals]
      exact FoldValues_extreme laws _ v hv
  | false =>
    simp only [Bool.not_false, Bool.true_and, Bool.false_eq_true, if_false]
    cases hall : (values.map (fun arg => arg.At i)).all Option.isSome with
    | false =>
      rw [hall] at hnull
      simp only [hnull, Bool.not_false, if_true]
      refine ⟨?_, fun v hv => by cases hv⟩
      simp only [Bool.false_eq_true, if_false, hall]
      rfl
    | true =>
      rw [hall] at hnull
      simp only [hnull, Bool.not_true, Bool.false_eq_true, if_false]
      constructor
      · have hne2 : ScalarValues values ≠ [] := by
          rw [hvals]
          cases values with
          | nil => exact absurd rfl hne
          | cons d ds =>
            simp only [List.map_cons, List.all_cons, Bool.and_eq_true] at hall
            obtain ⟨v, hv⟩ := Option.isSome_iff_exists.1 hall.1
            simp [hv]
        simp only [Bool.false_eq_true, if_false]
        rw [hall, Option.isSome_iff_ne_none, ne_eq, FoldValues_eq_none]
        simp [hne2]
      · intro v hv
        rw [← hvals]
        exact FoldValues_extreme laws _ v hv

/-- The kernel succeeds on a well-formed non-empty batch, and its result is what
the specification prescribes. -/
theorem Exec_ResultSpec {α : Type} [Inhabited α] (op : MinMaxOp α) (R : α → α → Prop)
    (laws : OpLaws op R) (options : ElementWiseAggregateOptions) (batch : ExecBatch α)
    (out : Datum α) (hne : batch.values ≠ []) (wf : BatchWF batch)
    (hout : OutputFor batch out)
    (hanti : ∀ a, Datum.array a ∈ batch.values → ∀ i, i < a.length → a.IsValid i = true →
      op.Call op.antiextreme (a.GetValue i) = a.GetValue i) :
    ∃ r, ScalarMinMax.Exec op options batch out = some r ∧
      ResultSpec R options.skip_nulls (HasArray batch.values) batch.length (CellsAt batch) r := by
  cases out with
  | scalar s =>
    have hno : ∀ a, Datum.array a ∉ batch.values := hout
    have h1 : ScalarMinMax.Arrays batch = [] := by
      rw [List.eq_nil_iff_forall_not_mem]
      exact fun a ha => hno a ((mem_Arrays batch a).1 ha)
    refine ⟨_, Exec_scalar op options batch s h1, ?_⟩
    refine ⟨fun ⟨a, ha⟩ => hno a ha, fun i => ?_⟩
    rw [ExecScalar_eq, StoreResult_At]
    exact ScalarFold_RowSpec laws _ _ i hne hno
  | array output =>
    obtain ⟨harr, pre⟩ := hout
    have hne1 := Arrays_ne_nil batch harr
    refine ⟨_, Exec_array op options batch output hne1, ?_⟩
    refine ⟨harr, ExecArrays_length op options batch output wf pre,
      fun h0 i hi => ExecArrays_null_count_ok op options batch output h0 i hi,
      fun i hi => ?_⟩
    have hv := ExecArrays_row_valid op options batch output wf pre hne1 i hi
    constructor
    · rw [← RowValid_eq_cells, ← hv]
      unfold ArrayData.Get?
      cases (ScalarMinMax.ExecArrays op options batch output).IsValid i <;> rfl
    · intro v hget
      unfold ArrayData.Get? at hget
      split at hget
      · rename_i hval
        cases hget
        rw [← ValuesAt_eq_cells]
        exact ExecArrays_row_value_of_valid op R laws options batch output wf pre
          (fun a ha => hanti a ((mem_Arrays batch a).1 ha)) hne1 i hi hval
      · cases hget

theorem ResultSpec_Rows_eq {α : Type} [Inhabited α] {op : MinMaxOp α} {R : α → α → Prop}
    (laws : OpLaws op R) (skip_nulls : Bool) (P : Prop) (n : Nat)
    (cells : Nat → List (Option α)) (r1 r2 : Datum α)
    (h1 : ResultSpec R skip_nulls P n cells r1) (h2 : ResultSpec R skip_nulls P n cells r2) :
    r1.Rows = r2.Rows := by
  cases r1 with
  | scalar s1 =>
    cases r2 with
    | scalar s2 =>
      have := RowSpec_unique laws skip_nulls (cells 0) _ _ (h1.2 0) (h2.2 0)
      unfold Datum.At at this
      simp only at this
      unfold Datum.Rows
      simp only [this]
    | array x2 => exact absurd h2.1 h1.1
  | array x1 =>
    cases r2 with
    | scalar s2 => exact absurd h1.1 h2.1
    | array x2 =>
      obtain ⟨_, l1, _, q1⟩ := h1
      obtain ⟨_, l2, _, q2⟩ := h2
      unfold Datum.Rows
      simp only [l1, l2]
      apply List.map_congr_left
      intro i hi
      have hi' := List.mem_range.1 hi
      exact RowSpec_unique laws skip_nulls (cells i) _ _ (q1 i hi') (q2 i hi')

theorem ResultSpec_congr {α : Type} [Inhabited α] (R : α → α → Prop) (skip_nulls : Bool)
    (P Q : Prop) (n : Nat) (cells cells2 : Nat → List (Option α)) (r : Datum α)
    (hPQ : P ↔ Q)
    (hcells : ∀ i q, (Q → i < n) → RowSpec R skip_nulls (cells i) q →
      RowSpec R skip_nulls (cells2 i) q)
    (h : ResultSpec R skip_nulls P n cells r) : ResultSpec R skip_nulls Q n cells2 r := by
  cases r with
  | scalar s =>
    have hQ : ¬ Q := fun hq => h.1 (hPQ.2 hq)
    exact ⟨hQ, fun i => hcells i _ (fun hq => absurd hq hQ) (h.2 i)⟩
  | array x =>
    obtain ⟨hp, hl, hn, hrows⟩ := h
    exact ⟨hPQ.1 hp, hl, hn, fun i hi => hcells i _ (fun _ => hi) (hrows i hi)⟩

theorem ResultSpec_At {α : Type} [Inhabited α] (R : α → α → Prop) (skip_nulls : Bool)
    (P : Prop) (n : Nat) (cells : Nat → List (Option α)) (r : Datum α)
    (h : ResultSpec R skip_nulls P n cells r) (i : Nat) (hi : P → i < n) :
    RowSpec R skip_nulls (cells i) (r.At i) := by
  cases r with
  | scalar s => exact h.2 i
  | array x => exact h.2.2.2 i (hi h.1)

theorem antiextreme_of_At {α : Type} [Inhabited α] (op : MinMaxOp α) (values : List (Datum α))
    (n : Nat)
    (hanti : ∀ d ∈ values, ∀ i, i < n → ∀ v, d.At i = some v → op.Call op.antiextreme v = v)
    (hlen : ∀ a, Datum.array a ∈ values → a.length = n) :
    ∀ a, Datum.array a ∈ values → ∀ i, i < a.length → a.IsValid i = true →
      op.Call op.antiextreme (a.GetValue i) = a.GetValue i := by
  intro a ha i hi hv
  apply hanti _ ha i (by rw [← hlen a ha]; exact hi)
  simp only [Datum.At, ArrayData.Get?, hv, if_true]

/-- A nested call is the flat call: feeding the result of the kernel on the
operands `mid` back as one operand between `front` and `back` gives a result
that is what the specification prescribes for the operands
`front ++ mid ++ back`. -/
theorem Exec_nested {α : Type} [Inhabited α] (op : MinMaxOp α) (R : α → α → Prop)
    (laws : OpLaws op R) (options : ElementWiseAggregateOptions)
    (front mid back : List (Datum α)) (n : Nat) (o1 o2 : Datum α) (hmid : mid ≠ [])
    (wf : BatchWF { values := front ++ mid ++ back, length := n })
    (hanti : ∀ d ∈ front ++ mid ++ back, ∀ i, i < n → ∀ v, d.At i = some v →
      op.Call op.antiextreme v = v)
    (h1 : OutputFor { values := mid, length := n } o1)
    (h2 : OutputFor { values := front ++ mid ++ back, length := n } o2) :
    ∃ x r, ScalarMinMax.Exec op options { values := mid, length := n } o1 = some x ∧
      ScalarMinMax.Exec op options { values := front ++ x :: back, length := n } o2 = some r ∧
      ResultSpec R options.skip_nulls (HasArray (front ++ mid ++ back)) n
        (CellsAt { values := front ++ mid ++ back, length := n }) r := by
  have inF : ∀ d, d ∈ front → d ∈ front ++ mid ++ back :=
    fun d h => List.mem_append.2 (Or.inl (List.mem_append.2 (Or.inl h)))
  have inM : ∀ d, d ∈ mid → d ∈ front ++ mid ++ back :=
    fun d h => List.mem_append.2 (Or.inl (List.mem_append.2 (Or.inr h)))
  have inB : ∀ d, d ∈ back → d ∈ front ++ mid ++ back :=
    fun d h => List.mem_append.2 (Or.inr h)
  have wfm : BatchWF { values := mid, length := n } :=
    ⟨fun a ha => wf.length_eq a (inM _ ha), fun a ha => wf.null_count_ok a (inM _ ha)⟩
  obtain ⟨x, hx, sx⟩ := Exec_ResultSpec op R laws options { values := mid, length := n } o1
    hmid wfm h1
    (antiextreme_of_At op mid n (fun d hd => hanti d (inM d hd)) wfm.length_eq)
  have hxAt : ∀ i, (HasArray mid → i < n) →
      RowSpec R options.skip_nulls (CellsAt { values := mid, length := n } i) (x.At i) :=
    fun i hi => ResultSpec_At R _ _ n _ x sx i hi
  have hsplit : ∀ d, d ∈ front ++ x :: back → d ∈ front ∨ d = x ∨ d ∈ back := by
    intro d hd
    rcases List.mem_append.1 hd with h | h
    · exact Or.inl h
    · rcases List.mem_cons.1 h with h | h
      · exact Or.inr (Or.inl h)
      · exact Or.inr (Or.inr h)
  have hshape : HasArray (front ++ x :: back) ↔ HasArray (front ++ mid ++ back) := by
    constructor
    · rintro ⟨a, ha⟩
      rcases hsplit _ ha with h | h | h
      · exact ⟨a, inF _ h⟩
      · rw [← h] at sx
        obtain ⟨a2, ha2⟩ := sx.1
        exact ⟨a2, inM _ ha2⟩
      · exact ⟨a, inB _ h⟩
    · rintro ⟨a, ha⟩
      rcases List.mem_append.1 ha with h | h
      · rcases List.mem_append.1 h with h | h
        · exact ⟨a, List.mem_append.2 (Or.inl h)⟩
        · cases x with
          | scalar sc => exact absurd ⟨a, h⟩ sx.1
          | array xa => exact ⟨xa, List.mem_append.2 (Or.inr (List.mem_cons_self _ _))⟩
      · exact ⟨a, List.mem_append.2 (Or.inr (List.mem_cons_of_mem _ h))⟩
  have wfo : BatchWF { values := front ++ x :: back, length := n } := by
    constructor
    · intro a ha
      rcases hsplit _ ha with h | h | h
      · exact wf.length_eq a (inF _ h)
      · rw [← h] at sx
        exact sx.2.1
      · exact wf.length_eq a (inB _ h)
    · intro a ha
      rcases hsplit _ ha with h | h | h
      · exact wf.null_count_ok a (inF _ h)
      · rw [← h] at sx
        exact sx.2.2.1
      · exact wf.null_count_ok a (inB _ h)
  have hao : ∀ d ∈ front ++ x :: back, ∀ i, i < n → ∀ v, d.At i = some v →
      op.Call op.antiextreme v = v := by
    intro d hd i hi v hv
    rcases hsplit _ hd with h | h | h
    · exact hanti d (inF _ h) i hi v hv
    · rw [h] at hv
      have hmem := ((hxAt i (fun _ => hi)).2 v hv).1
      obtain ⟨c, hc, hcv⟩ := List.mem_filterMap.1 hmem
      obtain ⟨d2, hd2, hd2c⟩ := List.mem_map.1 hc
      simp only [id] at hcv
      exact hanti d2 (inM _ hd2) i hi v (by rw [hd2c, hcv])
    · exact hanti d (inB _ h) i hi v hv
  have ho : OutputFor { values := front ++ x :: back, length := n } o2 := by
    cases o2 with
    | scalar sc =>
      intro a ha
      obtain ⟨a2, ha2⟩ := hshape.1 ⟨a, ha⟩
      exact h2 a2 ha2
    | array output =>
      obtain ⟨harr, pre⟩ := h2
      exact ⟨hshape.2 harr, ⟨pre.length_eq, pre.offset_eq, pre.validity_eq, pre.values_length⟩⟩
  obtain ⟨r, hr, sr⟩ := Exec_ResultSpec op R laws options
    { values := front ++ x :: back, length := n } o2 (by simp) wfo ho
    (antiextreme_of_At op _ n hao wfo.length_eq)
  refine ⟨x, r, hx, hr, ResultSpec_congr R _ _ _ n _ _ r hshape ?_ sr⟩
  intro i q hi hq
  have hq2 : RowSpec R options.skip_nulls
      (front.map (fun arg => arg.At i) ++ x.At i :: back.map (fun arg => arg.At i)) q := by
    simpa only [CellsAt, List.map_append, List.map_cons] using hq
  have := RowSpec_flatten laws options.skip_nulls _ (mid.map (fun arg => arg.At i)) _ _ q
    (hxAt i (fun ⟨a, ha⟩ => hi ⟨a, inM _ ha⟩)) hq2
  simpa only [CellsAt, List.map_append] using this

/-- Replacing a scalar operand by an array with the same cell at every row
leaves the rows of the result unchanged. -/
theorem Exec_broadcast {α : Type} [Inhabited α] (op : MinMaxOp α) (R : α → α → Prop)
    (laws : OpLaws op R) (options : ElementWiseAggregateOptions)
    (front back : List (Datum α)) (s : Scalar α) (arr : ArrayData α) (n : Nat)
    (output output2 : ArrayData α)
    (wf : BatchWF { values := front ++ Datum.array arr :: back, length := n })
    (hanti : ∀ d ∈ front ++ Datum.array arr :: back, ∀ i, i < n → ∀ v, d.At i = some v →
      op.Call op.antiextreme v = v)
    (harr : HasArray (front ++ Datum.scalar s :: back))
    (pre1 : Preallocated { values := front ++ Datum.scalar s :: back, length := n } output)
    (pre2 : Preallocated { values := front ++ Datum.array arr :: back, length := n } output2)
    (hcells : ∀ i, i < n → arr.Get? i = (Datum.scalar s).At i) :
    ∃ r1 r2,
      ScalarMinMax.Exec op options { values := front ++ Datum.scalar s :: back, length := n }
        (.array output) = some r1 ∧
      ScalarMinMax.Exec op options { values := front ++ Datum.array arr :: back, length := n }
        (.array output2) = some r2 ∧
      r1.Rows = r2.Rows := by
  have hsub : ∀ a, Datum.array a ∈ front ++ Datum.scalar s :: back →
      Datum.array a ∈ front ++ Datum.array arr :: back := by
    intro a ha
    rcases List.mem_append.1 ha with h | h
    · exact List.mem_append.2 (Or.inl h)
    · rcases List.mem_cons.1 h with h | h
      · cases h
      · exact List.mem_append.2 (Or.inr (List.mem_cons_of_mem _ h))
  have wf1 : BatchWF { values := front ++ Datum.scalar s :: back, length := n } :=
    ⟨fun a ha => wf.length_eq a (hsub a ha), fun a ha => wf.null_count_ok a (hsub a ha)⟩
  have hanti1 : ∀ a, Datum.array a ∈ front ++ Datum.scalar s :: back → ∀ i, i < a.length →
      a.IsValid i = true → op.Call op.antiextreme (a.GetValue i) = a.GetValue i :=
    fun a ha => antiextreme_of_At op _ n hanti wf.length_eq a (hsub a ha)
  have harr2 : HasArray (front ++ Datum.array arr :: back) :=
    ⟨arr, List.mem_append.2 (Or.inr (List.mem_cons_self _ _))⟩
  obtain ⟨r1, hr1, s1⟩ := Exec_ResultSpec op R laws options
    { values := front ++ Datum.scalar s :: back, length := n } (.array output) (by simp) wf1
    ⟨harr, pre1⟩ hanti1
  obtain ⟨r2, hr2, s2⟩ := Exec_ResultSpec op R laws options
    { values := front ++ Datum.array arr :: back, length := n } (.array output2) (by simp) wf
    ⟨harr2, pre2⟩ (antiextreme_of_At op _ n hanti wf.length_eq)
  refine ⟨r1, r2, hr1, hr2, ResultSpec_Rows_eq laws options.skip_nulls _ n _ r1 r2 s1 ?_⟩
  refine ResultSpec_congr R _ _ _ n _ _ r2 ⟨fun _ => harr, fun _ => harr2⟩ ?_ s2
  intro i q hi hq
  have hc := hcells i (hi harr)
  simp only [CellsAt, List.map_append, List.map_cons] at hq ⊢
  have e : (Datum.array arr).At i = arr.Get? i := rfl
  rw [e, hc] at hq
  exact hq

theorem OperandsInRange_of_all (T : IntType) (values : List (Datum Int)) (n : Nat)
    (h : (values.all fun d => (List.range n).all fun i =>
      match d.At i with
      | some v => decide (T.InRange v)
      | none => true) = true) : OperandsInRange T values n := by
  intro d hd i hi v hv
  have := List.all_eq_true.1 (List.all_eq_true.1 h d hd) i (List.mem_range.2 hi)
  rw [hv] at this
  exact of_decide_eq_true this

theorem OperandsInRange_antiextreme (T : IntType) (values : List (Datum Int)) (n : Nat)
    (h : OperandsInRange T values n) :
    (∀ d ∈ values, ∀ i, i < n → ∀ v, d.At i = some v →
      (Minimum T).Call (Minimum T).antiextreme v = v) ∧
    (∀ d ∈ values, ∀ i, i < n → ∀ v, d.At i = some v →
      (Maximum T).Call (Maximum T).antiextreme v = v) :=
  ⟨fun d hd i hi v hv => Minimum_antiextreme T v (h d hd i hi v hv),
   fun d hd i hi v hv => Maximum_antiextreme T v (h d hd i hi v hv)⟩

theorem sampleABC_wf : BatchWF { values := [sampleA, sampleB, sampleC], length := 3 } where
  length_eq := by
    intro a ha
    simp only [sampleA, sampleB, sampleC, List.mem_cons, Datum.array.injEq,
      List.mem_singleton, List.not_mem_nil, or_false, reduceCtorEq] at ha
    rcases ha with rfl | rfl <;> rfl
  null_count_ok := by
    intro a ha h0
    simp only [sampleA, sampleB, sampleC, List.mem_cons, Datum.array.injEq,
      List.mem_singleton, List.not_mem_nil, or_false, reduceCtorEq] at ha
    rcases ha with rfl | rfl <;> simp [sampleArray, sampleSlice] at h0

theorem sampleBroadcast_batch_wf :
    BatchWF { values := [sampleA] ++ Datum.array sampleBroadcast :: [], length := 3 } where
  length_eq := by
    intro a ha
    simp only [sampleA, List.singleton_append, List.mem_cons, Datum.array.injEq,
      List.mem_singleton, List.not_mem_nil, or_false] at ha
    rcases ha with rfl | rfl <;> rfl
  null_count_ok := by
    intro a ha h0 i hi
    simp only [sampleA, List.singleton_append, List.mem_cons, Datum.array.injEq,
      List.mem_singleton, List.not_mem_nil, or_false] at ha
    rcases ha with rfl | rfl
    · simp [sampleArray] at h0
    · rfl

/-! ## The one-operand batch -/

theorem RowSpec_single {α : Type} {op : MinMaxOp α} {R : α → α → Prop} (laws : OpLaws op R)
    (skip_nulls : Bool) (c : Option α) : RowSpec R skip_nulls [c] c := by
  constructor
  · cases skip_nulls <;> simp
  · intro v hv
    subst hv
    exact ⟨by simp, fun w hw => by
      simp only [List.filterMap_cons, List.filterMap_nil, id, List.mem_singleton] at hw
      rw [hw]; exact laws.refl v⟩

/-- The kernel on the one-operand batch `[a]` returns an array with the length
of the batch and the cells of `a`. -/
theorem Exec_single {α : Type} [Inhabited α] (op : MinMaxOp α) (R : α → α → Prop)
    (laws : OpLaws op R) (options : ElementWiseAggregateOptions) (a : ArrayData α) (n : Nat)
    (output : ArrayData α)
    (wf : BatchWF { values := [Datum.array a], length := n })
    (hanti : ∀ i, i < n → a.IsValid i = true →
      op.Call op.antiextreme (a.GetValue i) = a.GetValue i)
    (pre : Preallocated { values := [Datum.array a], length := n } output) :
    ∃ r, ScalarMinMax.Exec op options { values := [Datum.array a], length := n }
        (.array output) = some (.array r) ∧
      r.length = a.length ∧
      ∀ i, i < a.length → r.IsValid i = a.IsValid i ∧
        (a.IsValid i = true → r.GetValue i = a.GetValue i) := by
  have hlen : a.length = n := wf.length_eq a (List.mem_singleton.2 rfl)
  obtain ⟨r, hr, sr⟩ := Exec_ResultSpec op R laws options
    { values := [Datum.array a], length := n } (.array output) (by simp) wf
    ⟨⟨a, List.mem_singleton.2 rfl⟩, pre⟩
    (fun b hb i hi hv => by
      have hba : b = a := by
        have := List.mem_singleton.1 hb
        cases this; rfl
      subst hba
      exact hanti i (by rw [← hlen]; exact hi) hv)
  cases r with
  | scalar s => exact absurd ⟨a, List.mem_singleton.2 rfl⟩ sr.1
  | array x =>
    obtain ⟨_, hxl, _, hrows⟩ := sr
    refine ⟨x, hr, by rw [hlen]; exact hxl, fun i hi => ?_⟩
    have hget : x.Get? i = a.Get? i :=
      RowSpec_unique laws options.skip_nulls [a.Get? i] _ _
        (hrows i (by rw [← hlen]; exact hi)) (RowSpec_single laws _ _)
    unfold ArrayData.Get? at hget
    cases hx : x.IsValid i <;> cases ha : a.IsValid i <;> simp [hx, ha] at hget ⊢
    exact hget

theorem sampleA_wf : BatchWF { values := [sampleA], length := 3 } where
  length_eq := by
    intro a ha
    simp only [sampleA, List.mem_singleton, Datum.array.injEq] at ha
    subst ha; rfl
  null_count_ok := by
    intro a ha h0
    simp only [sampleA, List.mem_singleton, Datum.array.injEq] at ha
    subst ha
    simp [sampleArray] at h0

/-! ## The lexicographic order of `string_view` -/

theorem string_view_lt_irrefl (a : Bytes) : string_view_lt a a = false := by
  induction a with
  | nil => rfl
  | cons x l ih => simp [string_view_lt, ih]

theorem string_view_lt_total (a b : Bytes) (h1 : string_view_lt a b = false)
    (h2 : string_view_lt b a = false) : a = b := by
  induction a generalizing b with
  | nil =>
    cases b with
    | nil => rfl
    | cons y r => simp [string_view_lt] at h1
  | cons x l ih =>
    cases b with
    | nil => simp [string_view_lt] at h2
    | cons y r =>
      simp only [string_view_lt] at h1 h2
      by_cases hxy : x < y
      · simp [hxy] at h1
      · by_cases hyx : y < x
        · simp [hyx] at h2
        · simp only [hxy, hyx, if_false] at h1 h2
          have : x = y := by omega
          rw [this, ih r h1 h2]

theorem string_view_lt_trans (a b c : Bytes) (h1 : string_view_lt a b = true)
    (h2 : string_view_lt b c = true) : string_view_lt a c = true := by
  induction a generalizing b c with
  | nil =>
    cases c with
    | nil =>
      cases b with
      | nil => simp [string_view_lt] at h1
      | cons y r => simp [string_view_lt] at h2
    | cons z t => rfl
  | cons x l ih =>
    cases b with
    | nil => simp [string_view_lt] at h1
    | cons y r =>
      cases c with
      | nil => simp [string_view_lt] at h2
      | cons z t =>
        simp only [string_view_lt] at h1 h2 ⊢
        by_cases hxy : x < y
        · by_cases hyz : y < z
          · have : x < z := by omega
            simp [this]
          · by_cases hzy : z < y
            · simp [hyz, hzy] at h2
            · have : x < z := by omega
              simp [this]
        · by_cases hyx : y < x
          · simp [hxy, hyx] at h1
          · simp only [hxy, hyx, if_false] at h1
            have hxy2 : x = y := by omega
            subst hxy2
            by_cases hxz : x < z
            · simp [hxz]
            · by_cases hzx : z < x
              · simp [hxz, hzx] at h2
              · simp only [hxz, hzx, if_false] at h2 ⊢
                exact ih r t h1 h2

theorem string_view_lt_asymm (a b : Bytes) (h : string_view_lt a b = true) :
    string_view_lt b a = false := by
  by_contra h2
  have h3 := string_view_lt_trans a b a h (by simpa using h2)
  rw [string_view_lt_irrefl] at h3
  cases h3

/-- The operator `Minimum::CallBinary` computes minima of the lexicographic order. -/
theorem MinimumBinary_laws :
    OpLaws (BinaryMinMaxOp Minimum.CallBinary) string_view_le where
  refl := fun a => string_view_lt_irrefl a
  trans := by
    intro a b c hab hbc
    unfold string_view_le at *
    by_contra hca
    have hca2 : string_view_lt c a = true := by simpa using hca
    by_cases hcb : string_view_lt c b = true
    · rw [hcb] at hbc; cases hbc
    · by_cases hbc2 : string_view_lt b c = true
      · have := string_view_lt_trans b c a hbc2 hca2
        rw [this] at hab; cases hab
      · have e := string_view_lt_total c b (by simpa using hcb) (by simpa using hbc2)
        subst e
        rw [hca2] at hab; cases hab
  antisymm := fun a b hab hba => string_view_lt_total a b hba hab
  sel := by
    intro a b
    simp only [BinaryMinMaxOp, Minimum.CallBinary]
    split
    · exact Or.inr rfl
    · exact Or.inl rfl
  left := by
    intro a b
    simp only [BinaryMinMaxOp, Minimum.CallBinary, string_view_le]
    split
    · rename_i h; exact string_view_lt_asymm b a h
    · exact string_view_lt_irrefl a
  right := by
    intro a b
    simp only [BinaryMinMaxOp, Minimum.CallBinary, string_view_le]
    split
    · exact string_view_lt_irrefl b
    · rename_i h; simpa using h

/-- The operator `Maximum::CallBinary` computes maxima of the lexicographic order. -/
theorem MaximumBinary_laws :
    OpLaws (BinaryMinMaxOp Maximum.CallBinary) (fun a b => string_view_le b a) where
  refl := fun a => string_view_lt_irrefl a
  trans := fun a b c hab hbc => MinimumBinary_laws.trans c b a hbc hab
  antisymm := fun a b hab hba => string_view_lt_total a b hab hba
  sel := by
    intro a b
    simp only [BinaryMinMaxOp, Maximum.CallBinary]
    split
    · exact Or.inr rfl
    · exact Or.inl rfl
  left := by
    intro a b
    simp only [BinaryMinMaxOp, Maximum.CallBinary, string_view_le]
    split
    · rename_i h; exact string_view_lt_asymm a b h
    · exact string_view_lt_irrefl a
  right := by
    intro a b
    simp only [BinaryMinMaxOp, Maximum.CallBinary, string_view_le]
    split
    · exact string_view_lt_irrefl b
    · rename_i h; simpa using h

/-! ## `CalculateRowSize` -/

theorem ValidCol_eq (row : Nat) (d : BinaryDatum) :
    BinaryScalarMinMax.ValidCol row d = ((d.At row).getD [], (d.At row).isSome) := by
  cases d with
  | scalar s =>
    simp only [BinaryScalarMinMax.ValidCol, BinaryDatum.At]
    cases s.is_valid <;> rfl
  | array a =>
    simp only [BinaryScalarMinMax.ValidCol, BinaryDatum.At]
    cases a.IsValidAt row <;> rfl

theorem CalculateRowSizeLoop_cons (options : ElementWiseAggregateOptions) (index : Nat)
    (d : BinaryDatum) (rest : List BinaryDatum) (final_size : Int) :
    BinaryScalarMinMax.CalculateRowSizeLoop options index (d :: rest) final_size =
      if (d.At index).isSome then
        BinaryScalarMinMax.CalculateRowSizeLoop options index rest
          (max final_size (ElementSize index d))
      else if options.skip_nulls then
        BinaryScalarMinMax.CalculateRowSizeLoop options index rest final_size
      else -1 := by
  cases d with
  | scalar s =>
    simp only [BinaryScalarMinMax.CalculateRowSizeLoop, BinaryDatum.At, ElementSize]
    cases s.is_valid <;> simp
  | array a =>
    simp only [BinaryScalarMinMax.CalculateRowSizeLoop, BinaryDatum.At, ElementSize]
    cases a.IsValidAt index <;> simp

/-- The early return of `CalculateRowSize`: without `skip_nulls`, a null operand
gives `-1`. -/
theorem CalculateRowSizeLoop_abort (options : ElementWiseAggregateOptions) (index : Nat)
    (values : List BinaryDatum) (final_size : Int) (hs : options.skip_nulls = false)
    (h : ∃ d ∈ values, d.At index = none) :
    BinaryScalarMinMax.CalculateRowSizeLoop options index values final_size = -1 := by
  induction values generalizing final_size with
  | nil =>
    obtain ⟨d, hd, _⟩ := h
    cases hd
  | cons d ds ih =>
    rw [CalculateRowSizeLoop_cons]
    cases hv : d.At index with
    | none => simp [hs]
    | some v =>
      simp only [Option.isSome_some, if_true]
      apply ih
      obtain ⟨e, he, hen⟩ := h
      rcases List.mem_cons.1 he with rfl | he
      · rw [hv] at hen; cases hen
      · exact ⟨e, he, hen⟩

/-- Without the early return, `CalculateRowSize` is the running maximum of the
element sizes of the operands valid at `index`. -/
theorem CalculateRowSizeLoop_fold (options : ElementWiseAggregateOptions) (index : Nat)
    (values : List BinaryDatum) (final_size : Int)
    (hok : options.skip_nulls = true ∨ ∀ d ∈ values, (d.At index).isSome = true) :
    BinaryScalarMinMax.CalculateRowSizeLoop options index values final_size =
      (values.filter (fun d => (d.At index).isSome)).foldl
        (fun m d => max m (ElementSize index d)) final_size := by
  induction values generalizing final_size with
  | nil => rfl
  | cons d ds ih =>
    rw [CalculateRowSizeLoop_cons]
    have hok2 : options.skip_nulls = true ∨ ∀ e ∈ ds, (e.At index).isSome = true := by
      rcases hok with h | h
      · exact Or.inl h
      · exact Or.inr (fun e he => h e (List.mem_cons_of_mem _ he))
    cases hv : (d.At index).isSome with
    | true =>
      simp only [if_true, List.filter_cons, hv, List.foldl_cons]
      exact ih _ hok2
    | false =>
      rcases hok with h | h
      · simp only [Bool.false_eq_true, if_false, h, if_true, List.filter_cons, hv]
        exact ih _ hok2
      · have := h d (List.mem_cons_self _ _)
        rw [hv] at this; cases this

theorem foldl_max_ge_acc {β : Type} (f : β → Int) (l : List β) (acc : Int) :
    acc ≤ l.foldl (fun m d => max m (f d)) acc := by
  induction l generalizing acc with
  | nil => exact le_refl _
  | cons d ds ih => exact le_trans (le_max_left _ _) (ih _)

theorem foldl_max_ge_mem {β : Type} (f : β → Int) (l : List β) (acc : Int) (d : β)
    (hd : d ∈ l) : f d ≤ l.foldl (fun m d => max m (f d)) acc := by
  induction l generalizing acc with
  | nil => cases hd
  | cons e es ih =>
    rcases List.mem_cons.1 hd with rfl | h
    · exact le_trans (le_max_right _ _) (foldl_max_ge_acc f es _)
    · exact ih _ h

theorem foldl_max_attained {β : Type} (f : β → Int) (l : List β) (acc : Int) :
    l.foldl (fun m d => max m (f d)) acc = acc ∨
      ∃ d ∈ l, l.foldl (fun m d => max m (f d)) acc = f d := by
  induction l generalizing acc with
  | nil => exact Or.inl rfl
  | cons e es ih =>
    rcases ih (max acc (f e)) with h | ⟨d, hd, h⟩
    · rcases max_choice acc (f e) with hm | hm
      · left; rw [List.foldl_cons, h, hm]
      · right; exact ⟨e, List.mem_cons_self _ _, by rw [List.foldl_cons, h, hm]⟩
    · right; exact ⟨d, List.mem_cons_of_mem _ hd, h⟩

/-- When `CalculateRowSize` returns `-1`: exactly when nulls are not skipped and
some operand is null at `index`. -/
theorem CalculateRowSize_eq_neg_one (options : ElementWiseAggregateOptions)
    (batch : BinaryExecBatch) (index : Nat) :
    BinaryScalarMinMax.CalculateRowSize options batch index = -1 ↔
      options.skip_nulls = false ∧ ∃ d ∈ batch.values, d.At index = none := by
  unfold BinaryScalarMinMax.CalculateRowSize
  constructor
  · intro h
    by_contra hcon
    have hok : options.skip_nulls = true ∨
        ∀ d ∈ batch.values, (d.At index).isSome = true := by
      cases hs : options.skip_nulls with
      | true => exact Or.inl rfl
      | false =>
        right
        intro d hd
        cases hv : d.At index with
        | some v => rfl
        | none => exact absurd ⟨hs, d, hd, hv⟩ hcon
    rw [CalculateRowSizeLoop_fold options index batch.values 0 hok] at h
    have := foldl_max_ge_acc (ElementSize index)
      (batch.values.filter (fun d => (d.At index).isSome)) 0
    omega
  · rintro ⟨hs, h⟩
    exact CalculateRowSizeLoop_abort options index batch.values 0 hs h

/-- When `CalculateRowSize` does not return `-1`, it is at least the element
size of every operand valid at `index`, and it is `0` or the element size of
one of them. -/
theorem CalculateRowSize_max (options : ElementWiseAggregateOptions)
    (batch : BinaryExecBatch) (index : Nat)
    (h : BinaryScalarMinMax.CalculateRowSize options batch index ≠ -1) :
    0 ≤ BinaryScalarMinMax.CalculateRowSize options batch index ∧
    (∀ d ∈ batch.values, (d.At index).isSome = true →
      ElementSize index d ≤ BinaryScalarMinMax.CalculateRowSize options batch index) ∧
    (BinaryScalarMinMax.CalculateRowSize options batch index = 0 ∨
      ∃ d ∈ batch.values, (d.At index).isSome = true ∧
        BinaryScalarMinMax.CalculateRowSize options batch index = ElementSize index d) := by
  have hok : options.skip_nulls = true ∨
      ∀ d ∈ batch.values, (d.At index).isSome = true := by
    cases hs : options.skip_nulls with
    | true => exact Or.inl rfl
    | false =>
      right
      intro d hd
      cases hv : d.At index with
      | some v => rfl
      | none => exact absurd ((CalculateRowSize_eq_neg_one options batch index).2
          ⟨hs, d, hd, hv⟩) h
  unfold BinaryScalarMinMax.CalculateRowSize
  rw [CalculateRowSizeLoop_fold options index batch.values 0 hok]
  refine ⟨foldl_max_ge_acc _ _ 0, fun d hd hv => ?_, ?_⟩
  · exact foldl_max_ge_mem _ _ 0 d (List.mem_filter.2 ⟨hd, hv⟩)
  · rcases foldl_max_attained (ElementSize index)
      (batch.values.filter (fun d => (d.At index).isSome)) 0 with h0 | ⟨d, hd, hm⟩
    · exact Or.inl h0
    · exact Or.inr ⟨d, (List.mem_filter.1 hd).1, (List.mem_filter.1 hd).2, hm⟩

/-- The byte length of a non-empty operand value is at most its element size. -/
theorem length_le_ElementSize (index : Nat) (d : BinaryDatum) (v : Bytes)
    (hv : d.At index = some v) (hne : v ≠ []) : (v.length : Int) ≤ ElementSize index d := by
  cases d with
  | scalar s =>
    simp only [BinaryDatum.At] at hv
    split at hv
    · cases hv; exact le_refl _
    · cases hv
  | array a =>
    simp only [BinaryDatum.At] at hv
    split at hv
    · cases hv
      simp only [ElementSize]
      have hlen : (a.View index).length ≤ a.Offset (index + 1) - a.Offset index := by
        unfold BinaryArrayData.View
        rw [List.length_take]
        exact Nat.min_le_left _ _
      have hpos : 0 < (a.View index).length := List.length_pos.2 hne
      omega
    · cases hv

/-! ## The row loop of `ExecContainingArrays` -/

theorem FoldCols_mem (op : BinaryScalarMinMax.BinaryOp)
    (sel : ∀ a b, op a b = a ∨ op a b = b) (vs : List Bytes) (r0 : Bytes) :
    BinaryScalarMinMax.FoldCols op vs r0 = r0 ∨ BinaryScalarMinMax.FoldCols op vs r0 ∈ vs := by
  induction vs generalizing r0 with
  | nil => exact Or.inl rfl
  | cons v rest ih =>
    unfold BinaryScalarMinMax.FoldCols
    split
    · rcases ih r0 with h | h
      · exact Or.inl h
      · exact Or.inr (List.mem_cons_of_mem _ h)
    · rcases ih (if r0.isEmpty then v else op r0 v) with h | h
      · rw [h]
        split
        · exact Or.inr (List.mem_cons_self _ _)
        · rcases sel r0 v with e | e
          · exact Or.inl e
          · rw [e]; exact Or.inr (List.mem_cons_self _ _)
      · exact Or.inr (List.mem_cons_of_mem _ h)

theorem countP_ValidCol (row : Nat) (values : List BinaryDatum) :
    ((values.map (BinaryScalarMinMax.ValidCol row)).countP (fun c => c.2) < values.length) ↔
      ∃ d ∈ values, d.At row = none := by
  have hle : (values.map (BinaryScalarMinMax.ValidCol row)).countP (fun c => c.2) ≤
      (values.map (BinaryScalarMinMax.ValidCol row)).length := List.countP_le_length _
  rw [List.length_map] at hle
  constructor
  · intro h
    by_contra hcon
    have hall : ∀ c ∈ values.map (BinaryScalarMinMax.ValidCol row), c.2 = true := by
      intro c hc
      obtain ⟨d, hd, rfl⟩ := List.mem_map.1 hc
      rw [ValidCol_eq]
      cases hv : d.At row with
      | none => exact absurd ⟨d, hd, hv⟩ hcon
      | some v => rfl
    have := (List.countP_eq_length (p := fun c : Bytes × Bool => c.2)).2 hall
    rw [List.length_map] at this
    omega
  · rintro ⟨d, hd, hv⟩
    by_contra hcon
    have heq : (values.map (BinaryScalarMinMax.ValidCol row)).countP (fun c => c.2) =
        (values.map (BinaryScalarMinMax.ValidCol row)).length := by
      rw [List.length_map]; omega
    have hall := (List.countP_eq_length (p := fun c : Bytes × Bool => c.2)).1 heq
    have := hall _ (List.mem_map.2 ⟨d, hd, rfl⟩)
    rw [ValidCol_eq, hv] at this
    cases this

/-- One row of `ExecContainingArrays` in terms of the operands at that row. -/
theorem ExecRow_eq (op : BinaryScalarMinMax.BinaryOp) (options : ElementWiseAggregateOptions)
    (batch : BinaryExecBatch) (row : Nat) :
    BinaryScalarMinMax.ExecRow op options batch row =
      if (∃ d ∈ batch.values, d.At row = none) ∧ options.skip_nulls = false then none
      else
        if (BinaryScalarMinMax.FoldCols op
            (batch.values.map (fun d => (d.At row).getD [])).tail
            ((batch.values.map (fun d => (d.At row).getD [])).headD [])).isEmpty then none
        else some (BinaryScalarMinMax.FoldCols op
            (batch.values.map (fun d => (d.At row).getD [])).tail
            ((batch.values.map (fun d => (d.At row).getD [])).headD [])) := by
  have hcols : (batch.values.map (BinaryScalarMinMax.ValidCol row)).map (fun c => c.1) =
      batch.values.map (fun d => (d.At row).getD []) := by
    rw [List.map_map]
    apply List.map_congr_left
    intro d _
    simp only [Function.comp, ValidCol_eq]
  unfold BinaryScalarMinMax.ExecRow
  simp only [hcols]
  by_cases hc : (∃ d ∈ batch.values, d.At row = none) ∧ options.skip_nulls = false
  · have hlt := (countP_ValidCol row batch.values).2 hc.1
    rw [if_pos hc, if_pos (by simp only [hlt, hc.2, decide_True, Bool.not_false, Bool.and_self])]
  · rw [if_neg hc, if_neg]
    intro h
    simp only [Bool.and_eq_true, decide_eq_true_eq, Bool.not_eq_true'] at h
    exact hc ⟨(countP_ValidCol row batch.values).1 h.1, h.2⟩

theorem FoldCols_mem_of_ne_nil (op : BinaryScalarMinMax.BinaryOp)
    (sel : ∀ a b, op a b = a ∨ op a b = b) (L : List Bytes)
    (h : BinaryScalarMinMax.FoldCols op L.tail (L.headD []) ≠ []) :
    BinaryScalarMinMax.FoldCols op L.tail (L.headD []) ∈ L := by
  cases L with
  | nil => exact absurd rfl h
  | cons c cs =>
    simp only [List.headD_cons, List.tail_cons]
    rcases FoldCols_mem op sel cs c with e | e
    · rw [e]; exact List.mem_cons_self _ _
    · exact List.mem_cons_of_mem _ e

/-- The bytes appended for a row fit the size computed for it. -/
theorem ExecRow_length_le (op : BinaryScalarMinMax.BinaryOp)
    (sel : ∀ a b, op a b = a ∨ op a b = b) (options : ElementWiseAggregateOptions)
    (batch : BinaryExecBatch) (row : Nat) (r : Bytes)
    (h : BinaryScalarMinMax.ExecRow op options batch row = some r) :
    (r.length : Int) ≤ BinaryScalarMinMax.CalculateRowSize options batch row := by
  rw [ExecRow_eq] at h
  split at h
  · cases h
  · rename_i hcond
    split at h
    · cases h
    · rename_i hne
      cases h
      have hne2 : BinaryScalarMinMax.FoldCols op
          (batch.values.map (fun d => (d.At row).getD [])).tail
          ((batch.values.map (fun d => (d.At row).getD [])).headD []) ≠ [] := by
        intro h0; rw [h0] at hne; exact hne rfl
      have hmem := FoldCols_mem_of_ne_nil op sel _ hne2
      obtain ⟨d, hd, hdv⟩ := List.mem_map.1 hmem
      have hAt : d.At row = some (BinaryScalarMinMax.FoldCols op
          (batch.values.map (fun d => (d.At row).getD [])).tail
          ((batch.values.map (fun d => (d.At row).getD [])).headD [])) := by
        cases hv : d.At row with
        | none => rw [hv] at hdv; exact absurd hdv.symm hne2
        | some v => rw [hv] at hdv; simp only [Option.getD_some] at hdv; rw [hdv]
      have hnot : BinaryScalarMinMax.CalculateRowSize options batch row ≠ -1 := by
        intro h1
        exact hcond ⟨((CalculateRowSize_eq_neg_one options batch row).1 h1).2,
          ((CalculateRowSize_eq_neg_one options batch row).1 h1).1⟩
      exact le_trans (length_le_ElementSize row d _ hAt hne2)
        ((CalculateRowSize_max options batch row hnot).2.1 d hd (by rw [hAt]; rfl))

theorem presize_foldl (size : Nat → Int) (len : Nat → Nat)
    (h : ∀ i, (len i : Int) ≤ size i ∨ len i = 0) (l : List Nat) (acc : Int) :
    acc + ((l.map len).sum : Nat) ≤
      l.foldl (fun final_size i => if 0 < size i then final_size + size i else final_size)
        acc := by
  induction l generalizing acc with
  | nil => simp
  | cons i is ih =>
    simp only [List.map_cons, List.sum_cons, List.foldl_cons]
    have := ih (if 0 < size i then acc + size i else acc)
    have hi := h i
    by_cases hpos : 0 < size i
    · simp only [hpos, if_true] at this ⊢
      push_cast at this ⊢
      omega
    · simp only [hpos, if_false] at this ⊢
      push_cast at this ⊢
      omega

/-- The closing assertions of `ExecContainingArrays`: one row is appended for
every row of the batch, and the appended bytes fit the reserved size. -/
theorem ExecContainingArrays_presized (op : BinaryScalarMinMax.BinaryOp)
    (sel : ∀ a b, op a b = a ∨ op a b = b) (options : ElementWiseAggregateOptions)
    (batch : BinaryExecBatch) :
    (BinaryScalarMinMax.ExecContainingArrays op options batch).rows.length = batch.length ∧
    ((BinaryScalarMinMax.ExecContainingArrays op options batch).total_values_length : Int) ≤
      (BinaryScalarMinMax.ExecContainingArrays op options batch).final_size := by
  constructor
  · simp [BinaryScalarMinMax.ExecContainingArrays]
  · unfold BinaryScalarMinMax.BuilderOutput.total_values_length
      BinaryScalarMinMax.ExecContainingArrays
    simp only [List.map_map]
    have := presize_foldl (fun i => BinaryScalarMinMax.CalculateRowSize options batch i)
      (fun i =>
        match BinaryScalarMinMax.ExecRow op options batch i with
        | some v => v.length
        | none => 0)
      (fun i => by
        cases hr : BinaryScalarMinMax.ExecRow op options batch i with
        | none => right; simp only [hr]
        | some v =>
          left
          simp only [hr]
          exact ExecRow_length_le op sel options batch i v hr)
      (List.range batch.length) 0
    simp only [zero_add] at this
    exact this

/-! ## `ExecOnlyScalar` -/

theorem ExecOnlyScalarLoop_mem (op : BinaryScalarMinMax.BinaryOp)
    (sel : ∀ a b, op a b = a ∨ op a b = b) (options : ElementWiseAggregateOptions)
    (rest : List BinaryDatum) (r0 result : Bytes)
    (h : BinaryScalarMinMax.ExecOnlyScalarLoop op options rest r0 = some result) :
    result = r0 ∨
      ∃ s, BinaryDatum.scalar s ∈ rest ∧ s.is_valid = true ∧ result = s.value := by
  induction rest generalizing r0 with
  | nil =>
    simp only [BinaryScalarMinMax.ExecOnlyScalarLoop, Option.some.injEq] at h
    exact Or.inl h.symm
  | cons d ds ih =>
    cases d with
    | array a => simp [BinaryScalarMinMax.ExecOnlyScalarLoop] at h
    | scalar s =>
      have lift : ∀ r1, (result = r1 ∨
          ∃ t, BinaryDatum.scalar t ∈ ds ∧ t.is_valid = true ∧ result = t.value) →
          r1 = r0 ∨ (s.is_valid = true ∧ r1 = s.value) →
          result = r0 ∨ ∃ t, BinaryDatum.scalar t ∈ BinaryDatum.scalar s :: ds ∧
            t.is_valid = true ∧ result = t.value := by
        intro r1 h1 h2
        rcases h1 with e | ⟨t, ht, htv, hte⟩
        · rcases h2 with e2 | ⟨hv, e2⟩
          · exact Or.inl (e.trans e2)
          · exact Or.inr ⟨s, List.mem_cons_self _ _, hv, e.trans e2⟩
        · exact Or.inr ⟨t, List.mem_cons_of_mem _ ht, htv, hte⟩
      unfold BinaryScalarMinMax.ExecOnlyScalarLoop at h
      split at h
      · exact lift r0 (ih r0 h) (Or.inl rfl)
      · split at h
        · rename_i hv
          refine lift _ (ih _ h) ?_
          simp only [BinaryScalarMinMax.Unbox]
          split
          · exact Or.inr ⟨hv, rfl⟩
          · rcases sel r0 s.value with e | e
            · exact Or.inl e
            · exact Or.inr ⟨hv, e⟩
        · exact lift r0 (ih r0 h) (Or.inl rfl)

/-- The closing assertion of `ExecOnlyScalar`: the folded result fits the size
computed for the allocation, for a first operand that holds no bytes when it
is null. -/
theorem ExecOnlyScalar_presized (op : BinaryScalarMinMax.BinaryOp)
    (sel : ∀ a b, op a b = a ∨ op a b = b) (options : ElementWiseAggregateOptions)
    (batch : BinaryExecBatch) (front : BinaryScalar) (rest : List BinaryDatum)
    (result : Bytes) (hbatch : batch.values = BinaryDatum.scalar front :: rest)
    (hnull : front.is_valid = false → front.value = [])
    (hsize : ¬ BinaryScalarMinMax.CalculateRowSize options batch 0 < 0)
    (h : BinaryScalarMinMax.ExecOnlyScalarLoop op options rest
      (BinaryScalarMinMax.Unbox front) = some result) :
    (result.length : Int) ≤ BinaryScalarMinMax.CalculateRowSize options batch 0 := by
  have hnot : BinaryScalarMinMax.CalculateRowSize options batch 0 ≠ -1 := by
    intro h1; rw [h1] at hsize; exact hsize (by decide)
  obtain ⟨h0, hge, _⟩ := CalculateRowSize_max options batch 0 hnot
  by_cases hempty : result = []
  · rw [hempty]; simpa using h0
  · have key : ∃ s, BinaryDatum.scalar s ∈ batch.values ∧ s.is_valid = true ∧
        result = s.value := by
      rcases ExecOnlyScalarLoop_mem op sel options rest _ result h with e | ⟨s, hs, hv, e⟩
      · simp only [BinaryScalarMinMax.Unbox] at e
        cases hv : front.is_valid with
        | false => rw [hnull hv] at e; exact absurd e hempty
        | true => exact ⟨front, by rw [hbatch]; exact List.mem_cons_self _ _, hv, e⟩
      · exact ⟨s, by rw [hbatch]; exact List.mem_cons_of_mem _ hs, hv, e⟩
    obtain ⟨s, hs, hv, e⟩ := key
    have hAt : (BinaryDatum.scalar s).At 0 = some result := by
      simp only [BinaryDatum.At, hv, if_true, e]
    exact le_trans (length_le_ElementSize 0 _ _ hAt hempty)
      (hge _ hs (by rw [hAt]; rfl))

theorem FoldCols_eq_FoldValues (op : BinaryScalarMinMax.BinaryOp)
    (sel : ∀ a b, op a b = a ∨ op a b = b) (cs : List (Option Bytes))
    (hne : ∀ v, some v ∈ cs → v ≠ []) (r0 : Bytes) :
    BinaryScalarMinMax.FoldCols op (cs.map (fun c => c.getD [])) r0 =
      (FoldValues (BinaryMinMaxOp op) (if r0.isEmpty then none else some r0)
        (cs.filterMap id)).getD [] := by
  induction cs generalizing r0 with
  | nil =>
    simp only [List.map_nil, BinaryScalarMinMax.FoldCols, List.filterMap_nil, FoldValues,
      List.foldl_nil]
    cases r0 <;> rfl
  | cons c cs ih =>
    have hne2 : ∀ v, some v ∈ cs → v ≠ [] := fun v hv => hne v (List.mem_cons_of_mem _ hv)
    cases c with
    | none =>
      simp only [List.map_cons, Option.getD_none, List.filterMap_cons, id]
      unfold BinaryScalarMinMax.FoldCols
      simp only [List.isEmpty_nil, if_true]
      exact ih hne2 r0
    | some v =>
      have hv : v ≠ [] := hne v (List.mem_cons_self _ _)
      have hvE : v.isEmpty = false := by
        cases v with
        | nil => exact absurd rfl hv
        | cons _ _ => rfl
      simp only [List.map_cons, Option.getD_some, List.filterMap_cons, id]
      unfold BinaryScalarMinMax.FoldCols
      simp only [hvE, Bool.false_eq_true, if_false]
      rw [ih hne2]
      congr 1
      simp only [FoldValues, List.foldl_cons]
      congr 1
      cases hr : r0.isEmpty with
      | true => simp only [if_true, hvE, Bool.false_eq_true, if_false, Combine]
      | false =>
        simp only [Bool.false_eq_true, if_false, Combine, BinaryMinMaxOp]
        have : (op r0 v).isEmpty = false := by
          rcases sel r0 v with e | e
          · rw [e]; exact hr
          · rw [e]; exact hvE
        simp only [this, Bool.false_eq_true, if_false]

/-- The folded `result` of a row whose valid operands are all non-empty: the
fold of the operand values valid at the row, or the empty view if there is
none. -/
theorem FoldCols_row (op : BinaryScalarMinMax.BinaryOp)
    (sel : ∀ a b, op a b = a ∨ op a b = b) (values : List BinaryDatum) (row : Nat)
    (hne : ∀ d ∈ values, ∀ v, d.At row = some v → v ≠ []) :
    BinaryScalarMinMax.FoldCols op (values.map (fun d => (d.At row).getD [])).tail
        ((values.map (fun d => (d.At row).getD [])).headD []) =
      (FoldValues (BinaryMinMaxOp op) none (values.filterMap (fun d => d.At row))).getD [] := by
  cases values with
  | nil => rfl
  | cons d ds =>
    simp only [List.map_cons, List.tail_cons, List.headD_cons, List.filterMap_cons]
    have hcs : ∀ v, some v ∈ ds.map (fun d => d.At row) → v ≠ [] := by
      intro v hv
      obtain ⟨e, he, hev⟩ := List.mem_map.1 hv
      exact hne e (List.mem_cons_of_mem _ he) v hev
    have h := FoldCols_eq_FoldValues op sel (ds.map (fun d => d.At row)) hcs
      ((d.At row).getD [])
    rw [List.map_map, List.filterMap_map] at h
    have hcomp : (id ∘ fun (d : BinaryDatum) => d.At row) = fun d => d.At row := rfl
    have hcomp2 : ((fun (c : Option Bytes) => c.getD []) ∘ fun (d : BinaryDatum) => d.At row) =
        fun d => (d.At row).getD [] := rfl
    rw [hcomp, hcomp2] at h
    rw [h]
    cases hd : d.At row with
    | none => simp only [Option.getD_none, List.isEmpty_nil, if_true]
    | some v =>
      have hv : v ≠ [] := hne d (List.mem_cons_self _ _) v hd
      have hvE : v.isEmpty = false := by
        cases v with
        | nil => exact absurd rfl hv
        | cons _ _ => rfl
      simp only [Option.getD_some, hvE, Bool.false_eq_true, if_false]
      simp only [FoldValues, List.foldl_cons, Combine]

/-- One row of `ExecContainingArrays` on operands whose valid values are all
non-empty: when the row is null, and what it holds when it is not. -/
theorem ExecRow_spec (op : BinaryScalarMinMax.BinaryOp) (R : Bytes → Bytes → Prop)
    (laws : OpLaws (BinaryMinMaxOp op) R) (options : ElementWiseAggregateOptions)
    (batch : BinaryExecBatch) (row : Nat)
    (hne : ∀ d ∈ batch.values, ∀ v, d.At row = some v → v ≠ []) :
    (BinaryScalarMinMax.ExecRow op options batch row = none ↔
      (∀ d ∈ batch.values, d.At row = none) ∨
      (options.skip_nulls = false ∧ ∃ d ∈ batch.values, d.At row = none)) ∧
    (∀ r, BinaryScalarMinMax.ExecRow op options batch row = some r →
      IsExtreme R r (batch.values.filterMap (fun d => d.At row))) := by
  have hsel : ∀ a b, op a b = a ∨ op a b = b := laws.sel
  have hfold := FoldCols_row op hsel batch.values row hne
  have hmemne : ∀ r, r ∈ batch.values.filterMap (fun d => d.At row) → r ≠ [] := by
    intro r hr
    obtain ⟨d, hd, hdv⟩ := List.mem_filterMap.1 hr
    exact hne d hd r hdv
  have hnil : batch.values.filterMap (fun d => d.At row) = [] ↔
      ∀ d ∈ batch.values, d.At row = none := by
    rw [List.filterMap_eq_nil_iff]
  rw [ExecRow_eq, hfold]
  cases hF : FoldValues (BinaryMinMaxOp op) none
      (batch.values.filterMap (fun d => d.At row)) with
  | none =>
    have hl := ((FoldValues_eq_none _ none _).1 hF).2
    simp only [Option.getD_none, List.isEmpty_nil, if_true, ite_self, true_iff]
    exact ⟨Or.inl (hnil.1 hl), fun r hr => by cases hr⟩
  | some r =>
    have hext := FoldValues_extreme laws _ r hF
    have hr : r ≠ [] := hmemne r hext.1
    have hrE : r.isEmpty = false := by
      cases r with
      | nil => exact absurd rfl hr
      | cons _ _ => rfl
    simp only [Option.getD_some, hrE, Bool.false_eq_true, if_false]
    have hnotall : ¬ ∀ d ∈ batch.values, d.At row = none := by
      intro hall
      have := hnil.2 hall
      rw [this] at hext
      cases hext.1
    constructor
    · constructor
      · intro h
        split at h
        · rename_i hc; exact Or.inr ⟨hc.2, hc.1⟩
        · cases h
      · rintro (h | ⟨hs, hex⟩)
        · exact absurd h hnotall
        · rw [if_pos ⟨hex, hs⟩]
    · intro r2 h
      split at h
      · cases h
      · cases h; exact hext

theorem nonempty_of_all (values : List BinaryDatum) (n : Nat)
    (h : (values.all fun d => (List.range n).all fun i =>
      match d.At i with
      | some v => !v.isEmpty
      | none => true) = true) :
    ∀ d ∈ values, ∀ row, row < n → ∀ v, d.At row = some v → v ≠ [] := by
  intro d hd row hrow v hv
  have := List.all_eq_true.1 (List.all_eq_true.1 h d hd) row (List.mem_range.2 hrow)
  rw [hv] at this
  intro h0
  rw [h0] at this
  cases this

theorem ExecContainingArrays_row (op : BinaryScalarMinMax.BinaryOp)
    (options : ElementWiseAggregateOptions) (batch : BinaryExecBatch) (row : Nat)
    (hrow : row < batch.length) :
    (BinaryScalarMinMax.ExecContainingArrays op options batch).rows[row]? =
      some (BinaryScalarMinMax.ExecRow op options batch row) := by
  simp [BinaryScalarMinMax.ExecContainingArrays, List.getElem?_map, List.getElem?_range hrow]

/-! ## Claims -/

/-- C1: `ScalarMinMax::ExecScalar` on a batch whose operands are all scalars of
one integer type. With `skip_nulls = true` the output is valid iff at least one
operand is valid, and its value is then the minimum (`Minimum`; the maximum for
`Maximum`) of the valid operands; with `skip_nulls = false` the output is valid
iff there is an operand and every operand is valid, and its value is then the
minimum / maximum of all operands. In particular `min_element_wise(null, 5)` is
`5` when nulls are skipped and null when they are not. -/
theorem C1_ExecScalar_all_scalars (T : IntType) (scalars : List (Scalar Int)) (n : Nat)
    (out : Scalar Int) :
    ExecScalarContract (Minimum T) (fun a b => a ≤ b) scalars n out ∧
    ExecScalarContract (Maximum T) (fun a b => b ≤ a) scalars n out ∧
    ScalarMinMax.ExecScalar (Minimum T)
      { values := [.scalar { is_valid := false, value := 0 },
                   .scalar { is_valid := true, value := 5 }], length := 1 }
      { skip_nulls := true } out = { is_valid := true, value := 5 } ∧
    (ScalarMinMax.ExecScalar (Minimum T)
      { values := [.scalar { is_valid := false, value := 0 },
                   .scalar { is_valid := true, value := 5 }], length := 1 }
      { skip_nulls := false } out).is_valid = false :=
  ⟨ExecScalar_contract _ _ (Minimum_laws T) scalars n out,
   ExecScalar_contract _ _ (Maximum_laws T) scalars n out, rfl, rfl⟩

/-- C2: `ScalarMinMax::Exec` on a batch of fixed-width operands with at least one
array, of length `n`. The call succeeds with an array of `n` rows; with
`skip_nulls = true` row `i` of the output is valid iff at least one operand (a
scalar, or element `i` of an array) is valid, with `skip_nulls = false` iff every
operand is valid at row `i`, so that a null scalar makes all `n` rows null. An
absent output bitmap counts as all rows valid (`ArrayData.IsValid`). -/
theorem C2_Exec_row_validity {α : Type} [Inhabited α] (op : MinMaxOp α)
    (options : ElementWiseAggregateOptions) (batch : ExecBatch α) (output : ArrayData α)
    (wf : BatchWF batch) (pre : Preallocated batch output)
    (harr : ∃ a, Datum.array a ∈ batch.values) :
    ∃ result, ScalarMinMax.Exec op options batch (.array output) = some (.array result) ∧
      result.length = batch.length ∧
      ∀ i, i < batch.length →
        (options.skip_nulls = true →
          (result.IsValid i = true ↔ ∃ arg ∈ batch.values, (arg.At i).isSome = true)) ∧
        (options.skip_nulls = false →
          (result.IsValid i = true ↔ ∀ arg ∈ batch.values, (arg.At i).isSome = true)) ∧
        (options.skip_nulls = false →
          (∃ s, Datum.scalar s ∈ batch.values ∧ s.is_valid = false) →
          result.IsValid i = false) := by
  have hne := Arrays_ne_nil batch harr
  refine ⟨_, Exec_array op options batch output hne,
    ExecArrays_length op options batch output wf pre, fun i hi => ?_⟩
  have hrow := ExecArrays_row_valid op options batch output wf pre hne i hi
  refine ⟨fun hs => ?_, fun hs => ?_, fun hs hnull => ?_⟩
  · rw [hrow, RowValid, hs]
    simp only [if_true, List.any_eq_true]
  · rw [hrow, RowValid, hs]
    simp only [Bool.false_eq_true, if_false, List.all_eq_true]
  · rw [hrow, RowValid, hs]
    simp only [Bool.false_eq_true, if_false]
    obtain ⟨s, hmem, hs0⟩ := hnull
    rw [Bool.eq_false_iff]
    intro hall
    have := List.all_eq_true.1 hall _ hmem
    simp [Datum.At, hs0] at this

/-- A sample run of C2: the batch `[3, null, 7]`, `[null, null, 5]`. -/
theorem C2_Exec_row_validity_witness :
    BatchWF sampleBatch ∧ Preallocated sampleBatch sampleOutput ∧
    (∃ a, Datum.array a ∈ sampleBatch.values) ∧
    ∃ result, ScalarMinMax.Exec (Minimum Int32) { skip_nulls := true } sampleBatch
        (.array sampleOutput) = some (.array result) ∧
      result.length = sampleBatch.length ∧
      ∀ i, i < sampleBatch.length →
        (true = true →
          (result.IsValid i = true ↔ ∃ arg ∈ sampleBatch.values, (arg.At i).isSome = true)) ∧
        (true = false →
          (result.IsValid i = true ↔ ∀ arg ∈ sampleBatch.values, (arg.At i).isSome = true)) ∧
        (true = false →
          (∃ s, Datum.scalar s ∈ sampleBatch.values ∧ s.is_valid = false) →
          result.IsValid i = false) :=
  ⟨sampleBatch_wf, sampleOutput_preallocated, ⟨sampleArray, List.mem_cons_self _ _⟩,
   C2_Exec_row_validity (Minimum Int32) { skip_nulls := true } sampleBatch sampleOutput
     sampleBatch_wf sampleOutput_preallocated ⟨sampleArray, List.mem_cons_self _ _⟩⟩

/-- C3: `ScalarMinMax::Exec` on a batch of integer operands with at least one
array. At every row where the output is valid, the output value is the minimum
(`Minimum`) or maximum (`Maximum`) of exactly the operand values that are valid
at that row, scalars counted at every row: it is one of these values, so
neither a null element nor the antiextreme fill shows in it. -/
theorem C3_Exec_row_values (T : IntType) (options : ElementWiseAggregateOptions)
    (batch : ExecBatch Int) (output : ArrayData Int)
    (wf : BatchWF batch) (hrange : BatchInRange T batch) (pre : Preallocated batch output)
    (harr : ∃ a, Datum.array a ∈ batch.values) :
    (∃ result,
      ScalarMinMax.Exec (Minimum T) options batch (.array output) = some (.array result) ∧
      ∀ i, i < batch.length → result.IsValid i = true →
        IsExtreme (fun a b => a ≤ b) (result.GetValue i) (ValuesAt batch i)) ∧
    (∃ result,
      ScalarMinMax.Exec (Maximum T) options batch (.array output) = some (.array result) ∧
      ∀ i, i < batch.length → result.IsValid i = true →
        IsExtreme (fun a b => b ≤ a) (result.GetValue i) (ValuesAt batch i)) := by
  have hne := Arrays_ne_nil batch harr
  have hr : ∀ a ∈ ScalarMinMax.Arrays batch, ∀ i, i < a.length → T.InRange (a.GetValue i) :=
    fun a ha i hi => hrange a ((mem_Arrays batch a).1 ha) i hi
  refine ⟨⟨_, Exec_array _ options batch output hne, fun i hi hv => ?_⟩,
    ⟨_, Exec_array _ options batch output hne, fun i hi hv => ?_⟩⟩
  · exact ExecArrays_row_value _ _ (Minimum_laws T) options batch output wf pre
      (fun a ha i hi => Minimum_antiextreme T _ (hr a ha i hi)) hne i hi hv
  · exact ExecArrays_row_value _ _ (Maximum_laws T) options batch output wf pre
      (fun a ha i hi => Maximum_antiextreme T _ (hr a ha i hi)) hne i hi hv

/-- A sample run of C3: the batch `[3, null, 7]`, `[null, null, 5]` of `int32`. -/
theorem C3_Exec_row_values_witness :
    BatchWF sampleBatch ∧ BatchInRange Int32 sampleBatch ∧
    Preallocated sampleBatch sampleOutput ∧ (∃ a, Datum.array a ∈ sampleBatch.values) ∧
    (∃ result,
      ScalarMinMax.Exec (Minimum Int32) { skip_nulls := true } sampleBatch
        (.array sampleOutput) = some (.array result) ∧
      ∀ i, i < sampleBatch.length → result.IsValid i = true →
        IsExtreme (fun a b => a ≤ b) (result.GetValue i) (ValuesAt sampleBatch i)) ∧
    (∃ result,
      ScalarMinMax.Exec (Maximum Int32) { skip_nulls := true } sampleBatch
        (.array sampleOutput) = some (.array result) ∧
      ∀ i, i < sampleBatch.length → result.IsValid i = true →
        IsExtreme (fun a b => b ≤ a) (result.GetValue i) (ValuesAt sampleBatch i)) :=
  ⟨sampleBatch_wf, sampleBatch_in_range, sampleOutput_preallocated,
   ⟨sampleArray, List.mem_cons_self _ _⟩,
   C3_Exec_row_values Int32 { skip_nulls := true } sampleBatch sampleOutput
     sampleBatch_wf sampleBatch_in_range sampleOutput_preallocated
     ⟨sampleArray, List.mem_cons_self _ _⟩⟩

/-- C4: for every comparison function (`equal`, `not_equal`, `greater`,
`greater_equal`, `less`, `less_equal`) and every pair of operands of one type:
the call finds a kernel exactly when the type has one, and then succeeds with an
output in which a row is null iff at least one of the two inputs is null at that
row (so `equal(null, a)` is null for every `a`) and, where both inputs are valid,
is the valid boolean given by the operator. -/
theorem C4_comparison_null_propagation {α : Type} [Comparable α]
    (p : ScalarFunction α × (α → α → Bool)) (hp : p ∈ RegisteredComparisons α)
    (ty : DataType) (x y : Datum α) (n : Nat) (out : CompareOutput) :
    (CallExact p.1
      { values := [{ type := ty, datum := x }, { type := ty, datum := y }], length := n }
      out).isSome = HasCompareKernel ty ∧
    ∀ r, CallExact p.1
      { values := [{ type := ty, datum := x }, { type := ty, datum := y }], length := n }
      out = some r → r.1 = Status.OK ∧ ComparisonContract p.2 x y n r.2 := by
  simp only [RegisteredComparisons, List.mem_cons, List.mem_singleton, List.not_mem_nil,
    or_false] at hp
  rcases hp with rfl | rfl | rfl | rfl | rfl | rfl
  · exact CallExact_MakeCompareFunction "equal" Equal.Call ty x y n out
  · exact CallExact_MakeCompareFunction "not_equal" NotEqual.Call ty x y n out
  · exact CallExact_MakeCompareFunction "greater" Greater.Call ty x y n out
  · exact CallExact_MakeCompareFunction "greater_equal" GreaterEqual.Call ty x y n out
  · have h := CallExact_MakeCompareFunction "greater" Greater.Call ty y x n out
    simp only [less, CallExact_flipped]
    exact ⟨h.1, fun r hr =>
      ⟨(h.2 r hr).1, ComparisonContract_swap Greater.Call x y n r.2 (h.2 r hr).2⟩⟩
  · have h := CallExact_MakeCompareFunction "greater_equal" GreaterEqual.Call ty y x n out
    simp only [less_equal, CallExact_flipped]
    exact ⟨h.1, fun r hr =>
      ⟨(h.2 r hr).1, ComparisonContract_swap GreaterEqual.Call x y n r.2 (h.2 r hr).2⟩⟩

/-- A sample run of C4: `less([3, null, 7], 4)` on `int32` operands. -/
theorem C4_comparison_null_propagation_witness :
    (less Int, fun x y => decide (x < y)) ∈ RegisteredComparisons Int ∧
    (CallExact (less Int)
      { values := [{ type := .int32, datum := .array sampleArray },
                   { type := .int32, datum := .scalar { is_valid := true, value := 4 } }],
        length := 3 }
      (.array [])).isSome = HasCompareKernel .int32 ∧
    ∀ r, CallExact (less Int)
      { values := [{ type := .int32, datum := .array sampleArray },
                   { type := .int32, datum := .scalar { is_valid := true, value := 4 } }],
        length := 3 }
      (.array []) = some r →
      r.1 = Status.OK ∧
      ComparisonContract (fun x y => decide (x < y)) (.array sampleArray)
        (.scalar { is_valid := true, value := 4 }) 3 r.2 :=
  ⟨by simp [RegisteredComparisons],
   C4_comparison_null_propagation (less Int, fun x y => decide (x < y))
     (by simp [RegisteredComparisons]) .int32 (.array sampleArray)
     (.scalar { is_valid := true, value := 4 }) 3 (.array [])⟩

/-- C5: for all operands `x`, `y` of one type (each a scalar or an array),
`less(x, y)` is `greater(y, x)` and `less_equal(x, y)` is `greater_equal(y, x)`,
null rows and error results included: `MakeFlippedFunction` gives the flipped
function one kernel per kernel of the original, with the same signature and an
exec that runs the original exec on the two operands swapped, so that exact
dispatch picks corresponding kernels. -/
theorem C5_flipped_functions {α : Type} [Comparable α] (name : String)
    (func : ScalarFunction α) (ty : DataType) (x y : Datum α) (n : Nat)
    (out : CompareOutput) :
    (MakeFlippedFunction name func).kernels.map (fun k => k.signature) =
      func.kernels.map (fun k => k.signature) ∧
    (MakeFlippedFunction name func).kernels.map (fun k => k.exec) =
      func.kernels.map (fun k => MakeFlippedBinaryExec k.exec) ∧
    (∀ (exec : KernelExec α) (rest : List (TypedDatum α)) (a b : TypedDatum α),
      MakeFlippedBinaryExec exec { values := a :: b :: rest, length := n } out =
        exec { values := b :: a :: rest, length := n } out) ∧
    CallExact (MakeFlippedFunction name func)
        { values := [{ type := ty, datum := x }, { type := ty, datum := y }], length := n }
        out =
      CallExact func
        { values := [{ type := ty, datum := y }, { type := ty, datum := x }], length := n }
        out ∧
    CallExact (less α)
        { values := [{ type := ty, datum := x }, { type := ty, datum := y }], length := n }
        out =
      CallExact (greater α)
        { values := [{ type := ty, datum := y }, { type := ty, datum := x }], length := n }
        out ∧
    CallExact (less_equal α)
        { values := [{ type := ty, datum := x }, { type := ty, datum := y }], length := n }
        out =
      CallExact (greater_equal α)
        { values := [{ type := ty, datum := y }, { type := ty, datum := x }], length := n }
        out := by
  refine ⟨?_, ?_, fun _ _ _ _ => rfl, CallExact_flipped name func ty x y n out,
    CallExact_flipped "less" (greater α) ty x y n out,
    CallExact_flipped "less_equal" (greater_equal α) ty x y n out⟩
  · simp [MakeFlippedFunction]
  · simp [MakeFlippedFunction]

/-- C6: `CompareTimestamps::Exec` on two timestamp operands. If exactly one of the
two timezones is empty it returns the `Invalid` error without running the
underlying kernel, leaving the output untouched; otherwise (both empty, or both
non-empty, even if different) its result is exactly that of the underlying
equal-types kernel. So, over an underlying kernel that does not itself return
`Invalid`, it returns `Invalid` iff exactly one timezone is empty. E.g.
`equal(timestamp(ms, "UTC"), timestamp(ms))` fails. -/
theorem C6_CompareTimestamps {α : Type} [Comparable α] (Base_Exec : KernelExec α)
    (lu ru : TimeUnit) (ltz rtz : String) (x y : Datum α) (n : Nat) (out : CompareOutput) :
    (xor ltz.isEmpty rtz.isEmpty = true →
      CompareTimestamps.Exec Base_Exec
        { values := [{ type := .timestamp lu ltz, datum := x },
                     { type := .timestamp ru rtz, datum := y }], length := n } out =
        some (CompareTimestamps.Error lu ltz ru rtz, out)) ∧
    (CompareTimestamps.Error lu ltz ru rtz).code = StatusCode.Invalid ∧
    (xor ltz.isEmpty rtz.isEmpty = false →
      CompareTimestamps.Exec Base_Exec
        { values := [{ type := .timestamp lu ltz, datum := x },
                     { type := .timestamp ru rtz, datum := y }], length := n } out =
        Base_Exec
          { values := [{ type := .timestamp lu ltz, datum := x },
                       { type := .timestamp ru rtz, datum := y }], length := n } out) ∧
    ((∀ r, Base_Exec
        { values := [{ type := .timestamp lu ltz, datum := x },
                     { type := .timestamp ru rtz, datum := y }], length := n } out = some r →
        r.1.code ≠ StatusCode.Invalid) →
      ((∃ r, CompareTimestamps.Exec Base_Exec
          { values := [{ type := .timestamp lu ltz, datum := x },
                       { type := .timestamp ru rtz, datum := y }], length := n } out = some r ∧
          r.1.code = StatusCode.Invalid) ↔
        xor ltz.isEmpty rtz.isEmpty = true)) ∧
    CallExact (equal α)
      { values := [{ type := .timestamp .MILLI "UTC", datum := x },
                   { type := .timestamp .MILLI "", datum := y }], length := n } out =
      some (CompareTimestamps.Error .MILLI "UTC" .MILLI "", out) := by
  refine ⟨fun h => ?_, rfl, fun h => ?_, fun hbase => ?_, ?_⟩
  · simp [CompareTimestamps.Exec, h]
  · simp [CompareTimestamps.Exec, h]
  · constructor
    · rintro ⟨r, hr, hcode⟩
      by_contra h
      have h' : xor ltz.isEmpty rtz.isEmpty = false := by simpa using h
      simp only [CompareTimestamps.Exec, h', Bool.false_eq_true, if_false] at hr
      exact hbase r hr hcode
    · intro h
      exact ⟨(CompareTimestamps.Error lu ltz ru rtz, out),
        by simp [CompareTimestamps.Exec, h], rfl⟩
  · have hd : DispatchExactImpl (equal α)
        [{ type := .timestamp .MILLI "UTC", shape := x.shape },
         { type := .timestamp .MILLI "", shape := y.shape }] =
        some
          { signature :=
              { in_types := [.matcher (.TimestampTypeUnit .MILLI),
                  .matcher (.TimestampTypeUnit .MILLI)],
                out_type := .fixed .boolean, is_varargs := false }
            exec := CompareTimestamps.Exec (ScalarBinaryEqualTypes.Exec Equal.Call)
            null_handling := NullHandling.INTERSECTION
            mem_allocation := MemAllocation.PREALLOCATE } := by
      simp [DispatchExactImpl, equal, MakeCompareFunction, AddKernel, AddIntegerCompare,
        AddGenericCompare, IntTypes, BaseBinaryTypes, TimeUnit.values,
        KernelSignature.MatchesInputs, InputType.Matches, TypeMatcher.Matches, DataType.id,
        List.filter_cons]
    have hx : xor "UTC".isEmpty "".isEmpty = true := by decide
    unfold CallExact
    simp only [TypedBatch.GetDescriptors, List.map_cons, List.map_nil, TypedDatum.descr, hd]
    simp only [CompareTimestamps.Exec, hx, if_true]

/-- C7 (evaluation at the failing input): for the batch `["abc"]`, `[""]` with
`skip_nulls = false` both operands are valid at row 0 and `""` is the
lexicographically smaller one, yet `ExecContainingArrays` with `Minimum`
appends `"abc"`; the assertion `DCHECK(options.skip_nulls)` of the row loop is
violated on the way. -/
theorem C7_minimum_skips_empty_string :
    (BinaryScalarMinMax.ExecContainingArrays Minimum.CallBinary { skip_nulls := false }
      binaryAbcEmptyBatch).rows = [some [97, 98, 99]] ∧
    binaryAbcEmptyBatch.values.map (fun d => d.At 0) = [some [97, 98, 99], some []] ∧
    string_view_lt [] [97, 98, 99] = true ∧
    Minimum.CallBinary [97, 98, 99] [] = [] ∧
    BinaryScalarMinMax.ExecRowDChecks { skip_nulls := false } binaryAbcEmptyBatch 0 = false := by
  decide

/-- C8 (evaluation at the failing input): for the batch `[""]` the only operand
is valid at row 0 (a string of length zero), and `CalculateRowSize` reports the
length 0 of a non-null output, yet `ExecContainingArrays` appends a null,
whatever `skip_nulls` is. -/
theorem C8_empty_string_row_is_null :
    (BinaryScalarMinMax.ExecContainingArrays Maximum.CallBinary { skip_nulls := true }
      binaryEmptyBatch).rows = [none] ∧
    (BinaryScalarMinMax.ExecContainingArrays Maximum.CallBinary { skip_nulls := false }
      binaryEmptyBatch).rows = [none] ∧
    (BinaryScalarMinMax.ExecContainingArrays Minimum.CallBinary { skip_nulls := false }
      binaryEmptyBatch).rows = [none] ∧
    binaryEmptyBatch.values.map (fun d => d.At 0) = [some []] ∧
    BinaryScalarMinMax.CalculateRowSize { skip_nulls := false } binaryEmptyBatch 0 = 0 := by
  decide

/-- C9 (counterexample): on the scalar operands `(NaN, null)`, `ExecScalar` with
`Minimum` does not give a null with `skip_nulls = true`, and does not give NaN
with `skip_nulls = false`. -/
theorem C9_nan_null_counterexample :
    ¬ ((ScalarMinMax.ExecScalar MinimumFloating nanNullBatch { skip_nulls := true }
        { is_valid := false, value := .num 0 }).is_valid = false) ∧
    ¬ (ScalarMinMax.ExecScalar MinimumFloating nanNullBatch { skip_nulls := false }
        { is_valid := false, value := .num 0 } = { is_valid := true, value := .nan }) := by
  decide

/-- C9 (amended): for floating-point scalar operands, `min_element_wise(NaN, null)`
is NaN, a valid result, when `skip_nulls = true`, and is null when
`skip_nulls = false`; so it is for `max_element_wise`, and through `Exec`. -/
theorem C9_nan_null (out : Scalar FloatValue) :
    ScalarMinMax.ExecScalar MinimumFloating nanNullBatch { skip_nulls := true } out =
      { is_valid := true, value := .nan } ∧
    (ScalarMinMax.ExecScalar MinimumFloating nanNullBatch { skip_nulls := false }
      out).is_valid = false ∧
    ScalarMinMax.ExecScalar MaximumFloating nanNullBatch { skip_nulls := true } out =
      { is_valid := true, value := .nan } ∧
    (ScalarMinMax.ExecScalar MaximumFloating nanNullBatch { skip_nulls := false }
      out).is_valid = false ∧
    ScalarMinMax.Exec MinimumFloating { skip_nulls := true } nanNullBatch (.scalar out) =
      some (.scalar { is_valid := true, value := .nan }) ∧
    ScalarMinMax.Exec MinimumFloating { skip_nulls := false } nanNullBatch (.scalar out) =
      some (.scalar { out with is_valid := false }) :=
  ⟨rfl, rfl, rfl, rfl, rfl, rfl⟩

/-- C10: commutativity of the fixed-width kernel. For operands `a` and `b` of one
integer type (each a scalar or an array, arrays of the batch length) and both
settings of `skip_nulls`, `min_element_wise(a, b)` and `min_element_wise(b, a)`
both succeed and have the same rows (same validity of every row, same value at
every valid row); likewise for `max_element_wise`. -/
theorem C10_commutative (T : IntType) (options : ElementWiseAggregateOptions)
    (a b : Datum Int) (n : Nat) (out : Datum Int)
    (wf : BatchWF { values := [a, b], length := n })
    (hrange : BatchInRange T { values := [a, b], length := n })
    (hout : OutputFor { values := [a, b], length := n } out) :
    (∃ r1 r2,
      ScalarMinMax.Exec (Minimum T) options { values := [a, b], length := n } out = some r1 ∧
      ScalarMinMax.Exec (Minimum T) options { values := [b, a], length := n } out = some r2 ∧
      r1.Rows = r2.Rows) ∧
    (∃ r1 r2,
      ScalarMinMax.Exec (Maximum T) options { values := [a, b], length := n } out = some r1 ∧
      ScalarMinMax.Exec (Maximum T) options { values := [b, a], length := n } out = some r2 ∧
      r1.Rows = r2.Rows) := by
  have hmem : ∀ d, d ∈ [a, b] ↔ d ∈ [b, a] := by
    intro d
    simp only [List.mem_cons, List.mem_singleton, List.not_mem_nil, or_false]
    exact or_comm
  exact ⟨Exec_Rows_congr (Minimum T) _ (Minimum_laws T) options _ _ out rfl hmem wf hout
      (fun x hx i hi => Minimum_antiextreme T _ (hrange x hx i hi)),
    Exec_Rows_congr (Maximum T) _ (Maximum_laws T) options _ _ out rfl hmem wf hout
      (fun x hx i hi => Maximum_antiextreme T _ (hrange x hx i hi))⟩

/-- A sample run of C10: `[3, null, 7]` and `[null, null, 5]` of `int32`. -/
theorem C10_commutative_witness :
    BatchWF sampleBatch ∧ BatchInRange Int32 sampleBatch ∧
    OutputFor sampleBatch (.array sampleOutput) ∧
    (∃ r1 r2,
      ScalarMinMax.Exec (Minimum Int32) { skip_nulls := true }
        { values := [.array sampleArray, .array sampleSlice], length := 3 }
        (.array sampleOutput) = some r1 ∧
      ScalarMinMax.Exec (Minimum Int32) { skip_nulls := true }
        { values := [.array sampleSlice, .array sampleArray], length := 3 }
        (.array sampleOutput) = some r2 ∧
      r1.Rows = r2.Rows) ∧
    (∃ r1 r2,
      ScalarMinMax.Exec (Maximum Int32) { skip_nulls := true }
        { values := [.array sampleArray, .array sampleSlice], length := 3 }
        (.array sampleOutput) = some r1 ∧
      ScalarMinMax.Exec (Maximum Int32) { skip_nulls := true }
        { values := [.array sampleSlice, .array sampleArray], length := 3 }
        (.array sampleOutput) = some r2 ∧
      r1.Rows = r2.Rows) :=
  ⟨sampleBatch_wf, sampleBatch_in_range,
   ⟨⟨sampleArray, List.mem_cons_self _ _⟩, sampleOutput_preallocated⟩,
   C10_commutative Int32 { skip_nulls := true } (.array sampleArray) (.array sampleSlice) 3
     (.array sampleOutput) sampleBatch_wf sampleBatch_in_range
     ⟨⟨sampleArray, List.mem_cons_self _ _⟩, sampleOutput_preallocated⟩⟩

/-- C11: associativity of the fixed-width kernel. For operands `a`, `b`, `c` of one
integer type (each a scalar or an array, arrays of the batch length) and both
settings of `skip_nulls`, the calls `min_element_wise(b, c)`,
`min_element_wise(a, min_element_wise(b, c))`, `min_element_wise(a, b)` and
`min_element_wise(min_element_wise(a, b), c)` all succeed, and the two nested
results have the same rows (same validity of every row, same value at every
valid row, whatever the values buffer holds at a null row); likewise for
`max_element_wise`. -/
theorem C11_associative (T : IntType) (options : ElementWiseAggregateOptions)
    (a b c : Datum Int) (n : Nat) (o1 o2 o3 o4 : Datum Int)
    (wf : BatchWF { values := [a, b, c], length := n })
    (hrange : OperandsInRange T [a, b, c] n)
    (h1 : OutputFor { values := [b, c], length := n } o1)
    (h2 : OutputFor { values := [a, b, c], length := n } o2)
    (h3 : OutputFor { values := [a, b], length := n } o3)
    (h4 : OutputFor { values := [a, b, c], length := n } o4) :
    (∃ bc r1 ab r2,
      ScalarMinMax.Exec (Minimum T) options { values := [b, c], length := n } o1 = some bc ∧
      ScalarMinMax.Exec (Minimum T) options { values := [a, bc], length := n } o2 = some r1 ∧
      ScalarMinMax.Exec (Minimum T) options { values := [a, b], length := n } o3 = some ab ∧
      ScalarMinMax.Exec (Minimum T) options { values := [ab, c], length := n } o4 = some r2 ∧
      r1.Rows = r2.Rows) ∧
    (∃ bc r1 ab r2,
      ScalarMinMax.Exec (Maximum T) options { values := [b, c], length := n } o1 = some bc ∧
      ScalarMinMax.Exec (Maximum T) options { values := [a, bc], length := n } o2 = some r1 ∧
      ScalarMinMax.Exec (Maximum T) options { values := [a, b], length := n } o3 = some ab ∧
      ScalarMinMax.Exec (Maximum T) options { values := [ab, c], length := n } o4 = some r2 ∧
      r1.Rows = r2.Rows) := by
  obtain ⟨hmin, hmax⟩ := OperandsInRange_antiextreme T [a, b, c] n hrange
  constructor
  · obtain ⟨bc, r1, e1, e2, s1⟩ := Exec_nested (Minimum T) _ (Minimum_laws T) options
      [a] [b, c] [] n o1 o2 (by simp) wf hmin h1 h2
    obtain ⟨ab, r2, e3, e4, s2⟩ := Exec_nested (Minimum T) _ (Minimum_laws T) options
      [] [a, b] [c] n o3 o4 (by simp) wf hmin h3 h4
    exact ⟨bc, r1, ab, r2, e1, e2, e3, e4,
      ResultSpec_Rows_eq (Minimum_laws T) options.skip_nulls _ n _ r1 r2 s1 s2⟩
  · obtain ⟨bc, r1, e1, e2, s1⟩ := Exec_nested (Maximum T) _ (Maximum_laws T) options
      [a] [b, c] [] n o1 o2 (by simp) wf hmax h1 h2
    obtain ⟨ab, r2, e3, e4, s2⟩ := Exec_nested (Maximum T) _ (Maximum_laws T) options
      [] [a, b] [c] n o3 o4 (by simp) wf hmax h3 h4
    exact ⟨bc, r1, ab, r2, e1, e2, e3, e4,
      ResultSpec_Rows_eq (Maximum_laws T) options.skip_nulls _ n _ r1 r2 s1 s2⟩

/-- A sample run of C11: `[3, null, 7]`, `[null, null, 5]` and the scalar `4` of
`int32`, with `skip_nulls = true`. -/
theorem C11_associative_witness :
    BatchWF { values := [sampleA, sampleB, sampleC], length := 3 } ∧
    OperandsInRange Int32 [sampleA, sampleB, sampleC] 3 ∧
    OutputFor { values := [sampleB, sampleC], length := 3 } (.array sampleOutput) ∧
    OutputFor { values := [sampleA, sampleB, sampleC], length := 3 } (.array sampleOutput) ∧
    OutputFor { values := [sampleA, sampleB], length := 3 } (.array sampleOutput) ∧
    (∃ bc r1 ab r2,
      ScalarMinMax.Exec (Minimum Int32) { skip_nulls := true }
        { values := [sampleB, sampleC], length := 3 } (.array sampleOutput) = some bc ∧
      ScalarMinMax.Exec (Minimum Int32) { skip_nulls := true }
        { values := [sampleA, bc], length := 3 } (.array sampleOutput) = some r1 ∧
      ScalarMinMax.Exec (Minimum Int32) { skip_nulls := true }
        { values := [sampleA, sampleB], length := 3 } (.array sampleOutput) = some ab ∧
      ScalarMinMax.Exec (Minimum Int32) { skip_nulls := true }
        { values := [ab, sampleC], length := 3 } (.array sampleOutput) = some r2 ∧
      r1.Rows = r2.Rows) ∧
    (∃ bc r1 ab r2,
      ScalarMinMax.Exec (Maximum Int32) { skip_nulls := true }
        { values := [sampleB, sampleC], length := 3 } (.array sampleOutput) = some bc ∧
      ScalarMinMax.Exec (Maximum Int32) { skip_nulls := true }
        { values := [sampleA, bc], length := 3 } (.array sampleOutput) = some r1 ∧
      ScalarMinMax.Exec (Maximum Int32) { skip_nulls := true }
        { values := [sampleA, sampleB], length := 3 } (.array sampleOutput) = some ab ∧
      ScalarMinMax.Exec (Maximum Int32) { skip_nulls := true }
        { values := [ab, sampleC], length := 3 } (.array sampleOutput) = some r2 ∧
      r1.Rows = r2.Rows) :=
  ⟨sampleABC_wf, OperandsInRange_of_all _ _ _ (by decide),
   ⟨⟨sampleSlice, List.mem_cons_self _ _⟩, ⟨rfl, rfl, rfl, rfl⟩⟩,
   ⟨⟨sampleArray, List.mem_cons_self _ _⟩, ⟨rfl, rfl, rfl, rfl⟩⟩,
   ⟨⟨sampleArray, List.mem_cons_self _ _⟩, ⟨rfl, rfl, rfl, rfl⟩⟩,
   C11_associative Int32 { skip_nulls := true } sampleA sampleB sampleC 3
     (.array sampleOutput) (.array sampleOutput) (.array sampleOutput) (.array sampleOutput)
     sampleABC_wf (OperandsInRange_of_all _ _ _ (by decide))
     ⟨⟨sampleSlice, List.mem_cons_self _ _⟩, ⟨rfl, rfl, rfl, rfl⟩⟩
     ⟨⟨sampleArray, List.mem_cons_self _ _⟩, ⟨rfl, rfl, rfl, rfl⟩⟩
     ⟨⟨sampleArray, List.mem_cons_self _ _⟩, ⟨rfl, rfl, rfl, rfl⟩⟩
     ⟨⟨sampleArray, List.mem_cons_self _ _⟩, ⟨rfl, rfl, rfl, rfl⟩⟩⟩

/-- C12 (evaluation at the failing input): for the valid scalar operands `"x"` and
`""`, under either `skip_nulls` setting, `ExecOnlyScalar` with `Minimum` stores
the valid string `"x"` for the order `("", "x")` and leaves the output scalar
as it was for the order `("x", "")`; so the two orders differ for every output
scalar that is not already the valid string `"x"`, a null output scalar among
them. Both operands are valid and their minimum is `""`. -/
theorem C12_minimum_scalars_not_commutative (skip_nulls : Bool) (fresh : Nat → Nat)
    (out : BinaryScalar) :
    BinaryScalarMinMax.Exec Minimum.CallBinary { skip_nulls := skip_nulls }
      binaryEmptyXBatch fresh out = some (.scalar { is_valid := true, value := [120] }) ∧
    BinaryScalarMinMax.Exec Minimum.CallBinary { skip_nulls := skip_nulls }
      binaryXEmptyBatch fresh out = some (.scalar out) ∧
    (out ≠ { is_valid := true, value := [120] } →
      BinaryScalarMinMax.Exec Minimum.CallBinary { skip_nulls := skip_nulls }
          binaryEmptyXBatch fresh out ≠
        BinaryScalarMinMax.Exec Minimum.CallBinary { skip_nulls := skip_nulls }
          binaryXEmptyBatch fresh out) ∧
    binaryXEmptyBatch.values.map (fun d => d.At 0) = [some [120], some []] ∧
    binaryEmptyXBatch.values.map (fun d => d.At 0) = [some [], some [120]] ∧
    Minimum.CallBinary [120] [] = [] ∧ Minimum.CallBinary [] [120] = [] := by
  have h1 : BinaryScalarMinMax.Exec Minimum.CallBinary { skip_nulls := skip_nulls }
      binaryEmptyXBatch fresh out = some (.scalar { is_valid := true, value := [120] }) := by
    cases skip_nulls <;> rfl
  have h2 : BinaryScalarMinMax.Exec Minimum.CallBinary { skip_nulls := skip_nulls }
      binaryXEmptyBatch fresh out = some (.scalar out) := by
    cases skip_nulls <;> rfl
  refine ⟨h1, h2, fun hne => ?_, by decide, by decide, by decide, by decide⟩
  rw [h1, h2]
  intro h
  injection h with h
  injection h with h
  exact hne h.symm

/-- C13: `ResolveMinOrMaxOutputType`, the output-type rule of the decimal min/max
kernels. For an empty operand list it returns the null type. For a list
`first :: rest` it returns a `NotImplemented` error iff the type of some operand
of `rest` differs from the type of `first`, and otherwise succeeds with the type
of `first` and the broadcast shape of the operands: the types are compared as
they are, no decimal promotion is attempted, so that two decimal types of
different precision are rejected. The decimal kernels of the min/max functions
are the kernels with this output rule. -/
theorem C13_ResolveMinOrMaxOutputType (first : ValueDescr) (rest : List ValueDescr) :
    ResolveMinOrMaxOutputType [] = .ok { type := DataType.null, shape := Shape.ANY } ∧
    ((∃ status, ResolveMinOrMaxOutputType (first :: rest) = .error status ∧
        status.code = StatusCode.NotImplemented) ↔
      ∃ d ∈ rest, d.type ≠ first.type) ∧
    ((∀ d ∈ rest, d.type = first.type) →
      ResolveMinOrMaxOutputType (first :: rest) =
        .ok { type := first.type, shape := GetBroadcastShape (first :: rest) }) ∧
    (∀ descr, ResolveMinOrMaxOutputType (first :: rest) = .ok descr →
      ∀ d ∈ first :: rest, d.type = descr.type) ∧
    (∃ status, ResolveMinOrMaxOutputType
        [{ type := .decimal128 5 2, shape := .ARRAY },
         { type := .decimal128 7 3, shape := .ARRAY }] = .error status) ∧
    (min_element_wise.kernels.filter (fun k => k.signature.out_type == .computed)).map
        (fun k => k.signature.in_types) =
      [[.matcher (.SameTypeId .DECIMAL128)], [.matcher (.SameTypeId .DECIMAL256)]] := by
  have hloop := ResolveLoop_iff first.type rest
  refine ⟨rfl, ?_, ?_, ?_, ⟨_, rfl⟩, by decide⟩
  · unfold ResolveMinOrMaxOutputType
    by_cases h : ResolveMinOrMaxOutputTypeLoop first.type rest = true
    · simp only [h, if_true]
      exact ⟨fun _ => hloop.1 h, fun _ => ⟨_, rfl, rfl⟩⟩
    · simp only [h, Bool.false_eq_true, if_false]
      constructor
      · rintro ⟨st, hst, _⟩; cases hst
      · intro hex; exact absurd (hloop.2 hex) h
  · intro hall
    unfold ResolveMinOrMaxOutputType
    have h : ¬ ResolveMinOrMaxOutputTypeLoop first.type rest = true := by
      intro h
      obtain ⟨d, hd, hne⟩ := hloop.1 h
      exact hne (hall d hd)
    simp only [h, Bool.false_eq_true, if_false]
  · intro descr hok d hd
    unfold ResolveMinOrMaxOutputType at hok
    by_cases h : ResolveMinOrMaxOutputTypeLoop first.type rest = true
    · simp only [h, if_true] at hok; cases hok
    · simp only [h, Bool.false_eq_true, if_false] at hok
      cases hok
      rcases List.mem_cons.1 hd with rfl | hmem
      · rfl
      · by_contra hne
        exact h (hloop.2 ⟨d, hmem, hne⟩)

/-- C14 (counterexample): the descriptors `decimal128(5, 2)`, `decimal128(7, 3)` match
the signature of the `DECIMAL128` kernel of `equal` exactly, yet `DispatchBest`
runs `CastBinaryDecimalArgs` before the exact match and leaves another
descriptor list behind. -/
theorem C14_decimal_counterexample :
    (∃ k ∈ (equal Int).kernels,
      k.signature.MatchesInputs
        [{ type := .decimal128 5 2, shape := .ARRAY },
         { type := .decimal128 7 3, shape := .ARRAY }] = true) ∧
    (CheckArity (equal Int)
      [{ type := .decimal128 5 2, shape := .ARRAY },
       { type := .decimal128 7 3, shape := .ARRAY }]).code = StatusCode.OK ∧
    (CompareFunction.DispatchBest SpecHelpers (equal Int)
      [{ type := .decimal128 5 2, shape := .ARRAY },
       { type := .decimal128 7 3, shape := .ARRAY }]).trace = [Pass.CastBinaryDecimalArgs] ∧
    (CompareFunction.DispatchBest SpecHelpers (equal Int)
      [{ type := .decimal128 5 2, shape := .ARRAY },
       { type := .decimal128 7 3, shape := .ARRAY }]).values =
      [{ type := .decimal128 6 3, shape := .ARRAY },
       { type := .decimal128 7 3, shape := .ARRAY }] := by
  have hmap : (equal Int).kernels.map (fun k => k.signature) = CompareSignatures :=
    MakeCompareFunction_signatures _ _
  obtain ⟨k, hk, hsig⟩ := exists_kernel_of_signature (equal Int) CompareSignatures hmap
    { in_types := [.matcher (.SameTypeId .DECIMAL128), .matcher (.SameTypeId .DECIMAL128)],
      out_type := .fixed .boolean, is_varargs := false } (by decide)
  have hm1 : k.signature.MatchesInputs
      [{ type := .decimal128 5 2, shape := .ARRAY },
       { type := .decimal128 7 3, shape := .ARRAY }] = true := by rw [hsig]; decide
  have hm2 : k.signature.MatchesInputs
      [{ type := .decimal128 6 3, shape := .ARRAY },
       { type := .decimal128 7 3, shape := .ARRAY }] = true := by rw [hsig]; decide
  have harity : (CheckArity (equal Int)
      [{ type := .decimal128 5 2, shape := .ARRAY },
       { type := .decimal128 7 3, shape := .ARRAY }]).code = StatusCode.OK :=
    (CheckArity_binary _ _ rfl).2 rfl
  have hd := DispatchExactImpl_eq_of_mem (equal Int) CompareSignatures hmap
    CompareSignatures_nodup CompareSignatures_apart k hk _ _ hm2
  have hcastv : CompareFunction.AfterDecimalCast SpecHelpers
      [{ type := .decimal128 5 2, shape := .ARRAY },
       { type := .decimal128 7 3, shape := .ARRAY }] =
      [{ type := .decimal128 6 3, shape := .ARRAY },
       { type := .decimal128 7 3, shape := .ARRAY }] := by decide
  have hbest := CompareFunction_DispatchBest_eq SpecHelpers (equal Int)
    [{ type := .decimal128 5 2, shape := .ARRAY },
     { type := .decimal128 7 3, shape := .ARRAY }] harity (fun _ => by decide)
  rw [hcastv, DispatchExactOrPromote_exact SpecHelpers _ _ _ k hd] at hbest
  refine ⟨⟨k, hk, hm1⟩, harity, ?_, ?_⟩
  · rw [hbest]; rfl
  · rw [hbest]

/-- C14 (amended): exact-match round trip. For every kernel registered on a
min/max function, and for every kernel registered on a comparison function
when no descriptor has a decimal type, `DispatchBest` on descriptors that
match the signature of the kernel (and have the arity of the function) returns
that kernel, calls no pass and leaves the descriptor list unchanged. When a
descriptor of a comparison has a decimal type, `CastBinaryDecimalArgs` is called
first, and the round trip holds for the list as that pass leaves it. -/
theorem C14_exact_match_round_trip {α : Type} [Comparable α] (H : DispatchHelpers)
    (values : List ValueDescr) :
    (∀ p ∈ RegisteredComparisons α, ∀ k ∈ p.1.kernels,
      k.signature.MatchesInputs values = true → HasDecimal values = false →
      CompareFunction.DispatchBest H p.1 values =
        { result := .ok k, values := values, trace := [] }) ∧
    (∀ p ∈ RegisteredComparisons α,
      (CheckArity p.1 values).code = StatusCode.OK → HasDecimal values = true →
      (CompareFunction.DispatchBest H p.1 values).trace.head? =
        some Pass.CastBinaryDecimalArgs ∧
      ((H.CastBinaryDecimalArgs DecimalPromotion.kAdd values).1.code = StatusCode.OK →
        ∀ k ∈ p.1.kernels,
          k.signature.MatchesInputs
            (H.CastBinaryDecimalArgs DecimalPromotion.kAdd values).2 = true →
          CompareFunction.DispatchBest H p.1 values =
            { result := .ok k
              values := (H.CastBinaryDecimalArgs DecimalPromotion.kAdd values).2
              trace := [Pass.CastBinaryDecimalArgs] })) ∧
    (∀ f ∈ [min_element_wise, max_element_wise], ∀ k ∈ f.kernels,
      values ≠ [] → k.signature.MatchesInputs values = true →
      VarArgsCompareFunction.DispatchBest H f values =
        { result := .ok k, values := values, trace := [] }) := by
  refine ⟨?_, ?_, ?_⟩
  · intro p hp k hk hm hdec
    obtain ⟨hmap, ha⟩ := RegisteredComparisons_signatures p hp
    have hlen := CompareSignatures_two k.signature
      (by rw [← hmap]; exact List.mem_map.2 ⟨k, hk, rfl⟩) values hm
    have harity := (CheckArity_binary p.1 values ha).2 hlen
    cases values with
    | nil => simp at hlen
    | cons d rest =>
      have hd := DispatchExactImpl_eq_of_mem p.1 CompareSignatures hmap
        CompareSignatures_nodup CompareSignatures_apart k hk d rest hm
      rw [CompareFunction_DispatchBest_eq H p.1 _ harity (fun h => by rw [hdec] at h; cases h)]
      simp only [CompareFunction.AfterDecimalCast, hdec, Bool.false_eq_true, if_false]
      exact DispatchExactOrPromote_exact H _ _ _ k hd
  · intro p hp harity hdec
    obtain ⟨hmap, ha⟩ := RegisteredComparisons_signatures p hp
    constructor
    · unfold CompareFunction.DispatchBest
      simp only [harity, ne_eq, not_true_eq_false, if_false, hdec, if_true]
      split
      · rfl
      · unfold CompareFunction.DispatchExactOrPromote
        split
        · rfl
        · simp only
          split <;> rfl
    · intro hcast k hk hm
      have hlen := CompareSignatures_two k.signature
        (by rw [← hmap]; exact List.mem_map.2 ⟨k, hk, rfl⟩) _ hm
      rw [CompareFunction_DispatchBest_eq H p.1 _ harity (fun _ => hcast)]
      simp only [CompareFunction.AfterDecimalCast, hdec, if_true]
      cases hc : (H.CastBinaryDecimalArgs DecimalPromotion.kAdd values).2 with
      | nil => rw [hc] at hlen; simp at hlen
      | cons d rest =>
        rw [hc] at hm
        have hd := DispatchExactImpl_eq_of_mem p.1 CompareSignatures hmap
          CompareSignatures_nodup CompareSignatures_apart k hk d rest hm
        exact DispatchExactOrPromote_exact H _ _ _ k hd
  · intro f hf k hk hne hm
    obtain ⟨hmap, ha⟩ := MinMax_functions f hf
    cases values with
    | nil => exact absurd rfl hne
    | cons d rest =>
      have harity : (CheckArity f (d :: rest)).code = StatusCode.OK :=
        (CheckArity_varargs f _ 1 ha).2 (by simp)
      have hd := DispatchExactImpl_eq_of_mem f MinMaxSignatures hmap
        MinMaxSignatures_nodup MinMaxSignatures_apart k hk d rest hm
      exact VarArgs_DispatchBest_exact H f _ k harity hd

/-- A sample run of the amended C14: the `(int32, int32)` kernel of `equal` is
returned for two `int32` arrays, no pass is called and the descriptors are
unchanged. -/
theorem C14_exact_match_round_trip_witness :
    ∃ k ∈ (equal Int).kernels,
      k.signature =
        { in_types := [.exact .int32, .exact .int32], out_type := .fixed .boolean,
          is_varargs := false } ∧
      k.signature.MatchesInputs int32Int32 = true ∧ HasDecimal int32Int32 = false ∧
      CompareFunction.DispatchBest SpecHelpers (equal Int) int32Int32 =
        { result := .ok k, values := int32Int32, trace := [] } := by
  obtain ⟨k, hk, hsig⟩ := exists_kernel_of_signature (equal Int) CompareSignatures
    (MakeCompareFunction_signatures _ _)
    { in_types := [.exact .int32, .exact .int32], out_type := .fixed .boolean,
      is_varargs := false } (by decide)
  have hm : k.signature.MatchesInputs int32Int32 = true := by rw [hsig]; decide
  exact ⟨k, hk, hsig, hm, by decide,
    (C14_exact_match_round_trip SpecHelpers int32Int32).1 (equal Int, fun x y => x == y)
      (List.mem_cons_self _ _) k hk hm (by decide)⟩

/-- C15: dispatching `equal` with operand types `(int32, int64)` succeeds. No exact
kernel matches; given that dictionary decoding and null replacement leave the
two descriptors as they are and that the numeric common type of `int32` and
`int64` is `int64`, the common-type step rewrites both operand types to `int64`
and the retry returns the `(int64, int64) -> boolean` kernel of `equal`. -/
theorem C15_equal_int32_int64 {α : Type} [Comparable α] (H : DispatchHelpers)
    (s1 s2 : Shape)
    (hdecode : H.EnsureDictionaryDecoded
      [{ type := .int32, shape := s1 }, { type := .int64, shape := s2 }] =
      [{ type := .int32, shape := s1 }, { type := .int64, shape := s2 }])
    (hnull : H.ReplaceNullWithOtherType
      [{ type := .int32, shape := s1 }, { type := .int64, shape := s2 }] =
      [{ type := .int32, shape := s1 }, { type := .int64, shape := s2 }])
    (hnumeric : H.CommonNumeric
      [{ type := .int32, shape := s1 }, { type := .int64, shape := s2 }] = some .int64) :
    DispatchExactImpl (equal α)
      [{ type := .int32, shape := s1 }, { type := .int64, shape := s2 }] = none ∧
    ∃ k, CompareFunction.DispatchBest H (equal α)
        [{ type := .int32, shape := s1 }, { type := .int64, shape := s2 }] =
        { result := .ok k
          values := [{ type := .int64, shape := s1 }, { type := .int64, shape := s2 }]
          trace := [.EnsureDictionaryDecoded, .ReplaceNullWithOtherType,
            .CommonNumeric, .ReplaceTypes] } ∧
      k ∈ (equal α).kernels ∧
      k.signature =
        { in_types := [.exact .int64, .exact .int64], out_type := .fixed .boolean,
          is_varargs := false } ∧
      k.exec = ScalarBinaryEqualTypes.Exec Equal.Call := by
  have hmap : (equal α).kernels.map (fun k => k.signature) = CompareSignatures :=
    MakeCompareFunction_signatures _ _
  have hnone := DispatchExactImpl_none_of_signatures (equal α) CompareSignatures hmap _
    (CompareSignatures_int32_int64 s1 s2)
  obtain ⟨k, hk, hsig⟩ := exists_kernel_of_signature (equal α) CompareSignatures hmap
    { in_types := [.exact .int64, .exact .int64], out_type := .fixed .boolean,
      is_varargs := false } (by decide)
  have hm : k.signature.MatchesInputs
      [{ type := .int64, shape := s1 }, { type := .int64, shape := s2 }] = true := by
    rw [hsig]
    simp [KernelSignature.MatchesInputs, InputType.Matches]
  have hd := DispatchExactImpl_eq_of_mem (equal α) CompareSignatures hmap
    CompareSignatures_nodup CompareSignatures_apart k hk _ _ hm
  have hexec : k.exec = ScalarBinaryEqualTypes.Exec Equal.Call := by
    rcases MakeCompareFunction_kernels "equal" Equal.Call k hk with h | ⟨_, _, u, hin⟩
    · exact h
    · rw [hsig] at hin
      simp at hin
  have harity : (CheckArity (equal α)
      [{ type := .int32, shape := s1 }, { type := .int64, shape := s2 }]).code =
      StatusCode.OK := (CheckArity_binary _ _ rfl).2 rfl
  refine ⟨hnone, k, ?_, hk, hsig, hexec⟩
  rw [CompareFunction_DispatchBest_eq H (equal α) _ harity
    (fun h => by rw [HasDecimal_int32_int64] at h; cases h)]
  simp only [CompareFunction.AfterDecimalCast, HasDecimal_int32_int64, Bool.false_eq_true,
    if_false]
  unfold CompareFunction.DispatchExactOrPromote
  simp only [hnone, hdecode, hnull, CompareFunction.CommonTypes, hnumeric, ReplaceTypes,
    List.map_cons, List.map_nil, hd, List.nil_append, List.cons_append]

/-- A sample run of C15 with the helpers as the specification describes them. -/
theorem C15_equal_int32_int64_witness :
    SpecHelpers.EnsureDictionaryDecoded
      [{ type := .int32, shape := .ARRAY }, { type := .int64, shape := .ARRAY }] =
      [{ type := .int32, shape := .ARRAY }, { type := .int64, shape := .ARRAY }] ∧
    SpecHelpers.ReplaceNullWithOtherType
      [{ type := .int32, shape := .ARRAY }, { type := .int64, shape := .ARRAY }] =
      [{ type := .int32, shape := .ARRAY }, { type := .int64, shape := .ARRAY }] ∧
    SpecHelpers.CommonNumeric
      [{ type := .int32, shape := .ARRAY }, { type := .int64, shape := .ARRAY }] =
      some .int64 ∧
    DispatchExactImpl (equal Int)
      [{ type := .int32, shape := .ARRAY }, { type := .int64, shape := .ARRAY }] = none ∧
    ∃ k, CompareFunction.DispatchBest SpecHelpers (equal Int)
        [{ type := .int32, shape := .ARRAY }, { type := .int64, shape := .ARRAY }] =
        { result := .ok k
          values := [{ type := .int64, shape := .ARRAY }, { type := .int64, shape := .ARRAY }]
          trace := [.EnsureDictionaryDecoded, .ReplaceNullWithOtherType,
            .CommonNumeric, .ReplaceTypes] } ∧
      k ∈ (equal Int).kernels ∧
      k.signature =
        { in_types := [.exact .int64, .exact .int64], out_type := .fixed .boolean,
          is_varargs := false } ∧
      k.exec = ScalarBinaryEqualTypes.Exec Equal.Call :=
  ⟨by decide, by decide, by decide,
   C15_equal_int32_int64 SpecHelpers .ARRAY .ARRAY (by decide) (by decide) (by decide)⟩

/-- C16: arity. The min/max functions are variadic with the least number of
operands that `Arity::VarArgs()` declares, here one: the arity check fails on
an empty operand list and passes on every other; a variadic function would
accept the empty list exactly if that number were zero. The comparison
functions pass the check for exactly two operands. The check is the first step
of both dispatchers: on failure the error is returned, the descriptor list is
unchanged and no pass has run. -/
theorem C16_arity {α : Type} [Comparable α] (H : DispatchHelpers)
    (values : List ValueDescr) :
    (∀ f ∈ [min_element_wise, max_element_wise],
      (CheckArity f []).code = StatusCode.Invalid ∧
      VarArgsCompareFunction.DispatchBest H f [] =
        { result := .error (CheckArity f []), values := [], trace := [] } ∧
      ((CheckArity f values).code = StatusCode.OK ↔ 1 ≤ values.length)) ∧
    (∀ (name : String) (m : Nat) (kernels : List (Kernel MinMaxExec)),
      (CheckArity { name := name, arity := Arity.VarArgs m, kernels := kernels } []).code =
        StatusCode.Invalid ↔ 0 < m) ∧
    (∀ p ∈ RegisteredComparisons α,
      ((CheckArity p.1 values).code = StatusCode.OK ↔ values.length = 2)) ∧
    (∀ (ε : Type) (func : FunctionImpl ε),
      (CheckArity func values).code ≠ StatusCode.OK →
      CompareFunction.DispatchBest H func values =
        { result := .error (CheckArity func values), values := values, trace := [] } ∧
      VarArgsCompareFunction.DispatchBest H func values =
        { result := .error (CheckArity func values), values := values, trace := [] }) := by
  refine ⟨?_, ?_, ?_, ?_⟩
  · intro f hf
    have ha : f.arity = Arity.VarArgs 1 := by
      simp only [List.mem_cons, List.mem_singleton, List.not_mem_nil, or_false] at hf
      rcases hf with rfl | rfl <;> rfl
    have h0 : (CheckArity f []).code = StatusCode.Invalid := by
      rcases CheckArity_code f [] with h | h
      · have := (CheckArity_varargs f [] 1 ha).1 h
        simp at this
      · exact h
    refine ⟨h0, ?_, CheckArity_varargs f values 1 ha⟩
    unfold VarArgsCompareFunction.DispatchBest
    simp [h0]
  · intro name m kernels
    have h := CheckArity_varargs
      ({ name := name, arity := Arity.VarArgs m, kernels := kernels } : FunctionImpl MinMaxExec)
      [] m rfl
    rcases CheckArity_code
      ({ name := name, arity := Arity.VarArgs m, kernels := kernels } : FunctionImpl MinMaxExec)
      [] with hc | hc
    · rw [hc]
      have := h.1 hc
      simp only [List.length_nil, Nat.le_zero_eq] at this
      simp [this]
    · rw [hc]
      simp only [true_iff]
      by_contra hm
      have hm0 : m ≤ ([] : List ValueDescr).length := by simp; omega
      have := h.2 hm0
      rw [hc] at this
      cases this
  · intro p hp
    exact CheckArity_binary p.1 values (RegisteredComparisons_signatures p hp).2
  · intro ε func hne
    constructor
    · unfold CompareFunction.DispatchBest
      simp [hne]
    · unfold VarArgsCompareFunction.DispatchBest
      simp [hne]

/-- C17: for all values `a` and `b` of one type, `Equal::Call(a, b)` is the boolean
negation of `NotEqual::Call(a, b)`, also for the IEEE equality of floating-point
values, where NaN is not equal to itself; hence wherever both inputs of `equal`
and `not_equal` are non-null, the two outputs are valid booleans that are
negations of each other. -/
theorem C17_equal_not_equal {α : Type} [Comparable α] (a b : α) (ty : DataType)
    (x y : Datum α) (n : Nat) (out : CompareOutput) :
    Equal.Call a b = !NotEqual.Call a b ∧
    (∀ u v : FloatValue,
      @Equal.Call FloatValue IeeeBEq u v = !@NotEqual.Call FloatValue IeeeBEq u v) ∧
    @Equal.Call FloatValue IeeeBEq .nan .nan = false ∧
    @NotEqual.Call FloatValue IeeeBEq .nan .nan = true ∧
    (∀ r1 r2,
      CallExact (equal α)
        { values := [{ type := ty, datum := x }, { type := ty, datum := y }], length := n }
        out = some r1 →
      CallExact (not_equal α)
        { values := [{ type := ty, datum := x }, { type := ty, datum := y }], length := n }
        out = some r2 →
      r1.2.Rows.length = r2.2.Rows.length ∧
      ∀ i, i < r1.2.Rows.length → ∀ u v, x.At i = some u → y.At i = some v →
        ∃ e, r1.2.Rows[i]? = some (some e) ∧ r2.2.Rows[i]? = some (some (!e))) := by
  refine ⟨?_, fun u v => ?_, rfl, rfl, fun r1 r2 h1 h2 => ?_⟩
  · simp [Equal.Call, NotEqual.Call, bne]
  · simp [Equal.Call, NotEqual.Call, bne]
  · have c1 := ((CallExact_MakeCompareFunction "equal" Equal.Call ty x y n out).2 r1 h1).2
    have c2 := ((CallExact_MakeCompareFunction "not_equal" NotEqual.Call ty x y n out).2 r2 h2).2
    refine ⟨by rw [c1.1, c2.1], fun i hi u v hu hv => ?_⟩
    refine ⟨Equal.Call u v, (c1.2 i hi).2 u v hu hv, ?_⟩
    have := (c2.2 i (by rw [c2.1, ← c1.1]; exact hi)).2 u v hu hv
    rw [this]
    simp [Equal.Call, NotEqual.Call, bne]

/-- C18: scalars are broadcast by the fixed-width kernel. In a batch of `n` rows
with at least one array operand, replacing a scalar operand by an array of
length `n` whose every element has the validity of the scalar and, where valid,
its value gives a result with the same rows (same validity of every row, same
value at every valid row), for both settings of `skip_nulls`, for
`min_element_wise` and for `max_element_wise`. -/
theorem C18_scalar_broadcast (T : IntType) (options : ElementWiseAggregateOptions)
    (front back : List (Datum Int)) (s : Scalar Int) (arr : ArrayData Int) (n : Nat)
    (output output2 : ArrayData Int)
    (wf : BatchWF { values := front ++ Datum.array arr :: back, length := n })
    (hrange : OperandsInRange T (front ++ Datum.array arr :: back) n)
    (harr : HasArray (front ++ Datum.scalar s :: back))
    (pre1 : Preallocated { values := front ++ Datum.scalar s :: back, length := n } output)
    (pre2 : Preallocated { values := front ++ Datum.array arr :: back, length := n } output2)
    (hcells : ∀ i, i < n →
      arr.IsValid i = s.is_valid ∧ (s.is_valid = true → arr.GetValue i = s.value)) :
    (∃ r1 r2,
      ScalarMinMax.Exec (Minimum T) options
        { values := front ++ Datum.scalar s :: back, length := n } (.array output) = some r1 ∧
      ScalarMinMax.Exec (Minimum T) options
        { values := front ++ Datum.array arr :: back, length := n } (.array output2) = some r2 ∧
      r1.Rows = r2.Rows) ∧
    (∃ r1 r2,
      ScalarMinMax.Exec (Maximum T) options
        { values := front ++ Datum.scalar s :: back, length := n } (.array output) = some r1 ∧
      ScalarMinMax.Exec (Maximum T) options
        { values := front ++ Datum.array arr :: back, length := n } (.array output2) = some r2 ∧
      r1.Rows = r2.Rows) := by
  obtain ⟨hmin, hmax⟩ := OperandsInRange_antiextreme T _ n hrange
  have hc : ∀ i, i < n → arr.Get? i = (Datum.scalar s).At i := by
    intro i hi
    obtain ⟨hv, hval⟩ := hcells i hi
    unfold ArrayData.Get? Datum.At
    simp only [hv]
    cases hs : s.is_valid with
    | false => rfl
    | true => simp only [if_true, hval hs]
  exact ⟨Exec_broadcast (Minimum T) _ (Minimum_laws T) options front back s arr n output output2
      wf hmin harr pre1 pre2 hc,
    Exec_broadcast (Maximum T) _ (Maximum_laws T) options front back s arr n output output2
      wf hmax harr pre1 pre2 hc⟩

/-- A sample run of C18: `[3, null, 7]` with the scalar `4`, and with the array
`[4, 4, 4]` in its place, with `skip_nulls = false`. -/
theorem C18_scalar_broadcast_witness :
    BatchWF { values := [sampleA] ++ Datum.array sampleBroadcast :: [], length := 3 } ∧
    OperandsInRange Int32 ([sampleA] ++ Datum.array sampleBroadcast :: []) 3 ∧
    HasArray ([sampleA] ++ Datum.scalar sampleScalar :: []) ∧
    Preallocated { values := [sampleA] ++ Datum.scalar sampleScalar :: [], length := 3 }
      sampleOutput ∧
    Preallocated { values := [sampleA] ++ Datum.array sampleBroadcast :: [], length := 3 }
      sampleOutput ∧
    (∀ i, i < 3 → sampleBroadcast.IsValid i = sampleScalar.is_valid ∧
      (sampleScalar.is_valid = true → sampleBroadcast.GetValue i = sampleScalar.value)) ∧
    (∃ r1 r2,
      ScalarMinMax.Exec (Minimum Int32) { skip_nulls := false }
        { values := [sampleA] ++ Datum.scalar sampleScalar :: [], length := 3 }
        (.array sampleOutput) = some r1 ∧
      ScalarMinMax.Exec (Minimum Int32) { skip_nulls := false }
        { values := [sampleA] ++ Datum.array sampleBroadcast :: [], length := 3 }
        (.array sampleOutput) = some r2 ∧
      r1.Rows = r2.Rows) ∧
    (∃ r1 r2,
      ScalarMinMax.Exec (Maximum Int32) { skip_nulls := false }
        { values := [sampleA] ++ Datum.scalar sampleScalar :: [], length := 3 }
        (.array sampleOutput) = some r1 ∧
      ScalarMinMax.Exec (Maximum Int32) { skip_nulls := false }
        { values := [sampleA] ++ Datum.array sampleBroadcast :: [], length := 3 }
        (.array sampleOutput) = some r2 ∧
      r1.Rows = r2.Rows) :=
  ⟨sampleBroadcast_batch_wf, OperandsInRange_of_all _ _ _ (by decide),
   ⟨sampleArray, List.mem_cons_self _ _⟩, ⟨rfl, rfl, rfl, rfl⟩, ⟨rfl, rfl, rfl, rfl⟩,
   (by decide),
   C18_scalar_broadcast Int32 { skip_nulls := false } [sampleA] [] sampleScalar
     sampleBroadcast 3 sampleOutput sampleOutput sampleBroadcast_batch_wf
     (OperandsInRange_of_all _ _ _ (by decide))
     ⟨sampleArray, List.mem_cons_self _ _⟩ ⟨rfl, rfl, rfl, rfl⟩ ⟨rfl, rfl, rfl, rfl⟩
     (by decide)⟩

/-- C19: the common-type step of `CompareFunction::DispatchBest`. After the arity
check, the decimal cast (if a type is decimal) and a failed exact match, let
`decoded` be the descriptor list after dictionary decoding and null-type
replacement. The rules are tried in the order numeric, temporal,
variable-length binary; the first one that yields a type replaces the type of
every operand, the later ones are not called, and all operands have that type
afterwards; if no rule yields a type the list is left as `decoded`. -/
theorem C19_common_type_order {ε : Type} (H : DispatchHelpers) (func : FunctionImpl ε)
    (values : List ValueDescr)
    (harity : (CheckArity func values).code = StatusCode.OK)
    (hcast : HasDecimal values = true →
      (H.CastBinaryDecimalArgs DecimalPromotion.kAdd values).1.code = StatusCode.OK)
    (hexact : DispatchExactImpl func (CompareFunction.AfterDecimalCast H values) = none) :
    (∀ t, H.CommonNumeric (H.ReplaceNullWithOtherType (H.EnsureDictionaryDecoded
        (CompareFunction.AfterDecimalCast H values))) = some t →
      (CompareFunction.DispatchBest H func values).values =
        ReplaceTypes t (H.ReplaceNullWithOtherType (H.EnsureDictionaryDecoded
          (CompareFunction.AfterDecimalCast H values))) ∧
      (∀ d ∈ (CompareFunction.DispatchBest H func values).values, d.type = t) ∧
      (CompareFunction.DispatchBest H func values).trace =
        (if HasDecimal values then [Pass.CastBinaryDecimalArgs] else []) ++
          [.EnsureDictionaryDecoded, .ReplaceNullWithOtherType, .CommonNumeric,
           .ReplaceTypes]) ∧
    (H.CommonNumeric (H.ReplaceNullWithOtherType (H.EnsureDictionaryDecoded
        (CompareFunction.AfterDecimalCast H values))) = none →
      ∀ t, H.CommonTemporal (H.ReplaceNullWithOtherType (H.EnsureDictionaryDecoded
        (CompareFunction.AfterDecimalCast H values))) = some t →
      (CompareFunction.DispatchBest H func values).values =
        ReplaceTypes t (H.ReplaceNullWithOtherType (H.EnsureDictionaryDecoded
          (CompareFunction.AfterDecimalCast H values))) ∧
      (∀ d ∈ (CompareFunction.DispatchBest H func values).values, d.type = t) ∧
      (CompareFunction.DispatchBest H func values).trace =
        (if HasDecimal values then [Pass.CastBinaryDecimalArgs] else []) ++
          [.EnsureDictionaryDecoded, .ReplaceNullWithOtherType, .CommonNumeric,
           .CommonTemporal, .ReplaceTypes]) ∧
    (H.CommonNumeric (H.ReplaceNullWithOtherType (H.EnsureDictionaryDecoded
        (CompareFunction.AfterDecimalCast H values))) = none →
      H.CommonTemporal (H.ReplaceNullWithOtherType (H.EnsureDictionaryDecoded
        (CompareFunction.AfterDecimalCast H values))) = none →
      ∀ t, H.CommonBinary (H.ReplaceNullWithOtherType (H.EnsureDictionaryDecoded
        (CompareFunction.AfterDecimalCast H values))) = some t →
      (CompareFunction.DispatchBest H func values).values =
        ReplaceTypes t (H.ReplaceNullWithOtherType (H.EnsureDictionaryDecoded
          (CompareFunction.AfterDecimalCast H values))) ∧
      (∀ d ∈ (CompareFunction.DispatchBest H func values).values, d.type = t) ∧
      (CompareFunction.DispatchBest H func values).trace =
        (if HasDecimal values then [Pass.CastBinaryDecimalArgs] else []) ++
          [.EnsureDictionaryDecoded, .ReplaceNullWithOtherType, .CommonNumeric,
           .CommonTemporal, .CommonBinary, .ReplaceTypes]) ∧
    (H.CommonNumeric (H.ReplaceNullWithOtherType (H.EnsureDictionaryDecoded
        (CompareFunction.AfterDecimalCast H values))) = none →
      H.CommonTemporal (H.ReplaceNullWithOtherType (H.EnsureDictionaryDecoded
        (CompareFunction.AfterDecimalCast H values))) = none →
      H.CommonBinary (H.ReplaceNullWithOtherType (H.EnsureDictionaryDecoded
        (CompareFunction.AfterDecimalCast H values))) = none →
      (CompareFunction.DispatchBest H func values).values =
        H.ReplaceNullWithOtherType (H.EnsureDictionaryDecoded
          (CompareFunction.AfterDecimalCast H values)) ∧
      (CompareFunction.DispatchBest H func values).trace =
        (if HasDecimal values then [Pass.CastBinaryDecimalArgs] else []) ++
          [.EnsureDictionaryDecoded, .ReplaceNullWithOtherType, .CommonNumeric,
           .CommonTemporal, .CommonBinary]) := by
  rw [CompareFunction_DispatchBest_eq H func values harity hcast]
  obtain ⟨hv, ht⟩ := DispatchExactOrPromote_values H func
    (CompareFunction.AfterDecimalCast H values)
    (if HasDecimal values then [Pass.CastBinaryDecimalArgs] else []) hexact
  rw [hv, ht]
  refine ⟨fun t h1 => ?_, fun h1 t h2 => ?_, fun h1 h2 t h3 => ?_, fun h1 h2 h3 => ?_⟩
  · simp only [CompareFunction.CommonTypes, h1, List.append_assoc, List.cons_append,
      List.nil_append]
    refine ⟨?_, ?_, ?_⟩ <;> first | trivial | rfl | exact ReplaceTypes_type t _
  · simp only [CompareFunction.CommonTypes, h1, h2, List.append_assoc, List.cons_append,
      List.nil_append]
    refine ⟨?_, ?_, ?_⟩ <;> first | trivial | rfl | exact ReplaceTypes_type t _
  · simp only [CompareFunction.CommonTypes, h1, h2, h3, List.append_assoc, List.cons_append,
      List.nil_append]
    refine ⟨?_, ?_, ?_⟩ <;> first | trivial | rfl | exact ReplaceTypes_type t _
  · simp only [CompareFunction.CommonTypes, h1, h2, h3, List.append_assoc, List.cons_append,
      List.nil_append]
    refine ⟨?_, ?_⟩ <;> trivial

/-- A sample run of C19: `equal` on `(int32, int64)` with the helpers as the
specification describes them; the numeric rule yields `int64`, both operands
become `int64`, and neither the temporal nor the binary rule is applied. -/
theorem C19_common_type_order_witness :
    (CheckArity (equal Int) int32Int64).code = StatusCode.OK ∧
    (HasDecimal int32Int64 = true →
      (SpecHelpers.CastBinaryDecimalArgs DecimalPromotion.kAdd int32Int64).1.code =
        StatusCode.OK) ∧
    DispatchExactImpl (equal Int) (CompareFunction.AfterDecimalCast SpecHelpers int32Int64) =
      none ∧
    (CompareFunction.DispatchBest SpecHelpers (equal Int) int32Int64).values = int64Int64 ∧
    (CompareFunction.DispatchBest SpecHelpers (equal Int) int32Int64).trace =
      [.EnsureDictionaryDecoded, .ReplaceNullWithOtherType, .CommonNumeric, .ReplaceTypes] := by
  have harity : (CheckArity (equal Int) int32Int64).code = StatusCode.OK :=
    (CheckArity_binary _ _ rfl).2 rfl
  have hcast : HasDecimal int32Int64 = true →
      (SpecHelpers.CastBinaryDecimalArgs DecimalPromotion.kAdd int32Int64).1.code =
        StatusCode.OK := fun h => by cases h
  have hexact : DispatchExactImpl (equal Int)
      (CompareFunction.AfterDecimalCast SpecHelpers int32Int64) = none :=
    DispatchExactImpl_none_of_signatures (equal Int) CompareSignatures
      (MakeCompareFunction_signatures _ _) _ (CompareSignatures_int32_int64 .ARRAY .ARRAY)
  have h := (C19_common_type_order SpecHelpers (equal Int) int32Int64 harity hcast hexact).1
    .int64 (by decide)
  refine ⟨harity, hcast, hexact, ?_, ?_⟩
  · rw [h.1]; decide
  · rw [h.2.2]; decide

/-- C20 (counterexample): on the operand types `(binary, large_binary)`, which contain
no decimal type and have no exact kernel, the comparison dispatcher unifies
both types to `large_binary` while the min/max dispatcher leaves the list as it
is; on `(null, int32)` the comparison dispatcher replaces the null type while
the min/max dispatcher does not. -/
theorem C20_dispatchers_differ :
    HasDecimal binaryLargeBinary = false ∧
    DispatchExactImpl (equal Int) binaryLargeBinary = none ∧
    DispatchExactImpl min_element_wise binaryLargeBinary = none ∧
    (CompareFunction.DispatchBest SpecHelpers (equal Int) binaryLargeBinary).values =
      [{ type := .large_binary, shape := .ARRAY }, { type := .large_binary, shape := .ARRAY }] ∧
    (VarArgsCompareFunction.DispatchBest SpecHelpers min_element_wise binaryLargeBinary).values =
      binaryLargeBinary ∧
    HasDecimal nullInt32 = false ∧
    (CompareFunction.DispatchBest SpecHelpers (equal Int) nullInt32).values =
      [{ type := .int32, shape := .SCALAR }, { type := .int32, shape := .ARRAY }] ∧
    (VarArgsCompareFunction.DispatchBest SpecHelpers min_element_wise nullInt32).values =
      nullInt32 := by
  have hc : ∀ values, values.length = 2 →
      (CheckArity (equal Int) values).code = StatusCode.OK :=
    fun values h => (CheckArity_binary _ _ rfl).2 h
  have hm : ∀ values : List ValueDescr, 1 ≤ values.length →
      (CheckArity min_element_wise values).code = StatusCode.OK :=
    fun values h => (CheckArity_varargs _ _ 1 rfl).2 h
  have e1 := DispatchExactImpl_none_of_signatures (equal Int) CompareSignatures
    (MakeCompareFunction_signatures _ _) binaryLargeBinary (by decide)
  have e2 := DispatchExactImpl_none_of_signatures min_element_wise MinMaxSignatures
    (MakeScalarMinMax_signatures _ _) binaryLargeBinary (by decide)
  have e3 := DispatchExactImpl_none_of_signatures (equal Int) CompareSignatures
    (MakeCompareFunction_signatures _ _) nullInt32 (by decide)
  have e4 := DispatchExactImpl_none_of_signatures min_element_wise MinMaxSignatures
    (MakeScalarMinMax_signatures _ _) nullInt32 (by decide)
  have d1 : HasDecimal binaryLargeBinary = false := by decide
  have d2 : HasDecimal nullInt32 = false := by decide
  refine ⟨d1, e1, e2, ?_, ?_, d2, ?_, ?_⟩
  · rw [CompareFunction_DispatchBest_eq SpecHelpers _ _ (hc binaryLargeBinary rfl)
      (fun h => by rw [d1] at h; cases h)]
    have hv : CompareFunction.AfterDecimalCast SpecHelpers binaryLargeBinary =
        binaryLargeBinary := by decide
    rw [hv, (DispatchExactOrPromote_values SpecHelpers _ _ _ e1).1]
    decide
  · rw [(VarArgs_DispatchBest_values SpecHelpers _ _ (hm _ (by decide)) e2).1]
    decide
  · rw [CompareFunction_DispatchBest_eq SpecHelpers _ _ (hc nullInt32 rfl)
      (fun h => by rw [d2] at h; cases h)]
    have hv : CompareFunction.AfterDecimalCast SpecHelpers nullInt32 = nullInt32 := by decide
    rw [hv, (DispatchExactOrPromote_values SpecHelpers _ _ _ e3).1]
    decide
  · rw [(VarArgs_DispatchBest_values SpecHelpers _ _ (hm _ (by decide)) e4).1]
    decide

/-- C20 (amended): for an operand list without decimal type on which exact dispatch
fails, the min/max dispatcher `VarArgsCompareFunction::DispatchBest` applies
dictionary decoding and then the numeric or, failing that, the temporal common
type; it calls neither the null-type replacement, nor the variable-length
binary common type, nor the decimal cast. It leaves the same type list as the
comparison dispatcher `CompareFunction::DispatchBest` whenever the null-type
replacement leaves the decoded list as it is and a numeric or temporal common
type exists or no variable-length binary common type exists. -/
theorem C20_varargs_passes {ε ε' : Type} (H : DispatchHelpers) (f : FunctionImpl ε)
    (g : FunctionImpl ε') (values : List ValueDescr)
    (hf : (CheckArity f values).code = StatusCode.OK)
    (hg : (CheckArity g values).code = StatusCode.OK)
    (hdec : HasDecimal values = false)
    (hfx : DispatchExactImpl f values = none)
    (hgx : DispatchExactImpl g values = none) :
    (∀ t, H.CommonNumeric (H.EnsureDictionaryDecoded values) = some t →
      (VarArgsCompareFunction.DispatchBest H g values).values =
        ReplaceTypes t (H.EnsureDictionaryDecoded values)) ∧
    (H.CommonNumeric (H.EnsureDictionaryDecoded values) = none →
      ∀ t, H.CommonTemporal (H.EnsureDictionaryDecoded values) = some t →
      (VarArgsCompareFunction.DispatchBest H g values).values =
        ReplaceTypes t (H.EnsureDictionaryDecoded values)) ∧
    (H.CommonNumeric (H.EnsureDictionaryDecoded values) = none →
      H.CommonTemporal (H.EnsureDictionaryDecoded values) = none →
      (VarArgsCompareFunction.DispatchBest H g values).values =
        H.EnsureDictionaryDecoded values) ∧
    (Pass.ReplaceNullWithOtherType ∉ (VarArgsCompareFunction.DispatchBest H g values).trace ∧
      Pass.CommonBinary ∉ (VarArgsCompareFunction.DispatchBest H g values).trace ∧
      Pass.CastBinaryDecimalArgs ∉ (VarArgsCompareFunction.DispatchBest H g values).trace) ∧
    (H.ReplaceNullWithOtherType (H.EnsureDictionaryDecoded values) =
        H.EnsureDictionaryDecoded values →
      (H.CommonNumeric (H.EnsureDictionaryDecoded values) ≠ none ∨
        H.CommonTemporal (H.EnsureDictionaryDecoded values) ≠ none ∨
        H.CommonBinary (H.EnsureDictionaryDecoded values) = none) →
      (CompareFunction.DispatchBest H f values).values =
        (VarArgsCompareFunction.DispatchBest H g values).values) := by
  obtain ⟨gv, gt⟩ := VarArgs_DispatchBest_values H g values hg hgx
  have fv : (CompareFunction.DispatchBest H f values).values =
      (CompareFunction.CommonTypes H
        (H.ReplaceNullWithOtherType (H.EnsureDictionaryDecoded values))).1 := by
    rw [CompareFunction_DispatchBest_eq H f values hf (fun h => by rw [hdec] at h; cases h)]
    simp only [CompareFunction.AfterDecimalCast, hdec, Bool.false_eq_true, if_false]
    exact (DispatchExactOrPromote_values H f values [] hfx).1
  rw [gv, gt, fv]
  refine ⟨fun t h1 => ?_, fun h1 t h2 => ?_, fun h1 h2 => ?_, ?_, fun hnull hcommon => ?_⟩
  · simp only [VarArgsCompareFunction.CommonTypes, h1]
  · simp only [VarArgsCompareFunction.CommonTypes, h1, h2]
  · simp only [VarArgsCompareFunction.CommonTypes, h1, h2]
  · unfold VarArgsCompareFunction.CommonTypes
    cases H.CommonNumeric (H.EnsureDictionaryDecoded values) with
    | some t => simp
    | none =>
      cases H.CommonTemporal (H.EnsureDictionaryDecoded values) with
      | some t => simp
      | none => simp
  · rw [hnull]
    unfold CompareFunction.CommonTypes VarArgsCompareFunction.CommonTypes
    cases h1 : H.CommonNumeric (H.EnsureDictionaryDecoded values) with
    | some t => rfl
    | none =>
      cases h2 : H.CommonTemporal (H.EnsureDictionaryDecoded values) with
      | some t => rfl
      | none =>
        rcases hcommon with h | h | h
        · exact absurd h1 h
        · exact absurd h2 h
        · simp only [h]

/-- A sample run of the amended C20: `equal` and `min_element_wise` on
`(int32, int64)` with the helpers as the specification describes them; both
dispatchers leave `(int64, int64)`. -/
theorem C20_varargs_passes_witness :
    (CheckArity (equal Int) int32Int64).code = StatusCode.OK ∧
    (CheckArity min_element_wise int32Int64).code = StatusCode.OK ∧
    HasDecimal int32Int64 = false ∧
    DispatchExactImpl (equal Int) int32Int64 = none ∧
    DispatchExactImpl min_element_wise int32Int64 = none ∧
    (VarArgsCompareFunction.DispatchBest SpecHelpers min_element_wise int32Int64).values =
      int64Int64 ∧
    (CompareFunction.DispatchBest SpecHelpers (equal Int) int32Int64).values =
      (VarArgsCompareFunction.DispatchBest SpecHelpers min_element_wise int32Int64).values := by
  have hf : (CheckArity (equal Int) int32Int64).code = StatusCode.OK :=
    (CheckArity_binary _ _ rfl).2 rfl
  have hg : (CheckArity min_element_wise int32Int64).code = StatusCode.OK :=
    (CheckArity_varargs _ _ 1 rfl).2 (by decide)
  have hdec : HasDecimal int32Int64 = false := by decide
  have hfx : DispatchExactImpl (equal Int) int32Int64 = none :=
    DispatchExactImpl_none_of_signatures (equal Int) CompareSignatures
      (MakeCompareFunction_signatures _ _) _ (CompareSignatures_int32_int64 .ARRAY .ARRAY)
  have hgx : DispatchExactImpl min_element_wise int32Int64 = none :=
    DispatchExactImpl_none_of_signatures min_element_wise MinMaxSignatures
      (MakeScalarMinMax_signatures _ _) _ (MinMaxSignatures_int32_int64 .ARRAY .ARRAY)
  have h := C20_varargs_passes SpecHelpers (equal Int) min_element_wise int32Int64
    hf hg hdec hfx hgx
  refine ⟨hf, hg, hdec, hfx, hgx, ?_, h.2.2.2.2 (by decide) (Or.inl (by decide))⟩
  rw [h.1 .int64 (by decide)]; decide

/-- C22 (evaluation at the failing input): for the one-operand batch `[null]` with
`skip_nulls = true` the output row is null, with `Minimum` and with `Maximum`,
yet `CalculateRowSize` returns `0`, not `-1`; likewise for the all-scalar batch
`(null)`. In general `CalculateRowSize` returns `-1` exactly when nulls are not
skipped and some operand is null at the position; otherwise it is non-negative,
at least the element size of every operand valid at the position, and `0` or
the element size of one of them. -/
theorem C22_all_null_row_size :
    BinaryScalarMinMax.CalculateRowSize { skip_nulls := true } binaryNullBatch 0 = 0 ∧
    binaryNullBatch.values.map (fun d => d.At 0) = [none] ∧
    (BinaryScalarMinMax.ExecContainingArrays Minimum.CallBinary { skip_nulls := true }
      binaryNullBatch).rows = [none] ∧
    (BinaryScalarMinMax.ExecContainingArrays Maximum.CallBinary { skip_nulls := true }
      binaryNullBatch).rows = [none] ∧
    BinaryScalarMinMax.CalculateRowSize { skip_nulls := true } binaryScalarNullBatch 0 = 0 ∧
    (∀ (options : ElementWiseAggregateOptions) (batch : BinaryExecBatch) (index : Nat),
      (BinaryScalarMinMax.CalculateRowSize options batch index = -1 ↔
        options.skip_nulls = false ∧ ∃ d ∈ batch.values, d.At index = none) ∧
      (BinaryScalarMinMax.CalculateRowSize options batch index ≠ -1 →
        0 ≤ BinaryScalarMinMax.CalculateRowSize options batch index ∧
        (∀ d ∈ batch.values, (d.At index).isSome = true →
          ElementSize index d ≤ BinaryScalarMinMax.CalculateRowSize options batch index) ∧
        (BinaryScalarMinMax.CalculateRowSize options batch index = 0 ∨
          ∃ d ∈ batch.values, (d.At index).isSome = true ∧
            BinaryScalarMinMax.CalculateRowSize options batch index = ElementSize index d))) :=
  ⟨by decide, by decide, by decide, by decide, by decide,
   fun options batch index => ⟨CalculateRowSize_eq_neg_one options batch index,
     CalculateRowSize_max options batch index⟩⟩

/-- C23: the presized byte count of the binary kernel is never exceeded. In
`ExecContainingArrays`, with `Minimum` and with `Maximum`, one row is appended
for every row of the batch and the bytes appended are at most the sum of the
positive results of `CalculateRowSize`. In `ExecOnlyScalar`, for a first
operand that holds no bytes when it is null, the folded result is at most
`CalculateRowSize(.., 0)` bytes long whenever that size is not negative, so
that the copy stays inside the allocated buffer. -/
theorem C23_presized (options : ElementWiseAggregateOptions) (batch : BinaryExecBatch) :
    ((BinaryScalarMinMax.ExecContainingArrays Minimum.CallBinary options batch).rows.length =
        batch.length ∧
      ((BinaryScalarMinMax.ExecContainingArrays Minimum.CallBinary options
          batch).total_values_length : Int) ≤
        (BinaryScalarMinMax.ExecContainingArrays Minimum.CallBinary options
          batch).final_size) ∧
    ((BinaryScalarMinMax.ExecContainingArrays Maximum.CallBinary options batch).rows.length =
        batch.length ∧
      ((BinaryScalarMinMax.ExecContainingArrays Maximum.CallBinary options
          batch).total_values_length : Int) ≤
        (BinaryScalarMinMax.ExecContainingArrays Maximum.CallBinary options
          batch).final_size) ∧
    (∀ (front : BinaryScalar) (rest : List BinaryDatum) (result : Bytes),
      batch.values = BinaryDatum.scalar front :: rest →
      (front.is_valid = false → front.value = []) →
      ¬ BinaryScalarMinMax.CalculateRowSize options batch 0 < 0 →
      (BinaryScalarMinMax.ExecOnlyScalarLoop Minimum.CallBinary options rest
          (BinaryScalarMinMax.Unbox front) = some result ∨
        BinaryScalarMinMax.ExecOnlyScalarLoop Maximum.CallBinary options rest
          (BinaryScalarMinMax.Unbox front) = some result) →
      (result.length : Int) ≤ BinaryScalarMinMax.CalculateRowSize options batch 0) := by
  refine ⟨ExecContainingArrays_presized _ MinimumBinary_laws.sel options batch,
    ExecContainingArrays_presized _ MaximumBinary_laws.sel options batch, ?_⟩
  intro front rest result hbatch hnull hsize h
  rcases h with h | h
  · exact ExecOnlyScalar_presized _ MinimumBinary_laws.sel options batch front rest result
      hbatch hnull hsize h
  · exact ExecOnlyScalar_presized _ MaximumBinary_laws.sel options batch front rest result
      hbatch hnull hsize h

/-- C24: the integer antiextreme is neutral for its operator. For every integer
type and every value `x` of that type, `Minimum::Call(Minimum::antiextreme(), x)`
is `x`, the sentinel being `numeric_limits::max()`, and
`Maximum::Call(Maximum::antiextreme(), x)` is `x`, the sentinel being
`numeric_limits::min()`; so when the fold pass visits a valid element `x` at an
output position that holds the sentinel, the position holds `x` afterwards,
whether the output row counts as valid or not. The sentinels of the signed and
unsigned types of 8, 16, 32 and 64 bits are listed. -/
theorem C24_antiextreme_neutral (T : IntType) (x : Int) (hx : T.InRange x) :
    (Minimum T).antiextreme = T.numeric_limits_max ∧
    (Maximum T).antiextreme = T.numeric_limits_min ∧
    (Minimum T).Call (Minimum T).antiextreme x = x ∧
    (Maximum T).Call (Maximum T).antiextreme x = x ∧
    (∀ (array output : ArrayData Int) (k : Nat), k < output.values.length →
      array.Get? k = some x →
      (output.values.getD k default = (Minimum T).antiextreme →
        (ScalarMinMax.VisitElement (Minimum T) array output k).values.getD k default = x) ∧
      (output.values.getD k default = (Maximum T).antiextreme →
        (ScalarMinMax.VisitElement (Maximum T) array output k).values.getD k default = x)) ∧
    [8, 16, 32, 64].map (fun bits => (Minimum { is_signed := true, bits := bits }).antiextreme) =
      [127, 32767, 2147483647, 9223372036854775807] ∧
    [8, 16, 32, 64].map (fun bits => (Minimum { is_signed := false, bits := bits }).antiextreme) =
      [255, 65535, 4294967295, 18446744073709551615] ∧
    [8, 16, 32, 64].map (fun bits => (Maximum { is_signed := true, bits := bits }).antiextreme) =
      [-128, -32768, -2147483648, -9223372036854775808] ∧
    [8, 16, 32, 64].map (fun bits => (Maximum { is_signed := false, bits := bits }).antiextreme) =
      [0, 0, 0, 0] := by
  have hmin := Minimum_antiextreme T x hx
  have hmax := Maximum_antiextreme T x hx
  refine ⟨rfl, rfl, hmin, hmax, ?_, by decide, by decide, by decide, by decide⟩
  intro array output k hk hget
  constructor
  · intro hout
    rw [VisitElement_getD _ _ _ _ _ hk, if_pos rfl, hget, hout]
    unfold RowStep
    simp only [hmin, ite_self]
  · intro hout
    rw [VisitElement_getD _ _ _ _ _ hk, if_pos rfl, hget, hout]
    unfold RowStep
    simp only [hmax, ite_self]

/-- A sample run of C24: the value `5` of `int32`. -/
theorem C24_antiextreme_neutral_witness :
    Int32.InRange 5 ∧
    (Minimum Int32).Call (Minimum Int32).antiextreme 5 = 5 ∧
    (Maximum Int32).Call (Maximum Int32).antiextreme 5 = 5 :=
  ⟨by decide, (C24_antiextreme_neutral Int32 5 (by decide)).2.2.1,
   (C24_antiextreme_neutral Int32 5 (by decide)).2.2.2.1⟩

/-- C25: `ExecContainingArrays` on batches in which every valid operand element is a
non-empty byte string. One row is appended for every row of the batch; a row is
null iff no operand is valid at that row, or `skip_nulls` is false and some
operand is null at that row; and a row that is not null holds the
lexicographic minimum (`Minimum`) or maximum (`Maximum`) of the byte strings of
the operands valid at that row. -/
theorem C25_nonempty_rows (options : ElementWiseAggregateOptions) (batch : BinaryExecBatch)
    (hne : ∀ d ∈ batch.values, ∀ row, row < batch.length → ∀ v, d.At row = some v → v ≠ []) :
    (BinaryScalarMinMax.ExecContainingArrays Minimum.CallBinary options batch).rows.length =
      batch.length ∧
    (BinaryScalarMinMax.ExecContainingArrays Maximum.CallBinary options batch).rows.length =
      batch.length ∧
    ∀ row, row < batch.length →
      (∃ r, (BinaryScalarMinMax.ExecContainingArrays Minimum.CallBinary options
          batch).rows[row]? = some r ∧
        (r = none ↔
          (∀ d ∈ batch.values, d.At row = none) ∨
          (options.skip_nulls = false ∧ ∃ d ∈ batch.values, d.At row = none)) ∧
        (∀ v, r = some v →
          IsExtreme string_view_le v (batch.values.filterMap (fun d => d.At row)))) ∧
      (∃ r, (BinaryScalarMinMax.ExecContainingArrays Maximum.CallBinary options
          batch).rows[row]? = some r ∧
        (r = none ↔
          (∀ d ∈ batch.values, d.At row = none) ∨
          (options.skip_nulls = false ∧ ∃ d ∈ batch.values, d.At row = none)) ∧
        (∀ v, r = some v →
          IsExtreme (fun a b => string_view_le b a) v
            (batch.values.filterMap (fun d => d.At row)))) := by
  refine ⟨by simp [BinaryScalarMinMax.ExecContainingArrays],
    by simp [BinaryScalarMinMax.ExecContainingArrays], fun row hrow => ?_⟩
  have hr : ∀ d ∈ batch.values, ∀ v, d.At row = some v → v ≠ [] :=
    fun d hd v hv => hne d hd row hrow v hv
  have hmin := ExecRow_spec Minimum.CallBinary _ MinimumBinary_laws options batch row hr
  have hmax := ExecRow_spec Maximum.CallBinary _ MaximumBinary_laws options batch row hr
  exact ⟨⟨_, ExecContainingArrays_row _ options batch row hrow, hmin.1, hmin.2⟩,
    ⟨_, ExecContainingArrays_row _ options batch row hrow, hmax.1, hmax.2⟩⟩

/-- A sample run of C25: the batch `["abc"]`, `["b"]`, `[null]` with
`skip_nulls = true`; the row holds `"abc"` for `Minimum` and `"b"` for `Maximum`. -/
theorem C25_nonempty_rows_witness :
    (∀ d ∈ binaryAbcBNullBatch.values, ∀ row, row < binaryAbcBNullBatch.length →
      ∀ v, d.At row = some v → v ≠ []) ∧
    (BinaryScalarMinMax.ExecContainingArrays Minimum.CallBinary { skip_nulls := true }
      binaryAbcBNullBatch).rows = [some [97, 98, 99]] ∧
    (BinaryScalarMinMax.ExecContainingArrays Maximum.CallBinary { skip_nulls := true }
      binaryAbcBNullBatch).rows = [some [98]] ∧
    IsExtreme string_view_le [97, 98, 99]
      (binaryAbcBNullBatch.values.filterMap (fun d => d.At 0)) ∧
    IsExtreme (fun a b => string_view_le b a) [98]
      (binaryAbcBNullBatch.values.filterMap (fun d => d.At 0)) := by
  have hne := nonempty_of_all binaryAbcBNullBatch.values binaryAbcBNullBatch.length
    (by decide)
  have h := (C25_nonempty_rows { skip_nulls := true } binaryAbcBNullBatch hne).2.2 0
    (by decide)
  have e1 : (BinaryScalarMinMax.ExecContainingArrays Minimum.CallBinary
      { skip_nulls := true } binaryAbcBNullBatch).rows = [some [97, 98, 99]] := by decide
  have e2 : (BinaryScalarMinMax.ExecContainingArrays Maximum.CallBinary
      { skip_nulls := true } binaryAbcBNullBatch).rows = [some [98]] := by decide
  obtain ⟨⟨r1, hr1, _, hv1⟩, ⟨r2, hr2, _, hv2⟩⟩ := h
  rw [e1] at hr1
  rw [e2] at hr2
  simp only [List.getElem?_cons_zero, Option.some.injEq] at hr1 hr2
  exact ⟨hne, e1, e2, hv1 _ hr1.symm, hv2 _ hr2.symm⟩

/-- C26: single-operand identity of the fixed-width kernel. For an array `a` of an
integer type and both settings of `skip_nulls`, `min_element_wise(a)` and
`max_element_wise(a)` succeed and return an array with the length of `a`, the
validity of `a` at every row and the value of `a` at every valid row. -/
theorem C26_single_operand (T : IntType) (options : ElementWiseAggregateOptions)
    (a : ArrayData Int) (n : Nat) (output : ArrayData Int)
    (wf : BatchWF { values := [Datum.array a], length := n })
    (hrange : OperandsInRange T [Datum.array a] n)
    (pre : Preallocated { values := [Datum.array a], length := n } output) :
    (∃ r, ScalarMinMax.Exec (Minimum T) options { values := [Datum.array a], length := n }
        (.array output) = some (.array r) ∧
      r.length = a.length ∧
      ∀ i, i < a.length → r.IsValid i = a.IsValid i ∧
        (a.IsValid i = true → r.GetValue i = a.GetValue i)) ∧
    (∃ r, ScalarMinMax.Exec (Maximum T) options { values := [Datum.array a], length := n }
        (.array output) = some (.array r) ∧
      r.length = a.length ∧
      ∀ i, i < a.length → r.IsValid i = a.IsValid i ∧
        (a.IsValid i = true → r.GetValue i = a.GetValue i)) := by
  have hin : ∀ i, i < n → a.IsValid i = true → T.InRange (a.GetValue i) := by
    intro i hi hv
    apply hrange (Datum.array a) (List.mem_singleton.2 rfl) i hi
    simp only [Datum.At, ArrayData.Get?, hv, if_true]
  exact ⟨Exec_single (Minimum T) _ (Minimum_laws T) options a n output wf
      (fun i hi hv => Minimum_antiextreme T _ (hin i hi hv)) pre,
    Exec_single (Maximum T) _ (Maximum_laws T) options a n output wf
      (fun i hi hv => Maximum_antiextreme T _ (hin i hi hv)) pre⟩

/-- A sample run of C26: the array `[3, null, 7]` of `int32`, with
`skip_nulls = false`. -/
theorem C26_single_operand_witness :
    BatchWF { values := [Datum.array sampleArray], length := 3 } ∧
    OperandsInRange Int32 [Datum.array sampleArray] 3 ∧
    Preallocated { values := [Datum.array sampleArray], length := 3 } sampleOutput ∧
    (∃ r, ScalarMinMax.Exec (Minimum Int32) { skip_nulls := false }
        { values := [Datum.array sampleArray], length := 3 } (.array sampleOutput) =
          some (.array r) ∧
      r.length = sampleArray.length ∧
      ∀ i, i < sampleArray.length → r.IsValid i = sampleArray.IsValid i ∧
        (sampleArray.IsValid i = true → r.GetValue i = sampleArray.GetValue i)) :=
  ⟨sampleA_wf, OperandsInRange_of_all _ _ _ (by decide), ⟨rfl, rfl, rfl, rfl⟩,
   (C26_single_operand Int32 { skip_nulls := false } sampleArray 3 sampleOutput sampleA_wf
     (OperandsInRange_of_all _ _ _ (by decide)) ⟨rfl, rfl, rfl, rfl⟩).1⟩

end Arrow
